import Mathlib

/-!
# Verification of the `graph_searcher` embedded-graph engine

Shallow embedding of the core data structures and algorithms of the
repository (`graph_searcher/data_structures/{vertex,edge,graph}`):

* vertices, edges and graphs with the adjacency-list representation of
  `graph.py` / `vertex.py` / `edge.py`;
* the mutating operations `add_vertex`, `add_edge`, `Vertex.connect`,
  `Graph.remove`, `Graph.__getitem__`;
* the lazy connectivity labeller `UndirectedGraph._graphcolor` and
  `number_of_components`;
* the three search algorithms `path_BFS`, `path_UCS`, `path_Astar`.

Python objects are modelled by arena indices (`Vid`, `Eid`): object
identity (`is`, dict keys, `in` on lists of vertices) becomes index
equality.  Python `dict`s become insertion-ordered association lists
whose update-in-place keeps the position of an existing key.  Python
exceptions become values of `PyErr`; mutating operations return the
state reached at the moment of the raise (Python does not roll back).
Numeric costs are modelled by `ℚ`.  Loops that Python runs unboundedly
are given explicit fuel that provably exceeds the number of iterations
any actual run performs; exhausted fuel is reported as the designated
error `PyErr.nonterm` (standing for a non-terminating Python loop).
-/

namespace GS

/-- Vertex identity: index into the graph's vertex arena. -/
abbrev Vid := Nat

/-- Edge identity: index into the graph's edge arena. -/
abbrev Eid := Nat

/-- Coordinates (`Vertex.coord`), a vector of scalars. -/
abbrev Coord := List ℚ

/-- Python exceptions that the modelled code can raise.  `nonterm` is the
model's marker for a Python loop that does not terminate. -/
inductive PyErr where
  | nameError (s : String)
  | keyError (s : String)
  | keyErrorV (v : Vid)
  | indexError
  | typeError (s : String)
  | valueError (s : String)
  | attributeError (s : String)
  | nonterm
deriving DecidableEq

/-- The Python classes relevant to the `connect` kind check
(`vertex.py` line 120 compares `__class__.__bases__[0]` of the two
endpoints). -/
inductive PyClass where
  | objectCls
  | vertexCls
  | uVertexCls
  | dVertexCls
deriving DecidableEq

/-- `cls.__bases__[0]` for the vertex class hierarchy
(`Vertex(object)`, `UndirectedVertex(Vertex)`, `DirectedVertex(Vertex)`). -/
def PyClass.base : PyClass → PyClass
  | .uVertexCls => .vertexCls
  | .dVertexCls => .vertexCls
  | .vertexCls => .objectCls
  | .objectCls => .objectCls

/-- `Vertex` (vertex.py lines 16-27): name, optional coordinate,
component label, dirty flag, ordered incidence list, and the class tag
used by the `connect` kind check.  The `_graph` back reference is
implicit: the model works with a single owning graph. -/
structure Vertex where
  name : Option String
  coord : Option Coord
  label : Option Nat
  cchange : Bool
  edgelist : List Eid
  cls : PyClass
deriving DecidableEq

instance : Inhabited Vertex := ⟨⟨none, none, none, true, [], .uVertexCls⟩⟩

/-- `Vertex.__init__` (vertex.py lines 16-27). -/
def Vertex.init (coord : Option Coord) (name : Option String)
    (cls : PyClass) : Vertex :=
  ⟨name, coord, none, true, [], cls⟩

/-- `Edge` (edge.py lines 26-67): endpoint references (set to `None` by
`Graph.remove`) and the optional cost.  The `data` payload is not
modelled; no claim observes it. -/
structure Edge where
  v1 : Option Vid
  v2 : Option Vid
  cost : Option ℚ
deriving DecidableEq

instance : Inhabited Edge := ⟨⟨none, none, none⟩⟩

instance {ε α : Type} [DecidableEq ε] [DecidableEq α] :
    DecidableEq (Except ε α) := fun a b =>
  match a, b with
  | .ok x, .ok y =>
    if h : x = y then .isTrue (by rw [h]) else
      .isFalse (fun hc => h (Except.ok.injEq x y ▸ hc))
  | .error x, .error y =>
    if h : x = y then .isTrue (by rw [h]) else
      .isFalse (fun hc => h (Except.error.injEq x y ▸ hc))
  | .ok _, .error _ => .isFalse (fun hc => Except.noConfusion hc)
  | .error _, .ok _ => .isFalse (fun hc => Except.noConfusion hc)

/-- Insertion-ordered Python dict with `String` keys (`_vertexdict`):
update in place keeps the position of an existing key. -/
def dictSet (d : List (String × Vid)) (k : String) (v : Vid) :
    List (String × Vid) :=
  if d.any (fun p => p.1 = k) then
    d.map (fun p => if p.1 = k then (k, v) else p)
  else
    d ++ [(k, v)]

/-- Dict lookup. -/
def dictGet (d : List (String × Vid)) (k : String) : Option Vid :=
  (d.find? (fun p => p.1 = k)).map (fun p => p.2)

/-- Dict deletion (`del d[k]`); the caller checks presence. -/
def dictDel (d : List (String × Vid)) (k : String) : List (String × Vid) :=
  d.filter (fun p => p.1 ≠ k)

/-- `Graph` (graph.py lines 17-27): ordered vertex list, name index,
edge set, verbosity is ignored (print-only), the metric and heuristic
are scalar functions of a coordinate delta (graph.py lines 366-455).
`cchange` models the `_connectivitychange` attribute, which
`Graph.__init__` never initialises: `none` means the attribute is not
set yet.  Likewise `ncomponents` models the `_ncomponents` attribute.
The arenas `vertices` / `edges` hold every object ever created; the
lists hold the identities registered with the graph. -/
structure Graph where
  vertices : Array Vertex
  edges : Array Edge
  vertexlist : List Vid
  vertexdict : List (String × Vid)
  edgeset : List Eid
  cchange : Option Bool
  ncomponents : Option Nat
  metric : Coord → ℚ
  heuristic : Coord → ℚ

/-- The built-in `L1` metric (graph.py lines 368-369):
`np.linalg.norm(v, 1)` = sum of absolute components. -/
def L1 (v : Coord) : ℚ := (v.map (fun x => |x|)).sum

/-- `Graph.__init__` (graph.py lines 19-27) with the metric and
heuristic already resolved to functions (`_metricfunc`). -/
def Graph.init (metric heuristic : Coord → ℚ) : Graph :=
  ⟨#[], #[], [], [], [], none, none, metric, heuristic⟩

/-- Read a vertex from the arena. -/
def Graph.vtx (g : Graph) (v : Vid) : Vertex := g.vertices.getD v default

/-- Read an edge from the arena. -/
def Graph.edg (g : Graph) (e : Eid) : Edge := g.edges.getD e default

/-- Replace a vertex in the arena. -/
def Graph.setVtx (g : Graph) (v : Vid) (x : Vertex) : Graph :=
  { g with vertices := g.vertices.setD v x }

/-- Replace an edge in the arena. -/
def Graph.setEdg (g : Graph) (e : Eid) (x : Edge) : Graph :=
  { g with edges := g.edges.setD e x }

/-- Coordinate difference `v1.coord - v2.coord` (numpy elementwise). -/
def coordSub (a b : Coord) : Coord := List.zipWith (fun x y => x - y) a b

/-- `Graph.add_vertex` (graph.py lines 210-237): resolve the name
(argument, then the vertex's own name, then the default `#N` with `N`
the current length of `_vertexlist`), register the vertex in the list
and by name in the dict (overwriting silently), set the graph's dirty
flag.  Returns the vertex.  The source contains no duplicate check and
cannot fail. -/
def Graph.add_vertex (g : Graph) (v : Vertex) (name : Option String) :
    Graph × Vid :=
  let nm : String :=
    match name with
    | some n => n
    | none =>
      match v.name with
      | some n => n
      | none => "#" ++ toString g.vertexlist.length
  let v := { v with name := some nm }
  let vid := g.vertices.size
  ({ g with
      vertices := g.vertices.push v
      vertexlist := g.vertexlist ++ [vid]
      vertexdict := dictSet g.vertexdict nm vid
      cchange := some true }, vid)

/-- `UndirectedGraph.add_vertex` (undirected_graph.py lines 12-33),
coordinate branch: wrap the coordinate in a fresh `UndirectedVertex`
and call the superclass method.  (The branch accepting an existing
`UndirectedVertex` instance is `Graph.add_vertex` applied directly.) -/
def UndirectedGraph.add_vertex (g : Graph) (coord : Option Coord)
    (name : Option String) : Graph × Vid :=
  Graph.add_vertex g (Vertex.init coord none .uVertexCls) name

/-- Namespace for the module `directed_graph.py`, whose only imported or
defined global names are `Graph` (line 1) and `DirectedGraph` (line 3);
in particular neither `Vertex` nor `DVertex` resolves. -/
def directedGraphModuleGlobals : List String := ["Graph", "DirectedGraph"]

/-- `DirectedGraph.add_vertex` (directed_graph.py lines 10-31).  The
body first evaluates `isinstance(coord, Vertex)`: looking up the name
`Vertex` in the module scope raises `NameError` because the module
never imports or defines it.  Were it defined, the `else` branch would
next look up `DVertex`, also undefined. -/
def DirectedGraph.add_vertex (g : Graph) (coord : Option Coord)
    (name : Option String) : Except PyErr (Graph × Vid) :=
  if "Vertex" ∈ directedGraphModuleGlobals then
    if "DVertex" ∈ directedGraphModuleGlobals then
      .ok (Graph.add_vertex g (Vertex.init coord name .dVertexCls) name)
    else
      .error (.nameError "DVertex")
  else
    .error (.nameError "Vertex")

/-- `Graph.__getitem__` (graph.py lines 32-60) for an `int` index:
Python list indexing with negative indices; out of range raises
`IndexError`. -/
def Graph.getitemInt (g : Graph) (i : Int) : Except PyErr Vid :=
  let n : Int := g.vertexlist.length
  if 0 ≤ i ∧ i < n then
    .ok (g.vertexlist.getD i.toNat 0)
  else if -n ≤ i ∧ i < 0 then
    .ok (g.vertexlist.getD (i + n).toNat 0)
  else
    .error .indexError

/-- `Graph.__getitem__` (graph.py lines 32-60) for a `str` name:
`self._vertexdict[s]`, raising `KeyError` when the name is unknown. -/
def Graph.getitemStr (g : Graph) (s : String) : Except PyErr Vid :=
  match dictGet g.vertexdict s with
  | some v => .ok v
  | none => .error (.keyError s)

/-- Add an element to a Python `set` modelled as a duplicate-free list. -/
def setAdd (s : List Eid) (e : Eid) : List Eid :=
  if e ∈ s then s else s ++ [e]

/-- `Vertex.connect` (vertex.py lines 90-131): the kind check compares
the first base class of the two endpoint classes and raises `TypeError`
on mismatch, before any mutation.  Otherwise an `Edge` is built
(`Edge.__init__`, edge.py lines 26-67): explicit cost if given, else
the graph metric of the coordinate difference when both endpoints have
coordinates, else cost `None` (no error).  The edge is added to the
graph's edge set and the dirty flag is set on the graph and on `self`
(not on `dest`).  The pre-built-edge branch (`edge=` argument) is not
modelled; no claim exercises it. -/
def Vertex.connect (g : Graph) (self dest : Vid) (cost : Option ℚ) :
    Except PyErr Eid × Graph :=
  let sv := g.vtx self
  let dv := g.vtx dest
  if sv.cls.base ≠ dv.cls.base then
    (.error (.typeError "must connect vertices of same type"), g)
  else
    let c : Option ℚ :=
      match cost with
      | some c => some c
      | none =>
        match sv.coord, dv.coord with
        | some c1, some c2 => some (g.metric (coordSub c1 c2))
        | _, _ => none
    let eid := g.edges.size
    let g := { g with edges := g.edges.push ⟨some self, some dest, c⟩ }
    let g := { g with
      edgeset := setAdd g.edgeset eid
      cchange := some true }
    let g := g.setVtx self { g.vtx self with cchange := true }
    (.ok eid, g)

/-- Append an edge to a vertex's `_edgelist`. -/
def Graph.appendEdge (g : Graph) (v : Vid) (e : Eid) : Graph :=
  g.setVtx v { g.vtx v with edgelist := (g.vtx v).edgelist ++ [e] }

/-- `UndirectedVertex.connect` (undirected_vertex.py lines 17-32):
superclass connect, then append the edge to both endpoints' incidence
lists and (again, a no-op on the set) to the graph's edge set. -/
def UndirectedVertex.connect (g : Graph) (self dest : Vid)
    (cost : Option ℚ) : Except PyErr Eid × Graph :=
  match Vertex.connect g self dest cost with
  | (.error e, g) => (.error e, g)
  | (.ok eid, g) =>
    let g := g.appendEdge self eid
    let g := g.appendEdge dest eid
    (.ok eid, { g with edgeset := setAdd g.edgeset eid })

/-- `DirectedVertex.connect` (directed_vertex.py lines 14-23):
superclass connect, then append the edge only to `self`'s list. -/
def DirectedVertex.connect (g : Graph) (self dest : Vid)
    (cost : Option ℚ) : Except PyErr Eid × Graph :=
  match Vertex.connect g self dest cost with
  | (.error e, g) => (.error e, g)
  | (.ok eid, g) => (.ok eid, g.appendEdge self eid)

/-- Python virtual dispatch of `v1.connect(...)` on the class of `v1`. -/
def connectDispatch (g : Graph) (self dest : Vid) (cost : Option ℚ) :
    Except PyErr Eid × Graph :=
  match (g.vtx self).cls with
  | .uVertexCls => UndirectedVertex.connect g self dest cost
  | .dVertexCls => DirectedVertex.connect g self dest cost
  | _ => Vertex.connect g self dest cost

/-- A vertex argument that is either a name or a vertex reference
(`add_edge`, the searches). -/
abbrev VRef := Sum String Vid

/-- Resolve a `VRef` the way `Graph.add_edge` (graph.py lines 258-265)
and the searches do: a string goes through `self[...]`
(raising `KeyError` for an unknown name), a vertex is itself. -/
def Graph.resolve (g : Graph) (r : VRef) : Except PyErr Vid :=
  match r with
  | .inl s => g.getitemStr s
  | .inr v => .ok v

/-- `Graph.add_edge` (graph.py lines 239-269): resolve both arguments,
then `v1.connect(v2, ...)`.  Errors leave the graph as it was at the
moment of the raise. -/
def Graph.add_edge (g : Graph) (a b : VRef) (cost : Option ℚ) :
    Except PyErr Eid × Graph :=
  match g.resolve a with
  | .error e => (.error e, g)
  | .ok v1 =>
    match g.resolve b with
    | .error e => (.error e, g)
    | .ok v2 => connectDispatch g v1 v2 cost

/-- Remove the first occurrence of an element from a Python list
(`list.remove`); the caller checks presence first. -/
def listRemove (l : List Eid) (e : Eid) : List Eid :=
  match l with
  | [] => []
  | x :: xs => if x = e then xs else x :: listRemove xs e

/-- Remove a vid occurrence (`list.remove` on `_vertexlist`). -/
def listRemoveV (l : List Vid) (v : Vid) : List Vid :=
  match l with
  | [] => []
  | x :: xs => if x = v then xs else x :: listRemoveV xs v

/-- `Graph.remove` for an `Edge` argument (graph.py lines 284-301), in
the source's statement order: detach from `v1`'s list (`AttributeError`
if `x.v1` is `None`, `ValueError` if absent), detach from `v2`'s list,
set the three dirty flags, null the endpoint references, discard from
the graph's edge set (`KeyError` if absent).  A raise part-way leaves
the mutations already performed in place. -/
def Graph.removeEdge (g : Graph) (eid : Eid) : Except PyErr Unit × Graph :=
  let e := g.edg eid
  match e.v1 with
  | none => (.error (.attributeError "_edgelist"), g)
  | some v1 =>
    if eid ∉ (g.vtx v1).edgelist then
      (.error (.valueError "list.remove(x): x not in list"), g)
    else
      let g := g.setVtx v1
        { g.vtx v1 with edgelist := listRemove (g.vtx v1).edgelist eid }
      match e.v2 with
      | none => (.error (.attributeError "_edgelist"), g)
      | some v2 =>
        if eid ∉ (g.vtx v2).edgelist then
          (.error (.valueError "list.remove(x): x not in list"), g)
        else
          let g := g.setVtx v2
            { g.vtx v2 with edgelist := listRemove (g.vtx v2).edgelist eid }
          let g := g.setVtx v1 { g.vtx v1 with cchange := true }
          let g := g.setVtx v2 { g.vtx v2 with cchange := true }
          let g := { g with cchange := some true }
          let g := g.setEdg eid { g.edg eid with v1 := none, v2 := none }
          if eid ∉ g.edgeset then
            (.error (.keyError "edge"), g)
          else
            (.ok (), { g with edgeset := listRemove g.edgeset eid })

/-- The cascade of `Graph.remove` for a `Vertex` argument (graph.py
lines 306-308): remove each incident edge of a snapshot of the
vertex's edge list, stopping at the first raise. -/
def Graph.removeEdges (g : Graph) (es : List Eid) :
    Except PyErr Unit × Graph :=
  match es with
  | [] => (.ok (), g)
  | e :: rest =>
    match Graph.removeEdge g e with
    | (.error err, g) => (.error err, g)
    | (.ok _, g) => Graph.removeEdges g rest

/-- `Graph.remove` for a `Vertex` argument (graph.py lines 303-312):
cascade-remove the incident edges, then remove the vertex from
`_vertexlist` and delete its name from `_vertexdict` (`KeyError` if the
name is not a key).  Note that no dirty flag is set beyond those set by
the edge removals: removing an isolated vertex touches no flag. -/
def Graph.removeVertex (g : Graph) (vid : Vid) : Except PyErr Unit × Graph :=
  match Graph.removeEdges g (g.vtx vid).edgelist with
  | (.error err, g) => (.error err, g)
  | (.ok _, g) =>
    let g := { g with vertexlist := listRemoveV g.vertexlist vid }
    match (g.vtx vid).name with
    | none => (.error (.keyError "None"), g)
    | some nm =>
      if (dictGet g.vertexdict nm).isSome then
        (.ok (), { g with vertexdict := dictDel g.vertexdict nm })
      else
        (.error (.keyError nm), g)

end GS

/-! ## Adjacency queries -/

namespace GS

/-- `Edge.next` (edge.py lines 108-127): the endpoint other than `v`,
raising `ValueError` when `v` is on neither end.  Python returns the
other endpoint reference even when it is `None` (possible only for
detached edges) and crashes later when the search dereferences it; the
model reports that crash at the point the `None` is produced.  In any
graph built through the API the endpoints of listed edges are set, so
the branch is unreachable there. -/
def Edge.next (e : Edge) (v : Vid) : Except PyErr Vid :=
  if e.v1 = some v then
    match e.v2 with
    | some w => .ok w
    | none => .error (.typeError "NoneType endpoint")
  else if e.v2 = some v then
    match e.v1 with
    | some w => .ok w
    | none => .error (.typeError "NoneType endpoint")
  else
    .error (.valueError "shouldnt happen")

/-- `Vertex.neighbours` (vertex.py lines 45-53):
`[e.next(self) for e in self._edgelist]`. -/
def Graph.neighboursM (g : Graph) (v : Vid) : Except PyErr (List Vid) :=
  (g.vtx v).edgelist.mapM (fun e => (g.edg e).next v)

/-- `Vertex.incidences` (vertex.py lines 79-88):
`[(e.next(self), e) for e in self._edgelist]`. -/
def Graph.incidencesM (g : Graph) (v : Vid) : Except PyErr (List (Vid × Eid)) :=
  (g.vtx v).edgelist.mapM (fun e => ((g.edg e).next v).map (fun n => (n, e)))

/-- `Vertex.edgeto` (vertex.py lines 133-150): the first incident edge
whose far endpoint is `dest`, else `ValueError`. -/
def Graph.edgeto (g : Graph) (x dest : Vid) : Except PyErr Eid := do
  let inc ← g.incidencesM x
  match inc.find? (fun p => p.1 = dest) with
  | some p => .ok p.2
  | none => .error (.valueError "dest is not a neighbour")

/-- `a + c` where `c` is an edge cost that may be `None`
(`TypeError` in Python). -/
def addCost (a : ℚ) (c : Option ℚ) : Except PyErr ℚ :=
  match c with
  | some c => .ok (a + c)
  | none => .error (.typeError "unsupported operand type for +")

/-- Parent dict (`parent`), keyed by vertex identity. -/
def pdictSet (d : List (Vid × Vid)) (k v : Vid) : List (Vid × Vid) :=
  if d.any (fun p => p.1 = k) then
    d.map (fun p => if p.1 = k then (k, v) else p)
  else
    d ++ [(k, v)]

/-- Parent dict lookup. -/
def pdictGet (d : List (Vid × Vid)) (k : Vid) : Option Vid :=
  (d.find? (fun p => p.1 = k)).map (fun p => p.2)

/-- Cost dict (`f`, `g`), keyed by vertex identity. -/
def qdictSet (d : List (Vid × ℚ)) (k : Vid) (v : ℚ) : List (Vid × ℚ) :=
  if d.any (fun p => p.1 = k) then
    d.map (fun p => if p.1 = k then (k, v) else p)
  else
    d ++ [(k, v)]

/-- Cost dict lookup. -/
def qdictGet (d : List (Vid × ℚ)) (k : Vid) : Option ℚ :=
  (d.find? (fun p => p.1 = k)).map (fun p => p.2)

/-- Cost dict lookup raising `KeyError` like Python's `d[k]`. -/
def qdictGetM (d : List (Vid × ℚ)) (k : Vid) : Except PyErr ℚ :=
  match qdictGet d k with
  | some v => .ok v
  | none => .error (.keyErrorV k)

/-- `np.argmin`: index of the first minimal element. -/
def listArgmin (l : List ℚ) : Nat :=
  match l with
  | [] => 0
  | x :: xs => go xs x 0 1
where
  go : List ℚ → ℚ → Nat → Nat → Nat
    | [], _, best, _ => best
    | y :: ys, bv, best, i =>
      if y < bv then go ys y i (i + 1) else go ys bv best (i + 1)

/-! ## Breadth-first search (`Graph.path_BFS`, graph.py lines 992-1072) -/

/-- The loop state of `path_BFS`. -/
structure BfsSt where
  frontier : List Vid
  explored : List Vid
  parent : List (Vid × Vid)
deriving DecidableEq

/-- The neighbour loop of one BFS expansion (graph.py lines 1034-1046):
a neighbour equal to the goal records its parent and breaks with
success; an unseen neighbour joins the frontier with its parent. -/
def bfsExpand (goal x : Vid) (explored : List Vid) :
    List Vid → List Vid → List (Vid × Vid) →
    List Vid × List (Vid × Vid) × Bool
  | [], frontier, parent => (frontier, parent, false)
  | n :: rest, frontier, parent =>
    if n = goal then
      (frontier, pdictSet parent n x, true)
    else if n ∉ frontier ∧ n ∉ explored then
      bfsExpand goal x explored rest (frontier ++ [n]) (pdictSet parent n x)
    else
      bfsExpand goal x explored rest frontier parent

/-- The `while frontier:` loop of `path_BFS` (graph.py lines
1023-1054): pop the oldest frontier member, expand it, stop with the
final state when the goal was reached, append the vertex to the
explored list otherwise; an emptied frontier means no path (`None`). -/
def bfsLoop (g : Graph) (goal : Vid) :
    Nat → BfsSt → Except PyErr (Option BfsSt)
  | 0, _ => .error .nonterm
  | fuel + 1, st =>
    match st.frontier with
    | [] => .ok none
    | x :: rest =>
      match g.neighboursM x with
      | .error e => .error e
      | .ok ns =>
        match bfsExpand goal x st.explored ns rest st.parent with
        | (fr, par, true) => .ok (some ⟨fr, st.explored, par⟩)
        | (fr, par, false) => bfsLoop g goal fuel ⟨fr, st.explored ++ [x], par⟩

/-- Fuel that exceeds the iteration count of any terminating BFS run:
every vertex enters the frontier at most twice. -/
def bfsFuel (g : Graph) : Nat := 2 * g.vertices.size + 2

/-- Path reconstruction of `path_BFS` (graph.py lines 1057-1065): walk
the parent map from the goal back to the start, accumulating
`x.edgeto(p).cost`.  The fuel models the unbounded `while`; a cyclic
parent chain makes Python loop forever (`nonterm`). -/
def reconBFS (g : Graph) (S : Vid) (parent : List (Vid × Vid)) :
    Nat → Vid → List Vid → ℚ → Except PyErr (List Vid × ℚ)
  | 0, _, _, _ => .error .nonterm
  | fuel + 1, x, path, len =>
    if x = S then
      .ok (path, len)
    else
      match pdictGet parent x with
      | none => .error (.keyErrorV x)
      | some p =>
        match g.edgeto x p with
        | .error e => .error e
        | .ok e =>
          match addCost len (g.edg e).cost with
          | .error err => .error err
          | .ok len => reconBFS g S parent fuel p (p :: path) len

/-- `path_BFS` up to and including the search loop: the resolved start
and goal and the final loop state (`none` = frontier exhausted). -/
def Graph.path_BFS_state (g : Graph) (S G : VRef) :
    Except PyErr (Vid × Vid × Option BfsSt) := do
  let s ← g.resolve S
  let gl ← g.resolve G
  let r ← bfsLoop g gl (bfsFuel g) ⟨[s], [], []⟩
  .ok (s, gl, r)

/-- `Graph.path_BFS` (graph.py lines 992-1072): returns
`(path, length)` on success and `None` when the frontier empties. -/
def Graph.path_BFS (g : Graph) (S G : VRef) :
    Except PyErr (Option (List Vid × ℚ)) := do
  let (s, gl, r) ← g.path_BFS_state S G
  match r with
  | none => .ok none
  | some st => do
    let pr ← reconBFS g s st.parent (g.vertices.size + 1) gl [gl] 0
    .ok (some pr)

/-! ## Uniform-cost search (`Graph.path_UCS`, graph.py lines 1074-1169) -/

/-- The loop state of `path_UCS`. -/
structure UcsSt where
  frontier : List Vid
  explored : List Vid
  parent : List (Vid × Vid)
  f : List (Vid × ℚ)
deriving DecidableEq

/-- The neighbour loop of one UCS expansion (graph.py lines 1121-1140):
`fnew = f[x] + e.cost` is computed for every incidence; an unseen
neighbour joins the frontier with cost `fnew`; a frontier member is
re-parented when `fnew` is strictly cheaper. -/
def ucsExpand (g : Graph) (x : Vid) (explored : List Vid) :
    List (Vid × Eid) → List Vid → List (Vid × Vid) → List (Vid × ℚ) →
    Except PyErr (List Vid × List (Vid × Vid) × List (Vid × ℚ))
  | [], frontier, parent, f => .ok (frontier, parent, f)
  | (n, e) :: rest, frontier, parent, f => do
    let fx ← qdictGetM f x
    let fnew ← addCost fx (g.edg e).cost
    if n ∉ frontier ∧ n ∉ explored then
      ucsExpand g x explored rest (frontier ++ [n]) (pdictSet parent n x)
        (qdictSet f n fnew)
    else if n ∈ frontier then do
      let fn ← qdictGetM f n
      if fnew < fn then
        ucsExpand g x explored rest frontier (pdictSet parent n x)
          (qdictSet f n fnew)
      else
        ucsExpand g x explored rest frontier parent f
    else
      ucsExpand g x explored rest frontier parent f

/-- The `while frontier:` loop of `path_UCS` (graph.py lines
1107-1147): pop the first frontier member of minimal `f`, stop (before
appending to explored) when it is the goal, else expand it. -/
def ucsLoop (g : Graph) (goal : Vid) :
    Nat → UcsSt → Except PyErr (Option UcsSt)
  | 0, _ => .error .nonterm
  | fuel + 1, st =>
    match st.frontier with
    | [] => .ok none
    | _ :: _ => do
      let vals ← st.frontier.mapM (qdictGetM st.f)
      let i := listArgmin vals
      let x := st.frontier.getD i 0
      let frontier := st.frontier.eraseIdx i
      if x = goal then
        .ok (some ⟨frontier, st.explored, st.parent, st.f⟩)
      else do
        let inc ← g.incidencesM x
        let (fr, par, f) ← ucsExpand g x st.explored inc frontier st.parent st.f
        ucsLoop g goal fuel ⟨fr, st.explored ++ [x], par, f⟩

/-- Path reconstruction of `path_UCS` / `path_Astar` (graph.py lines
1150-1158, 1253-1261); the accumulated edge is `p.edgeto(x)`. -/
def reconUCS (g : Graph) (S : Vid) (parent : List (Vid × Vid)) :
    Nat → Vid → List Vid → ℚ → Except PyErr (List Vid × ℚ)
  | 0, _, _, _ => .error .nonterm
  | fuel + 1, x, path, len =>
    if x = S then
      .ok (path, len)
    else
      match pdictGet parent x with
      | none => .error (.keyErrorV x)
      | some p =>
        match g.edgeto p x with
        | .error e => .error e
        | .ok e =>
          match addCost len (g.edg e).cost with
          | .error err => .error err
          | .ok len => reconUCS g S parent fuel p (p :: path) len

/-- The name-keyed copy of the parent map returned by `path_UCS` and
`path_Astar` (graph.py lines 1160-1162): a fresh Python dict keyed by
vertex name. -/
def parentNames (g : Graph) (parent : List (Vid × Vid)) :
    List (Option String × Option String) :=
  parent.foldl (fun d p => nameSet d (g.vtx p.1).name (g.vtx p.2).name) []
where
  nameSet (d : List (Option String × Option String))
      (k v : Option String) : List (Option String × Option String) :=
    if d.any (fun p => p.1 = k) then
      d.map (fun p => if p.1 = k then (k, v) else p)
    else
      d ++ [(k, v)]

/-- `path_UCS` up to and including the search loop. -/
def Graph.path_UCS_state (g : Graph) (S G : VRef) :
    Except PyErr (Vid × Vid × Option UcsSt) := do
  let s ← g.resolve S
  let gl ← g.resolve G
  let r ← ucsLoop g gl (bfsFuel g) ⟨[s], [], [], [(s, 0)]⟩
  .ok (s, gl, r)

/-- `Graph.path_UCS` (graph.py lines 1074-1169): returns
`(path, length, parent_names)` on success and `None` when the frontier
empties. -/
def Graph.path_UCS (g : Graph) (S G : VRef) :
    Except PyErr
      (Option (List Vid × ℚ × List (Option String × Option String))) := do
  let (s, gl, r) ← g.path_UCS_state S G
  match r with
  | none => .ok none
  | some st => do
    let (path, len) ← reconUCS g s st.parent (g.vertices.size + 1) gl [gl] 0
    .ok (some (path, len, parentNames g st.parent))

/-! ## A* search (`Graph.path_Astar`, graph.py lines 1171-1272) -/

/-- `Vertex.heuristic_distance` (vertex.py lines 167-168):
`self._graph.heuristic(self.coord - v2.coord)`; a missing coordinate
is a `TypeError` in Python. -/
def Graph.heuristic_distance (g : Graph) (v gl : Vid) : Except PyErr ℚ :=
  match (g.vtx v).coord, (g.vtx gl).coord with
  | some c1, some c2 => .ok (g.heuristic (coordSub c1 c2))
  | _, _ => .error (.typeError "unsupported operand type for -")

/-- The loop state of `path_Astar`: frontier, explored, parent map,
cost-to-come `g` and evaluation `f`. -/
structure AstSt where
  frontier : List Vid
  explored : List Vid
  parent : List (Vid × Vid)
  gd : List (Vid × ℚ)
  f : List (Vid × ℚ)
deriving DecidableEq

/-- The neighbour loop of one A* expansion (graph.py lines 1221-1242):
an unseen neighbour joins the frontier with `g[n] = g[x] + e.cost` and
`f[n] = g[n] + n.heuristic_distance(G)`; a frontier member is
re-parented when `gnew = g[x] + e.cost` is strictly below `g[n]`. -/
def astExpand (g : Graph) (x goal : Vid) (explored : List Vid) :
    List (Vid × Eid) → List Vid → List (Vid × Vid) → List (Vid × ℚ) →
    List (Vid × ℚ) →
    Except PyErr
      (List Vid × List (Vid × Vid) × List (Vid × ℚ) × List (Vid × ℚ))
  | [], frontier, parent, gd, f => .ok (frontier, parent, gd, f)
  | (n, e) :: rest, frontier, parent, gd, f =>
    if n ∉ frontier ∧ n ∉ explored then do
      let gx ← qdictGetM gd x
      let gn ← addCost gx (g.edg e).cost
      let h ← g.heuristic_distance n goal
      astExpand g x goal explored rest (frontier ++ [n])
        (pdictSet parent n x) (qdictSet gd n gn) (qdictSet f n (gn + h))
    else if n ∈ frontier then do
      let gx ← qdictGetM gd x
      let gnew ← addCost gx (g.edg e).cost
      let gn ← qdictGetM gd n
      if gnew < gn then do
        let h ← g.heuristic_distance n goal
        astExpand g x goal explored rest frontier (pdictSet parent n x)
          (qdictSet gd n gnew) (qdictSet f n (gnew + h))
      else
        astExpand g x goal explored rest frontier parent gd f
    else
      astExpand g x goal explored rest frontier parent gd f

/-- The `while frontier:` loop of `path_Astar` (graph.py lines
1207-1246): pop the first frontier member of minimal `f`, stop (before
appending to explored) when it is the goal, else expand it. -/
def astLoop (g : Graph) (goal : Vid) :
    Nat → AstSt → Except PyErr (Option AstSt)
  | 0, _ => .error .nonterm
  | fuel + 1, st =>
    match st.frontier with
    | [] => .ok none
    | _ :: _ => do
      let vals ← st.frontier.mapM (qdictGetM st.f)
      let i := listArgmin vals
      let x := st.frontier.getD i 0
      let frontier := st.frontier.eraseIdx i
      if x = goal then
        .ok (some ⟨frontier, st.explored, st.parent, st.gd, st.f⟩)
      else do
        let inc ← g.incidencesM x
        let (fr, par, gd, f) ←
          astExpand g x goal st.explored inc frontier st.parent st.gd st.f
        astLoop g goal fuel ⟨fr, st.explored ++ [x], par, gd, f⟩

/-- `path_Astar` up to and including the search loop. -/
def Graph.path_Astar_state (g : Graph) (S G : VRef) :
    Except PyErr (Vid × Vid × Option AstSt) := do
  let s ← g.resolve S
  let gl ← g.resolve G
  let r ← astLoop g gl (bfsFuel g) ⟨[s], [], [], [(s, 0)], [(s, 0)]⟩
  .ok (s, gl, r)

/-- `Graph.path_Astar` (graph.py lines 1171-1272): returns
`(path, length, parent_names)` on success and `None` when the frontier
empties. -/
def Graph.path_Astar (g : Graph) (S G : VRef) :
    Except PyErr
      (Option (List Vid × ℚ × List (Option String × Option String))) := do
  let (s, gl, r) ← g.path_Astar_state S G
  match r with
  | none => .ok none
  | some st => do
    let (path, len) ← reconUCS g s st.parent (g.vertices.size + 1) gl [gl] 0
    .ok (some (path, len, parentNames g st.parent))

/-! ## Lazy connectivity labelling
(`UndirectedGraph._graphcolor`, undirected_graph.py lines 39-82) -/

/-- The recomputation guard of `_graphcolor` (undirected_graph.py lines
52-53): `self._connectivitychange or any(v._connectivitychange)`;
`none` models the `AttributeError` of reading the never-initialised
graph attribute. -/
def Graph.dirtyGuard (g : Graph) : Option Bool :=
  g.cchange.map
    (fun d => d || g.vertexlist.any (fun v => (g.vtx v).cchange))

/-- Clear every vertex's label and dirty flag (undirected_graph.py
lines 57-60).  The graph's own flag is not touched. -/
def Graph.clearLabels (g : Graph) : Graph :=
  g.vertexlist.foldl
    (fun g v => g.setVtx v { g.vtx v with label := none, cchange := false }) g

/-- The flood fill of `_graphcolor` (undirected_graph.py lines 68-75):
LIFO queue (`q.pop()` pops the end), label on pop, append unlabelled
neighbours. -/
def flood (g : Graph) (label : Nat) :
    Nat → List Vid → Except PyErr Graph
  | _, [] => .ok g
  | 0, _ :: _ => .error .nonterm
  | fuel + 1, q =>
    match q.getLast? with
    | none => .ok g
    | some v =>
      let g := g.setVtx v { g.vtx v with label := some label }
      match g.neighboursM v with
      | .error e => .error e
      | .ok ns =>
        flood g label fuel
          (q.dropLast ++ ns.filter (fun n => (g.vtx n).label = none))

/-- Generous fuel for the flood fill (appends never exceed the total
incidence length per labelling round). -/
def floodFuel (g : Graph) : Nat :=
  (g.vertices.size + 1) *
    (g.vertexlist.foldl (fun a v => a + (g.vtx v).edgelist.length) 0 + 2)

/-- The labelling rounds of `_graphcolor` (undirected_graph.py lines
62-80): for each label in `range(number_of_vertices)` find the first
unlabelled vertex and flood from it; stop when none is left, keeping
the last label assigned. -/
def colorLoop (g : Graph) :
    List Nat → Option Nat → Except PyErr (Graph × Option Nat)
  | [], last => .ok (g, last)
  | label :: rest, last =>
    match g.vertexlist.find? (fun v => (g.vtx v).label = none) with
    | none => .ok (g, last)
    | some v =>
      match flood g label (floodFuel g) [v] with
      | .error e => .error e
      | .ok g => colorLoop g rest (some label)

/-- `UndirectedGraph._graphcolor` (undirected_graph.py lines 39-82):
when the dirty guard holds, clear labels, label the components and set
`_ncomponents` to `lastlabel + 1` (a `TypeError` on an empty graph
where `lastlabel` stays `None`); otherwise do nothing (in particular
the graph's own dirty flag is never cleared). -/
def Graph.graphcolorU (g : Graph) : Except PyErr Graph :=
  match g.dirtyGuard with
  | none => .error (.attributeError "_connectivitychange")
  | some false => .ok g
  | some true =>
    let g := g.clearLabels
    match colorLoop g (List.range g.vertexdict.length) none with
    | .error e => .error e
    | .ok (_, none) => .error (.typeError "NoneType + int")
    | .ok (g, some l) => .ok { g with ncomponents := some (l + 1) }

/-- `Graph.number_of_components` (graph.py lines 344-364): run
`_graphcolor`, then read `_ncomponents`. -/
def Graph.number_of_components (g : Graph) : Except PyErr (Nat × Graph) :=
  match g.graphcolorU with
  | .error e => .error e
  | .ok g =>
    match g.ncomponents with
    | none => .error (.attributeError "_ncomponents")
    | some n => .ok (n, g)

end GS

/-! ## Name projections and class namespaces -/

namespace GS

/-- Map a vid path to the vertices' names (the Python return value is a
list of vertex objects; their names identify them across graphs). -/
def vidNames (g : Graph) (l : List Vid) : List (Option String) :=
  l.map (fun v => (g.vtx v).name)

/-- The `(path, cost)` of `path_BFS` with the path given by names. -/
def bfsResultNames (g : Graph) (S G : VRef) :
    Except PyErr (Option (List (Option String) × ℚ)) :=
  (g.path_BFS S G).map (fun o => o.map (fun pr => (vidNames g pr.1, pr.2)))

/-- The internal parent map built by the `path_BFS` loop, by names.
This is loop state, not part of the function's return value. -/
def bfsParentsNames (g : Graph) (S G : VRef) :
    Except PyErr (Option (List (Option String × Option String))) :=
  (g.path_BFS_state S G).map
    (fun r => r.2.2.map (fun st => parentNames g st.parent))

/-- The `(path, cost)` of `path_UCS` with the path given by names. -/
def ucsPathCostNames (g : Graph) (S G : VRef) :
    Except PyErr (Option (List (Option String) × ℚ)) :=
  (g.path_UCS S G).map (fun o => o.map (fun pr => (vidNames g pr.1, pr.2.1)))

/-- The `(path, cost)` of `path_Astar` with the path given by names. -/
def astPathCostNames (g : Graph) (S G : VRef) :
    Except PyErr (Option (List (Option String) × ℚ)) :=
  (g.path_Astar S G).map (fun o => o.map (fun pr => (vidNames g pr.1, pr.2.1)))

/-- The explored sequence of the `path_UCS` loop (not returned). -/
def ucsExploredLen (g : Graph) (S G : VRef) : Except PyErr (Option Nat) :=
  (g.path_UCS_state S G).map (fun r => r.2.2.map (fun st => st.explored.length))

/-- The explored sequence of the `path_Astar` loop (not returned). -/
def astExploredLen (g : Graph) (S G : VRef) : Except PyErr (Option Nat) :=
  (g.path_Astar_state S G).map
    (fun r => r.2.2.map (fun st => st.explored.length))

/-- The attribute names defined by the classes `Graph` (graph.py),
`UndirectedGraph` (undirected_graph.py) and `DirectedGraph`
(directed_graph.py); an attribute access outside this list raises
`AttributeError` in Python.  In particular neither `path_sma` (the
frontier-bounded variant the CLI calls) nor lowercase `path_bfs`
exists. -/
def GraphClassAttrs : List String :=
  ["__init__", "__str__", "__getitem__", "__repr__", "__contains__",
   "from_dict", "from_adjacency_matrix", "copy", "add_vertex", "add_edge",
   "remove", "show", "number_of_vertices", "number_of_edges",
   "number_of_components", "_metricfunc", "metric", "heuristic", "closest",
   "edges", "plot", "highlight_path", "highlight_edge", "highlight_vertex",
   "dotfile", "showgraph", "iscyclic", "average_degree", "Laplacian",
   "connectivity", "degree", "adjacency", "incidence", "distance",
   "component", "samecomponent", "path_BFS", "path_UCS", "path_Astar",
   "vertex_copy", "_graphcolor"]

/-! ## Concrete instances -/

/-- The spec's concrete scenario (spec and tests): vertices `A,B,C,D`
with edges `A-B` cost 1, `B-C` cost 2, `A-C` cost 5, `C-D` cost 1, in
this insertion order, on an undirected graph with the `L1` metric and
heuristic.  All vertices are embedded at the same coordinate so the
heuristic is identically zero (admissible and consistent); the edge
costs are the explicit ones of the scenario. -/
def demoGraph : Graph :=
  let g := Graph.init L1 L1
  let g := (UndirectedGraph.add_vertex g (some [0, 0]) (some "A")).1
  let g := (UndirectedGraph.add_vertex g (some [0, 0]) (some "B")).1
  let g := (UndirectedGraph.add_vertex g (some [0, 0]) (some "C")).1
  let g := (UndirectedGraph.add_vertex g (some [0, 0]) (some "D")).1
  let g := (Graph.add_edge g (.inl "A") (.inl "B") (some 1)).2
  let g := (Graph.add_edge g (.inl "B") (.inl "C") (some 2)).2
  let g := (Graph.add_edge g (.inl "A") (.inl "C") (some 5)).2
  let g := (Graph.add_edge g (.inl "C") (.inl "D") (some 1)).2
  g

/-- Two vertices `A`, `B` and the single edge `A-B` of cost 1. -/
def twoVertexGraph : Graph :=
  let g := Graph.init L1 L1
  let g := (UndirectedGraph.add_vertex g none (some "A")).1
  let g := (UndirectedGraph.add_vertex g none (some "B")).1
  let g := (Graph.add_edge g (.inl "A") (.inl "B") (some 1)).2
  g

/-- Vertices `A`, `X`, `B` with edges `A-X` cost 7 (first) and `A-B`
cost 1: `path_BFS(A, B)` returns the same `(path, cost)` value as on
`twoVertexGraph`, while the internal parent map differs. -/
def threeVertexGraph : Graph :=
  let g := Graph.init L1 L1
  let g := (UndirectedGraph.add_vertex g none (some "A")).1
  let g := (UndirectedGraph.add_vertex g none (some "X")).1
  let g := (UndirectedGraph.add_vertex g none (some "B")).1
  let g := (Graph.add_edge g (.inl "A") (.inl "X") (some 7)).2
  let g := (Graph.add_edge g (.inl "A") (.inl "B") (some 1)).2
  g

/-- A single isolated vertex `V`. -/
def oneVertexGraph : Graph :=
  (UndirectedGraph.add_vertex (Graph.init L1 L1) none (some "V")).1

/-- Two isolated vertices `P`, `Q` (no edges). -/
def twoIslandGraph : Graph :=
  let g := Graph.init L1 L1
  let g := (UndirectedGraph.add_vertex g none (some "P")).1
  let g := (UndirectedGraph.add_vertex g none (some "Q")).1
  g

/-- The name `A` added twice. -/
def dupNameGraph : Graph :=
  let g := Graph.init L1 L1
  let g := (UndirectedGraph.add_vertex g none (some "A")).1
  let g := (UndirectedGraph.add_vertex g none (some "A")).1
  g

/-- Two vertices without coordinates, for edges with omitted cost. -/
def noCoordGraph : Graph :=
  let g := Graph.init L1 L1
  let g := (UndirectedGraph.add_vertex g none (some "A")).1
  let g := (UndirectedGraph.add_vertex g none (some "B")).1
  g

/-- Two vertices at coordinates `[0,0]` and `[3,4]` (L1 distance 7),
for metric-computed edge costs. -/
def coordGraph : Graph :=
  let g := Graph.init L1 L1
  let g := (UndirectedGraph.add_vertex g (some [0, 0]) (some "A")).1
  let g := (UndirectedGraph.add_vertex g (some [3, 4]) (some "B")).1
  g

/-- Five vertices on a line (`Y` and `G` share a coordinate), with
explicit edge costs `S-W` 3, `S-Z` 5, `W-G` 4, `Z-Y` 2: a tie-breaking
instance on which A* expands strictly more vertices than uniform-cost
search although the L1 heuristic is admissible and consistent. -/
def tieGraph : Graph :=
  let g := Graph.init L1 L1
  let g := (UndirectedGraph.add_vertex g (some [0, 0]) (some "S")).1
  let g := (UndirectedGraph.add_vertex g (some [2, 0]) (some "W")).1
  let g := (UndirectedGraph.add_vertex g (some [5, 0]) (some "Z")).1
  let g := (UndirectedGraph.add_vertex g (some [6, 0]) (some "Y")).1
  let g := (UndirectedGraph.add_vertex g (some [6, 0]) (some "G")).1
  let g := (Graph.add_edge g (.inl "S") (.inl "W") (some 3)).2
  let g := (Graph.add_edge g (.inl "S") (.inl "Z") (some 5)).2
  let g := (Graph.add_edge g (.inl "W") (.inl "G") (some 4)).2
  let g := (Graph.add_edge g (.inl "Z") (.inl "Y") (some 2)).2
  g

/-- The edge-cost function of `tieGraph` (0 on non-adjacent pairs). -/
def tieCost : Vid → Vid → ℚ
  | 0, 1 => 3
  | 1, 0 => 3
  | 0, 2 => 5
  | 2, 0 => 5
  | 1, 4 => 4
  | 4, 1 => 4
  | 2, 3 => 2
  | 3, 2 => 2
  | _, _ => 0

/-- The L1 heuristic values of `tieGraph` toward its goal vertex 4. -/
def tieHeur : Vid → ℚ
  | 0 => 6
  | 1 => 4
  | 2 => 1
  | _ => 0

/-- `twoIslandGraph` after its first connectivity query: labels are
assigned, every vertex flag is cleared (the graph flag is not). -/
def twoIslandColored : Graph :=
  match twoIslandGraph.number_of_components with
  | .ok (_, g) => g
  | .error _ => twoIslandGraph

end GS

namespace GS

/-- `Graph.number_of_vertices` (graph.py lines 324-332):
`len(self._vertexdict)`. -/
def Graph.number_of_vertices (g : Graph) : Nat := g.vertexdict.length

/-- `Graph.number_of_edges` (graph.py lines 334-342):
`len(self._edgelist)`. -/
def Graph.number_of_edges (g : Graph) : Nat := g.edgeset.length

end GS

/-! ## Specification-side graph theory -/

namespace GS

/-- The neighbour list as a pure function: the value of
`Vertex.neighbours` when it computes, `[]` when it raises (which never
happens on well-formed graphs). -/
def nbrs (g : Graph) (u : Vid) : List Vid :=
  match g.neighboursM u with
  | .ok l => l
  | .error _ => []

/-- `WalkLen g S v n` holds when some walk of exactly `n` edges of the
adjacency relation leads from `S` to `v`. -/
inductive WalkLen (g : Graph) (S : Vid) : Vid → Nat → Prop where
  | nil : WalkLen g S S 0
  | cons {u v n} : WalkLen g S u n → v ∈ nbrs g u → WalkLen g S v (n + 1)

/-- Walks avoiding the vertex `G` everywhere (both endpoints included). -/
inductive AvoidWalk (g : Graph) (G S : Vid) : Vid → Nat → Prop where
  | nil : S ≠ G → AvoidWalk g G S S 0
  | cons {u v n} : AvoidWalk g G S u n → v ∈ nbrs g u → v ≠ G →
      AvoidWalk g G S v (n + 1)

/-- Parent chains of the search tree: the parent map leads from `v`
back to `S` in `n` steps, each along an edge of the graph. -/
inductive ParChain (g : Graph) (par : List (Vid × Vid)) (S : Vid) :
    Vid → Nat → Prop where
  | nil : ParChain g par S S 0
  | cons {v p n} : v ≠ S → pdictGet par v = some p → v ∈ nbrs g p →
      ParChain g par S p n → ParChain g par S v (n + 1)

/-- Well-formedness of the adjacency view used by the searches: every
neighbour computation succeeds, listed edges lead back (undirected
symmetry), there are no self-loops, and neighbours stay inside the
vertex arena.  Every graph built through the `UndirectedGraph` API
without self-loop insertions satisfies this. -/
structure BfsWF (g : Graph) : Prop where
  total : ∀ u, g.neighboursM u = .ok (nbrs g u)
  sym : ∀ u v, v ∈ nbrs g u → u ∈ nbrs g v
  irrefl : ∀ u, u ∉ nbrs g u
  bounded : ∀ u v, v ∈ nbrs g u → v < g.vertices.size

/-- Loop invariant of the breadth-first search: `st` is the loop state
and `ℓ v` the ghost BFS layer (discovery depth) of each seen vertex. -/
structure BfsInv (g : Graph) (S G : Vid) (st : BfsSt) (ℓ : Vid → Nat) :
    Prop where
  startSeen : S ∈ st.explored ++ st.frontier
  nodup : (st.explored ++ st.frontier).Nodup
  bound : ∀ v ∈ st.explored ++ st.frontier, v < g.vertices.size
  goalSeen : G ∉ st.explored ++ st.frontier
  goalPar : pdictGet st.parent G = none
  parDom : ∀ k, (pdictGet st.parent k).isSome = true →
      k ∈ st.explored ++ st.frontier
  expNoGoal : ∀ x ∈ st.explored, G ∉ nbrs g x
  closed : ∀ x ∈ st.explored, ∀ n ∈ nbrs g x,
      n = G ∨ n ∈ st.explored ++ st.frontier
  chain : ∀ v ∈ st.explored ++ st.frontier, ParChain g st.parent S v (ℓ v)
  chainLen : ∀ v ∈ st.explored ++ st.frontier, ℓ v ≤ st.explored.length
  sorted : st.frontier.Chain' (fun a b => ℓ a ≤ ℓ b)
  twoLevel : ∀ a ∈ st.frontier, ∀ b ∈ st.frontier, ℓ b ≤ ℓ a + 1
  minimal : ∀ v ∈ st.explored ++ st.frontier, ∀ j,
      AvoidWalk g G S v j → ℓ v ≤ j

/-- Cost-weighted walks of the adjacency relation: `CostWalk g c S v w`
holds when a walk from `S` to `v` has total cost `w`, each step `u → n`
contributing `c u n`. -/
inductive CostWalk (g : Graph) (c : Vid → Vid → ℚ) (S : Vid) :
    Vid → ℚ → Prop where
  | nil : CostWalk g c S S 0
  | cons {u v w} : CostWalk g c S u w → v ∈ nbrs g u →
      CostWalk g c S v (w + c u v)

/-- Parent chains of the cost searches: from `v` the parent map leads
back to `S`, every parent is already settled (member of `ex`), and the
stored cost-to-come values telescope along the edges. -/
inductive CostChain (g : Graph) (c : Vid → Vid → ℚ)
    (par : List (Vid × Vid)) (f : List (Vid × ℚ)) (S : Vid)
    (ex : List Vid) : Vid → Nat → Prop where
  | nil : CostChain g c par f S ex S 0
  | cons {v p n qv qp} : v ≠ S → pdictGet par v = some p →
      v ∈ nbrs g p → qdictGet f v = some qv → qdictGet f p = some qp →
      qv = qp + c p v → p ∈ ex → CostChain g c par f S ex p n →
      CostChain g c par f S ex v (n + 1)

/-- Loop invariant of the uniform-cost search with respect to the
edge-cost function `c`. -/
structure UcsInv (g : Graph) (c : Vid → Vid → ℚ) (S G : Vid)
    (st : UcsSt) : Prop where
  nodup : (st.explored ++ st.frontier).Nodup
  bound : ∀ v ∈ st.explored ++ st.frontier, v < g.vertices.size
  startStrong : S ∈ st.explored ∨
    st = ⟨[S], [], [], [(S, 0)]⟩
  goalEx : G ∉ st.explored
  fS : qdictGet st.f S = some 0
  parDom : ∀ k, (pdictGet st.parent k).isSome = true →
      k ∈ st.explored ++ st.frontier
  fDom : ∀ k, (qdictGet st.f k).isSome = true →
      k ∈ st.explored ++ st.frontier
  fTotal : ∀ v ∈ st.explored ++ st.frontier,
      (qdictGet st.f v).isSome = true
  settled : ∀ v ∈ st.explored, ∀ q, qdictGet st.f v = some q →
      CostWalk g c S v q ∧ ∀ w, CostWalk g c S v w → q ≤ w
  frontierUB : ∀ v ∈ st.frontier, ∀ q, qdictGet st.f v = some q →
      CostWalk g c S v q
  boundaryClosed : ∀ u ∈ st.explored, ∀ v ∈ nbrs g u,
      v ∈ st.explored ∨ v ∈ st.frontier
  boundaryLe : ∀ u ∈ st.explored, ∀ v ∈ nbrs g u, v ∈ st.frontier →
      ∀ qu qv, qdictGet st.f u = some qu → qdictGet st.f v = some qv →
        qv ≤ qu + c u v
  chains : ∀ v ∈ st.explored ++ st.frontier, ∃ n,
      n ≤ st.explored.length ∧
      CostChain g c st.parent st.f S st.explored v n

/-- Loop invariant of the A* search: `c` is the edge-cost function and
`hf` the heuristic value of each vertex toward the goal; the
cost-to-come map `gd` plays the role that `f` plays in uniform cost,
and the selection map `f` stores `gd + hf` for every frontier member
other than the start. -/
structure AstInv (g : Graph) (c : Vid → Vid → ℚ) (hf : Vid → ℚ)
    (S G : Vid) (st : AstSt) : Prop where
  nodup : (st.explored ++ st.frontier).Nodup
  bound : ∀ v ∈ st.explored ++ st.frontier, v < g.vertices.size
  startStrong : S ∈ st.explored ∨
    st = ⟨[S], [], [], [(S, 0)], [(S, 0)]⟩
  goalEx : G ∉ st.explored
  gS : qdictGet st.gd S = some 0
  parDom : ∀ k, (pdictGet st.parent k).isSome = true →
      k ∈ st.explored ++ st.frontier
  gdDom : ∀ k, (qdictGet st.gd k).isSome = true →
      k ∈ st.explored ++ st.frontier
  gdTotal : ∀ v ∈ st.explored ++ st.frontier,
      (qdictGet st.gd v).isSome = true
  fTotal : ∀ v ∈ st.frontier, (qdictGet st.f v).isSome = true
  fEq : ∀ v ∈ st.frontier, v ≠ S → ∀ qg, qdictGet st.gd v = some qg →
      qdictGet st.f v = some (qg + hf v)
  settled : ∀ v ∈ st.explored, ∀ q, qdictGet st.gd v = some q →
      CostWalk g c S v q ∧ ∀ w, CostWalk g c S v w → q ≤ w
  frontierUB : ∀ v ∈ st.frontier, ∀ q, qdictGet st.gd v = some q →
      CostWalk g c S v q
  boundaryClosed : ∀ u ∈ st.explored, ∀ v ∈ nbrs g u,
      v ∈ st.explored ∨ v ∈ st.frontier
  boundaryLe : ∀ u ∈ st.explored, ∀ v ∈ nbrs g u, v ∈ st.frontier →
      ∀ qu qv, qdictGet st.gd u = some qu → qdictGet st.gd v = some qv →
        qv ≤ qu + c u v
  chains : ∀ v ∈ st.explored ++ st.frontier, ∃ n,
      n ≤ st.explored.length ∧
      CostChain g c st.parent st.gd S st.explored v n

end GS

/-! ## Helper lemmas -/

namespace GS

/-- Setting a key that is present keeps it retrievable with the new
value. -/
theorem dictGet_dictSet_self (d : List (String × Vid)) (k : String)
    (v : Vid) : dictGet (dictSet d k v) k = some v := by
  unfold dictSet
  split
  case isTrue h =>
    induction d with
    | nil => simp at h
    | cons p rest ih =>
      by_cases hp : p.1 = k
      · simp [dictGet, List.find?, hp]
      · simp only [List.any_cons, Bool.or_eq_true, decide_eq_true_eq] at h
        rcases h with h | h
        · exact absurd h hp
        · simpa [dictGet, List.find?, hp] using ih h
  case isFalse h =>
    induction d with
    | nil => simp [dictGet]
    | cons p rest ih =>
      simp only [List.any_cons, Bool.or_eq_true, decide_eq_true_eq,
        not_or] at h
      simpa [dictGet, List.find?, h.1] using ih (by simpa using h.2)

/-- Setting a key that is present keeps the dict length. -/
theorem dictSet_length_of_mem (d : List (String × Vid)) (k : String)
    (v : Vid) (h : d.any (fun p => p.1 = k)) :
    (dictSet d k v).length = d.length := by
  simp [dictSet, h]

/-- An element belongs to the set it was added to. -/
theorem mem_setAdd_self (s : List Eid) (e : Eid) : e ∈ setAdd s e := by
  unfold setAdd
  split
  · assumption
  · simp

/-- `Vertex.connect` raises only before any mutation: an error leaves
the graph untouched. -/
theorem vertex_connect_error {g : Graph} {s d : Vid} {c : Option ℚ}
    {e : PyErr} {g2 : Graph}
    (h : Vertex.connect g s d c = (.error e, g2)) : g2 = g := by
  unfold Vertex.connect at h
  by_cases hb : (g.vtx s).cls.base ≠ (g.vtx d).cls.base
  · rw [if_pos hb] at h
    exact (Prod.mk.injEq _ _ _ _ ▸ h).2.symm
  · rw [if_neg hb] at h
    exact absurd (Prod.mk.injEq _ _ _ _ ▸ h).1 (by simp)

/-- `UndirectedVertex.connect` raises only before any mutation. -/
theorem uvertex_connect_error {g : Graph} {s d : Vid} {c : Option ℚ}
    {e : PyErr} {g2 : Graph}
    (h : UndirectedVertex.connect g s d c = (.error e, g2)) : g2 = g := by
  unfold UndirectedVertex.connect at h
  rcases hvc : Vertex.connect g s d c with ⟨r, g3⟩
  rw [hvc] at h
  cases r with
  | error e2 =>
    simp only [Prod.mk.injEq, Except.error.injEq] at h
    exact h.2 ▸ vertex_connect_error hvc
  | ok eid => simp at h

/-- `DirectedVertex.connect` raises only before any mutation. -/
theorem dvertex_connect_error {g : Graph} {s d : Vid} {c : Option ℚ}
    {e : PyErr} {g2 : Graph}
    (h : DirectedVertex.connect g s d c = (.error e, g2)) : g2 = g := by
  unfold DirectedVertex.connect at h
  rcases hvc : Vertex.connect g s d c with ⟨r, g3⟩
  rw [hvc] at h
  cases r with
  | error e2 =>
    simp only [Prod.mk.injEq, Except.error.injEq] at h
    exact h.2 ▸ vertex_connect_error hvc
  | ok eid => simp at h

/-- Any `connect` dispatch raises only before any mutation. -/
theorem connectDispatch_error {g : Graph} {s d : Vid} {c : Option ℚ}
    {e : PyErr} {g2 : Graph}
    (h : connectDispatch g s d c = (.error e, g2)) : g2 = g := by
  unfold connectDispatch at h
  split at h
  · exact uvertex_connect_error h
  · exact dvertex_connect_error h
  · exact vertex_connect_error h

end GS

/-! ## Claim theorems -/

namespace GS

/-- C10: for every `DirectedGraph` and every argument,
`DirectedGraph.add_vertex` raises a `NameError`, because its body
references the names `Vertex` and `DVertex` which are neither imported
nor defined in the module; no vertex can ever be added to a directed
graph through this public operation. -/
theorem C10_directed_add_vertex_always_nameError (g : Graph)
    (coord : Option Coord) (name : Option String) :
    DirectedGraph.add_vertex g coord name = .error (.nameError "Vertex") := by
  unfold DirectedGraph.add_vertex
  rw [if_neg (by decide)]

/-- C9: a mutating `add_edge` call (the operation whose structural
failures — unknown vertex name, kind mismatch — are reachable) that
returns an error leaves the graph exactly in its prior state: every
raise happens before the first mutation.  (`DuplicateName` and
`MissingCost` failures do not exist in the code: `add_vertex` is total
and an omitted cost yields an edge with cost `None`; `__getitem__`
lookups are read-only.) -/
theorem C9_structural_errors_leave_graph_unchanged (g : Graph) (a b : VRef)
    (cost : Option ℚ) (e : PyErr) (g2 : Graph)
    (h : Graph.add_edge g a b cost = (.error e, g2)) : g2 = g := by
  unfold Graph.add_edge at h
  rcases a with s | v1
  · simp only [Graph.resolve] at h
    rcases hga : g.getitemStr s with e1 | v1
    · rw [hga] at h
      exact (Prod.mk.injEq _ _ _ _ ▸ h).2.symm
    · rw [hga] at h
      rcases b with s2 | v2
      · simp only [Graph.resolve] at h
        rcases hgb : g.getitemStr s2 with e2 | v2
        · rw [hgb] at h
          exact (Prod.mk.injEq _ _ _ _ ▸ h).2.symm
        · rw [hgb] at h
          exact connectDispatch_error h
      · simp only [Graph.resolve] at h
        exact connectDispatch_error h
  · rcases b with s2 | v2
    · simp only [Graph.resolve] at h
      rcases hgb : g.getitemStr s2 with e2 | v2
      · rw [hgb] at h
        exact (Prod.mk.injEq _ _ _ _ ▸ h).2.symm
      · rw [hgb] at h
        exact connectDispatch_error h
    · simp only [Graph.resolve] at h
      exact connectDispatch_error h

/-- Witness for C9: `add_edge` with the unknown name `Z` on the demo
graph fails with the key error and returns the untouched graph. -/
theorem C9_witness :
    Graph.add_edge demoGraph (.inl "Z") (.inl "A") none =
        (.error (.keyError "Z"), demoGraph) ∧
      demoGraph = demoGraph :=
  ⟨rfl, C9_structural_errors_leave_graph_unchanged demoGraph (.inl "Z")
    (.inl "A") none (.keyError "Z") demoGraph rfl⟩

/-- C2 counterexample: on the spec's concrete scenario, `path_BFS(A, D)`
returns the two-edge path `[A, C, D]` (with accumulated cost 6), not
the three-edge path `[A, B, C, D]` the claim states. -/
theorem C2_counterexample_bfs_path :
    bfsResultNames demoGraph (.inl "A") (.inl "D") =
        .ok (some ([some "A", some "C", some "D"], 6)) ∧
      ([some "A", some "C", some "D"] : List (Option String)) ≠
        [some "A", some "B", some "C", some "D"] :=
  ⟨by with_unfolding_all rfl, by decide⟩

/-- C2 amended: on the scenario graph, `path_BFS(A, D)` returns
`[A, C, D]` (the fewest-edge path, its accumulated cost being 6), while
`path_UCS(A, D)` and `path_Astar(A, D)` both return `[A, B, C, D]` with
total cost 4, not the cost-6 path `[A, C, D]`. -/
theorem C2_amended_demo_searches :
    bfsResultNames demoGraph (.inl "A") (.inl "D") =
        .ok (some ([some "A", some "C", some "D"], 6)) ∧
      ucsPathCostNames demoGraph (.inl "A") (.inl "D") =
        .ok (some ([some "A", some "B", some "C", some "D"], 4)) ∧
      astPathCostNames demoGraph (.inl "A") (.inl "D") =
        .ok (some ([some "A", some "B", some "C", some "D"], 4)) :=
  ⟨by with_unfolding_all rfl, by with_unfolding_all rfl,
    by with_unfolding_all rfl⟩

/-- C6 counterexample: adding a second vertex under the existing name
`A` does not fail (the operation is total and raises nothing): the
vertex is appended, so two vertices named `A` are registered and names
are not unique; the name index silently rebinds to the newer vertex. -/
theorem C6_counterexample_duplicate_name_accepted :
    dupNameGraph.vertexlist.map (fun v => (dupNameGraph.vtx v).name) =
        [some "A", some "A"] ∧
      dupNameGraph.vertexdict = [("A", 1)] ∧
      dupNameGraph.number_of_vertices = 1 := by decide

/-- C6 amended: `add_vertex` with a name that already belongs to a
vertex succeeds: it appends the new vertex to the vertex list, leaves
the name-index size unchanged and rebinds the name to the new vertex
(the older vertex stays in the list but is no longer reachable by
name), and marks the graph dirty. -/
theorem C6_amended_duplicate_name_rebinds (g : Graph) (coord : Option Coord)
    (nm : String) (h : g.vertexdict.any (fun p => p.1 = nm)) :
    (UndirectedGraph.add_vertex g coord (some nm)).1.vertexlist =
        g.vertexlist ++ [(UndirectedGraph.add_vertex g coord (some nm)).2] ∧
      dictGet (UndirectedGraph.add_vertex g coord (some nm)).1.vertexdict nm =
        some (UndirectedGraph.add_vertex g coord (some nm)).2 ∧
      (UndirectedGraph.add_vertex g coord (some nm)).1.number_of_vertices =
        g.number_of_vertices ∧
      (UndirectedGraph.add_vertex g coord (some nm)).1.cchange = some true := by
  refine ⟨rfl, dictGet_dictSet_self _ _ _, ?_, rfl⟩
  simpa [UndirectedGraph.add_vertex, Graph.add_vertex,
    Graph.number_of_vertices] using dictSet_length_of_mem g.vertexdict nm _ h

/-- Witness for C6: adding `A` on top of a graph that already has an
`A`. -/
theorem C6_witness :
    ((UndirectedGraph.add_vertex (Graph.init L1 L1) none (some "A")).1.vertexdict.any (fun p => p.1 = "A") = true) ∧
      dictGet dupNameGraph.vertexdict "A" = some 1 :=
  ⟨by decide,
    (C6_amended_duplicate_name_rebinds
      (UndirectedGraph.add_vertex (Graph.init L1 L1) none (some "A")).1
      none "A" (by decide)).2.1⟩

end GS

namespace GS

/-- An element stays in a set after `setAdd`. -/
theorem mem_setAdd_of_mem (s : List Eid) (e x : Eid) (h : x ∈ s) :
    x ∈ setAdd s e := by
  unfold setAdd
  split
  · exact h
  · exact List.mem_append_left _ h

/-- Reading the slot just pushed. -/
theorem getD_push_size (a : Array Vertex) (x d : Vertex) :
    (a.push x).getD a.size d = x := by
  simp [Array.getD]

/-- Reading the edge slot just pushed. -/
theorem getD_push_size_edge (a : Array Edge) (x d : Edge) :
    (a.push x).getD a.size d = x := by
  simp [Array.getD]

/-- C7 counterexample: `add_edge` with the cost omitted between two
vertices without coordinates does not fail; the edge is created and
registered with cost `None` (no `MissingCost` error exists). -/
theorem C7_counterexample_missing_cost_edge_created :
    (Graph.add_edge noCoordGraph (.inl "A") (.inl "B") none).1 = .ok 0 ∧
      ((Graph.add_edge noCoordGraph (.inl "A") (.inl "B") none).2.edg 0).cost
          = none ∧
      (Graph.add_edge noCoordGraph (.inl "A") (.inl "B") none).2.edgeset
          = [0] := by decide

/-- C7 amended: connecting two undirected vertices with the cost
omitted always succeeds; the new edge's cost is the graph metric of the
coordinate difference when both endpoints have coordinates and `None`
otherwise, and the edge is registered in the graph's edge set. -/
theorem C7_amended_default_cost (g : Graph) (v1 v2 : Vid)
    (h1 : (g.vtx v1).cls = .uVertexCls) (h2 : (g.vtx v2).cls = .uVertexCls) :
    ∃ eid g2, UndirectedVertex.connect g v1 v2 none = (.ok eid, g2) ∧
      (g2.edg eid).cost =
        (match (g.vtx v1).coord, (g.vtx v2).coord with
         | some c1, some c2 => some (g.metric (coordSub c1 c2))
         | _, _ => none) ∧
      eid ∈ g2.edgeset := by
  have hb : ¬((g.vtx v1).cls.base ≠ (g.vtx v2).cls.base) := by
    rw [h1, h2]
    simp
  unfold UndirectedVertex.connect Vertex.connect
  rw [if_neg hb]
  refine ⟨g.edges.size, _, rfl, ?_, ?_⟩
  · simp only [Graph.edg, Graph.appendEdge, Graph.setVtx, Graph.vtx]
    exact congrArg Edge.cost (getD_push_size_edge g.edges _ default)
  · exact mem_setAdd_of_mem _ _ _ (mem_setAdd_self g.edgeset g.edges.size)

/-- Witness for C7: instantiating the theorem on the two coordinate-free
vertices. -/
theorem C7_witness :
    (noCoordGraph.vtx 0).cls = .uVertexCls ∧
      ∃ eid g2, UndirectedVertex.connect noCoordGraph 0 1 none =
          (.ok eid, g2) ∧
        (g2.edg eid).cost =
          (match (noCoordGraph.vtx 0).coord, (noCoordGraph.vtx 1).coord with
           | some c1, some c2 => some (noCoordGraph.metric (coordSub c1 c2))
           | _, _ => none) ∧
        eid ∈ g2.edgeset :=
  ⟨by decide, C7_amended_default_cost noCoordGraph 0 1 (by decide) (by decide)⟩

end GS

namespace GS

/-- Writing a vertex slot in bounds and reading it back. -/
theorem vtx_setVtx_self {g : Graph} {v : Vid} {x : Vertex}
    (h : v < g.vertices.size) : (g.setVtx v x).vtx v = x := by
  simp [Graph.setVtx, Graph.vtx, Array.setD, h, Array.getD]

/-- An overwrite leaves the other slots of the arena unchanged. -/
theorem getD_setD_ne (a : Array Vertex) (v u : Nat) (x d : Vertex)
    (h : u ≠ v) : (a.setD v x).getD u d = a.getD u d := by
  unfold Array.setD
  split
  · by_cases hu : u < a.size
    · simp only [Array.getD, Array.size_set, hu, dite_true,
        Array.get_eq_getElem]
      rw [Array.getElem_set_ne]
      exact Ne.symm h
    · simp only [Array.getD, Array.size_set, hu, dite_false]
  · rfl

/-- Writing a vertex slot leaves other slots unchanged. -/
theorem vtx_setVtx_ne {g : Graph} {v u : Vid} {x : Vertex}
    (h : u ≠ v) : (g.setVtx v x).vtx u = g.vtx u :=
  getD_setD_ne g.vertices v u x default h

/-- An out-of-bounds write is a no-op. -/
theorem setVtx_of_ge {g : Graph} {v : Vid} {x : Vertex}
    (h : ¬ v < g.vertices.size) : (g.setVtx v x).vertices = g.vertices := by
  simp [Graph.setVtx, Array.setD, h]

/-- `setVtx` keeps the vertex-arena size. -/
theorem setVtx_size (g : Graph) (v : Vid) (x : Vertex) :
    (g.setVtx v x).vertices.size = g.vertices.size := by
  unfold Graph.setVtx Array.setD
  split
  · simp
  · rfl

/-- `appendEdge` changes only the vertex's `edgelist`: the dirty flag
it reads back is unchanged. -/
theorem appendEdge_vtx_cchange (g : Graph) (v : Vid) (e : Eid) (u : Vid) :
    ((g.appendEdge v e).vtx u).cchange = (g.vtx u).cchange := by
  unfold Graph.appendEdge
  by_cases hu : u = v
  · subst hu
    by_cases h : u < g.vertices.size
    · rw [vtx_setVtx_self h]
    · rw [Graph.vtx, setVtx_of_ge h]
      rfl
  · rw [vtx_setVtx_ne hu]

end GS

namespace GS

/-- `appendEdge` leaves the other vertex slots unchanged. -/
theorem appendEdge_vtx_ne (g : Graph) (v : Vid) (e : Eid) (u : Vid)
    (h : u ≠ v) : (g.appendEdge v e).vtx u = g.vtx u := by
  unfold Graph.appendEdge
  exact vtx_setVtx_ne h

/-- Replacing the edge set does not change the vertices. -/
theorem vtx_with_edgeset (A : Graph) (s : List Eid) (u : Vid) :
    Graph.vtx { A with edgeset := s } u = A.vtx u := rfl

/-- Replacing the graph dirty flag does not change the vertices. -/
theorem vtx_with_cchange (A : Graph) (c : Option Bool) (u : Vid) :
    Graph.vtx { A with cchange := c } u = A.vtx u := rfl

/-- Replacing an edge slot does not change the vertices. -/
theorem vtx_setEdg (A : Graph) (e : Eid) (x : Edge) (u : Vid) :
    Graph.vtx (A.setEdg e x) u = A.vtx u := rfl

/-- Marking a vertex dirty makes its flag read back `true` (slots out
of the arena read the default vertex, whose flag is `true`). -/
theorem cchange_after_mark (g : Graph) (v : Vid) :
    ((g.setVtx v { g.vtx v with cchange := true }).vtx v).cchange = true := by
  by_cases h : v < g.vertices.size
  · rw [vtx_setVtx_self h]
  · rw [Graph.vtx, setVtx_of_ge h]
    unfold Array.getD
    rw [dif_neg h]
    rfl

/-- C8 amended: every `add_vertex` and `connect` sets the graph's dirty
flag, but `connect` marks only the source vertex (the destination's
flag is untouched); removing an edge marks the graph and both
endpoints; removing an isolated vertex touches no flag (and no vertex)
at all; and a graph flag that is `True` makes the recolouring guard
fire — since `_graphcolor` never clears the graph's own flag, every
connectivity query after the first mutation recomputes. -/
theorem C8_amended_dirty_flags :
    (∀ g v nm, ((Graph.add_vertex g v nm).1).cchange = some true) ∧
    (∀ g v w c eid g2, UndirectedVertex.connect g v w c = (.ok eid, g2) →
        g2.cchange = some true ∧ (g2.vtx v).cchange = true ∧
        (w ≠ v → (g2.vtx w).cchange = (g.vtx w).cchange)) ∧
    (∀ g eid g2, Graph.removeEdge g eid = (.ok (), g2) →
        g2.cchange = some true ∧
        ∃ a b, (g.edg eid).v1 = some a ∧ (g.edg eid).v2 = some b ∧
          (g2.vtx a).cchange = true ∧ (g2.vtx b).cchange = true) ∧
    (∀ g v r g2, (g.vtx v).edgelist = [] →
        Graph.removeVertex g v = (r, g2) →
        g2.cchange = g.cchange ∧ ∀ u, g2.vtx u = g.vtx u) ∧
    (∀ g : Graph, g.cchange = some true → g.dirtyGuard = some true) := by
  refine ⟨fun g v nm => rfl, ?_, ?_, ?_, ?_⟩
  · intro g v w c eid g2 h
    unfold UndirectedVertex.connect at h
    rcases hvc : Vertex.connect g v w c with ⟨r, gA⟩
    rw [hvc] at h
    cases r with
    | error e2 => simp at h
    | ok eid2 =>
      simp only [Prod.mk.injEq, Except.ok.injEq] at h
      obtain ⟨heid, hg2⟩ := h
      unfold Vertex.connect at hvc
      by_cases hb : (g.vtx v).cls.base ≠ (g.vtx w).cls.base
      · rw [if_pos hb] at hvc
        exact absurd (Prod.mk.injEq _ _ _ _ ▸ hvc).1 (by simp)
      · rw [if_neg hb] at hvc
        obtain ⟨he, hgA⟩ := Prod.mk.injEq _ _ _ _ ▸ hvc
        subst hgA
        subst hg2
        refine ⟨rfl, ?_, ?_⟩
        · rw [vtx_with_edgeset, appendEdge_vtx_cchange, appendEdge_vtx_cchange]
          exact cchange_after_mark _ v
        · intro hwv
          rw [vtx_with_edgeset, appendEdge_vtx_cchange,
            appendEdge_vtx_ne _ _ _ _ hwv, vtx_setVtx_ne hwv]
          rfl
  · intro g eid g2 h
    simp only [Graph.removeEdge] at h
    split at h
    next => simp at h
    next v1 heq1 =>
      split at h
      next => simp at h
      next h1 =>
        split at h
        next => simp at h
        next v2 heq2 =>
          split at h
          next => simp at h
          next h2 =>
            split at h
            next => simp at h
            next h3 =>
              simp only [Prod.mk.injEq] at h
              obtain ⟨-, hg2⟩ := h
              subst hg2
              refine ⟨rfl, v1, v2, heq1, heq2, ?_, ?_⟩
              · rw [vtx_with_edgeset, vtx_setEdg, vtx_with_cchange]
                by_cases hv12 : v1 = v2
                · subst hv12
                  exact cchange_after_mark _ v1
                · rw [vtx_setVtx_ne hv12]
                  exact cchange_after_mark _ v1
              · rw [vtx_with_edgeset, vtx_setEdg, vtx_with_cchange]
                exact cchange_after_mark _ v2
  · intro g v r g2 hempty h
    unfold Graph.removeVertex at h
    rw [hempty] at h
    simp only [Graph.removeEdges] at h
    split at h
    next => exact ⟨(Prod.mk.injEq _ _ _ _ ▸ h).2 ▸ rfl,
      fun u => (Prod.mk.injEq _ _ _ _ ▸ h).2 ▸ rfl⟩
    next nm =>
      split at h
      next => exact ⟨(Prod.mk.injEq _ _ _ _ ▸ h).2 ▸ rfl,
        fun u => (Prod.mk.injEq _ _ _ _ ▸ h).2 ▸ rfl⟩
      next => exact ⟨(Prod.mk.injEq _ _ _ _ ▸ h).2 ▸ rfl,
        fun u => (Prod.mk.injEq _ _ _ _ ▸ h).2 ▸ rfl⟩
  · intro g h
    simp [Graph.dirtyGuard, h]

end GS

namespace GS

/-- C8 counterexample: after a connectivity query has cleared the
vertex flags, connecting vertex `P` to vertex `Q` succeeds but leaves
the destination vertex's dirty flag `False`: the flag is not set on
every affected vertex (only on the graph and the source). -/
theorem C8_counterexample_connect_dest_not_marked :
    (twoIslandColored.vtx 1).cchange = false ∧
      (UndirectedVertex.connect twoIslandColored 0 1 (some 1)).1 = .ok 0 ∧
      ((UndirectedVertex.connect twoIslandColored 0 1 (some 1)).2.cchange
          = some true) ∧
      ((UndirectedVertex.connect twoIslandColored 0 1 (some 1)).2.vtx 0).cchange = true ∧
      ((UndirectedVertex.connect twoIslandColored 0 1 (some 1)).2.vtx 1).cchange = false := by
  decide

/-- Witness for C8: the add-vertex clause and the recolouring guard
instantiated on the two-island graph. -/
theorem C8_witness :
    ((Graph.add_vertex twoIslandGraph (Vertex.init none none .uVertexCls)
        (some "R")).1.cchange = some true) ∧
      twoIslandColored.dirtyGuard = some true :=
  ⟨C8_amended_dirty_flags.1 twoIslandGraph (Vertex.init none none .uVertexCls)
      (some "R"),
    C8_amended_dirty_flags.2.2.2.2 twoIslandColored (by decide)⟩

/-- The cons equation of `bfsExpand`. -/
theorem bfsExpand_cons (goal x : Vid) (expl : List Vid) (n : Vid)
    (rest fr : List Vid) (par : List (Vid × Vid)) :
    bfsExpand goal x expl (n :: rest) fr par =
      if n = goal then (fr, pdictSet par n x, true)
      else if n ∉ fr ∧ n ∉ expl then
        bfsExpand goal x expl rest (fr ++ [n]) (pdictSet par n x)
      else bfsExpand goal x expl rest fr par := by
  rfl

/-- A goal occurring in the neighbour list makes the BFS expansion
finish with `done = True`. -/
theorem bfsExpand_done_of_mem (goal x : Vid) (expl : List Vid) :
    ∀ ns fr par, goal ∈ ns →
      ∃ fr2 par2, bfsExpand goal x expl ns fr par = (fr2, par2, true) := by
  intro ns
  induction ns with
  | nil => intro fr par h; cases h
  | cons n rest ih =>
    intro fr par h
    unfold bfsExpand
    by_cases hn : n = goal
    · rw [if_pos hn]
      exact ⟨fr, pdictSet par n x, rfl⟩
    · rw [if_neg hn]
      have hg : goal ∈ rest := by
        rcases List.mem_cons.mp h with h1 | h1
        · exact absurd h1.symm hn
        · exact h1
      split
      · exact ih _ _ hg
      · exact ih _ _ hg

/-- A neighbour list free of the goal leaves `done = False` and only
appends to the frontier. -/
theorem bfsExpand_not_mem (goal x : Vid) (expl : List Vid) :
    ∀ ns fr par, goal ∉ ns →
      ∃ fr2 par2, bfsExpand goal x expl ns fr par = (fr2, par2, false) ∧
        ∃ suf, fr2 = fr ++ suf := by
  intro ns
  induction ns with
  | nil =>
    intro fr par _
    exact ⟨fr, par, rfl, [], by simp⟩
  | cons n rest ih =>
    intro fr par h
    have hn : ¬ n = goal := fun hc => h (hc ▸ List.mem_cons_self n rest)
    have hr : goal ∉ rest := fun hc => h (List.mem_cons_of_mem n hc)
    unfold bfsExpand
    rw [if_neg hn]
    split
    · obtain ⟨fr2, par2, heq, suf, hsuf⟩ := ih (fr ++ [n]) (pdictSet par n x) hr
      exact ⟨fr2, par2, heq, [n] ++ suf, by simpa using hsuf⟩
    · exact ih fr par hr

/-- One unfolding of the BFS loop. -/
theorem bfsLoop_step (g : Graph) (goal : Vid) (fuel : Nat) (x : Vid)
    (rest expl : List Vid) (par : List (Vid × Vid)) :
    bfsLoop g goal (fuel + 1) ⟨x :: rest, expl, par⟩ =
      match g.neighboursM x with
      | .error e => .error e
      | .ok ns =>
        match bfsExpand goal x expl ns rest par with
        | (fr, p2, true) => .ok (some ⟨fr, expl, p2⟩)
        | (fr, p2, false) => bfsLoop g goal fuel ⟨fr, expl ++ [x], p2⟩ := rfl

/-- `path_BFS` in terms of its loop and reconstruction. -/
theorem path_BFS_of_loop (g : Graph) (S G : Vid) :
    g.path_BFS (.inr S) (.inr G) =
      match bfsLoop g G (bfsFuel g) ⟨[S], [], []⟩ with
      | .error e => .error e
      | .ok none => .ok none
      | .ok (some st) =>
        match reconBFS g S st.parent (g.vertices.size + 1) G [G] 0 with
        | .error e => .error e
        | .ok pr => .ok (some pr) := by
  cases hl : bfsLoop g G (bfsFuel g) ⟨[S], [], []⟩ with
  | error e =>
    simp only [Graph.path_BFS, Graph.path_BFS_state, Graph.resolve, hl,
      bind, Except.bind]
  | ok r =>
    cases r with
    | none =>
      simp only [Graph.path_BFS, Graph.path_BFS_state, Graph.resolve, hl,
        bind, Except.bind]
    | some st =>
      simp only [Graph.path_BFS, Graph.path_BFS_state, Graph.resolve, hl,
        bind, Except.bind]
      cases hr : reconBFS g S st.parent (g.vertices.size + 1) G [G] 0 with
      | error e => rfl
      | ok pr => rfl

end GS

namespace GS

/-- An emptied frontier returns `None`. -/
theorem bfsLoop_empty (g : Graph) (goal : Vid) (fuel : Nat)
    (expl : List Vid) (par : List (Vid × Vid)) :
    bfsLoop g goal (fuel + 1) ⟨[], expl, par⟩ = .ok none := rfl

/-- Looking up the only key of a singleton cost dict. -/
theorem qdictGet_single_self (S : Vid) (q : ℚ) :
    qdictGet [(S, q)] S = some q := by
  simp [qdictGet, List.find?]

/-- When the start is the goal, the UCS loop pops it first and stops at
once, before exploring anything. -/
theorem ucsLoop_self (g : Graph) (S : Vid) (fuel : Nat) (expl : List Vid)
    (par : List (Vid × Vid)) (f : List (Vid × ℚ)) (q : ℚ)
    (hf : qdictGet f S = some q) :
    ucsLoop g S (fuel + 1) ⟨[S], expl, par, f⟩ =
      .ok (some ⟨[], expl, par, f⟩) := by
  unfold ucsLoop
  simp only [List.mapM_cons, List.mapM_nil, qdictGetM, hf, bind, Except.bind,
    pure, Except.pure]
  rw [if_pos (show [S].getD (listArgmin [q]) 0 = S from rfl)]
  rfl

/-- When the start is the goal, the A* loop pops it first and stops at
once, before exploring anything. -/
theorem astLoop_self (g : Graph) (S : Vid) (fuel : Nat) (expl : List Vid)
    (par : List (Vid × Vid)) (gd f : List (Vid × ℚ)) (q : ℚ)
    (hf : qdictGet f S = some q) :
    astLoop g S (fuel + 1) ⟨[S], expl, par, gd, f⟩ =
      .ok (some ⟨[], expl, par, gd, f⟩) := by
  unfold astLoop
  simp only [List.mapM_cons, List.mapM_nil, qdictGetM, hf, bind, Except.bind,
    pure, Except.pure]
  rw [if_pos (show [S].getD (listArgmin [q]) 0 = S from rfl)]
  rfl

/-- `path_UCS` in terms of its loop and reconstruction. -/
theorem path_UCS_of_loop (g : Graph) (S G : Vid) :
    g.path_UCS (.inr S) (.inr G) =
      match ucsLoop g G (bfsFuel g) ⟨[S], [], [], [(S, 0)]⟩ with
      | .error e => .error e
      | .ok none => .ok none
      | .ok (some st) =>
        match reconUCS g S st.parent (g.vertices.size + 1) G [G] 0 with
        | .error e => .error e
        | .ok pr => .ok (some (pr.1, pr.2, parentNames g st.parent)) := by
  cases hl : ucsLoop g G (bfsFuel g) ⟨[S], [], [], [(S, 0)]⟩ with
  | error e =>
    simp only [Graph.path_UCS, Graph.path_UCS_state, Graph.resolve, hl,
      bind, Except.bind]
  | ok r =>
    cases r with
    | none =>
      simp only [Graph.path_UCS, Graph.path_UCS_state, Graph.resolve, hl,
        bind, Except.bind]
    | some st =>
      simp only [Graph.path_UCS, Graph.path_UCS_state, Graph.resolve, hl,
        bind, Except.bind]
      cases hr : reconUCS g S st.parent (g.vertices.size + 1) G [G] 0 with
      | error e => rfl
      | ok pr => rfl

/-- `path_Astar` in terms of its loop and reconstruction. -/
theorem path_Astar_of_loop (g : Graph) (S G : Vid) :
    g.path_Astar (.inr S) (.inr G) =
      match astLoop g G (bfsFuel g) ⟨[S], [], [], [(S, 0)], [(S, 0)]⟩ with
      | .error e => .error e
      | .ok none => .ok none
      | .ok (some st) =>
        match reconUCS g S st.parent (g.vertices.size + 1) G [G] 0 with
        | .error e => .error e
        | .ok pr => .ok (some (pr.1, pr.2, parentNames g st.parent)) := by
  cases hl : astLoop g G (bfsFuel g) ⟨[S], [], [], [(S, 0)], [(S, 0)]⟩ with
  | error e =>
    simp only [Graph.path_Astar, Graph.path_Astar_state, Graph.resolve, hl,
      bind, Except.bind]
  | ok r =>
    cases r with
    | none =>
      simp only [Graph.path_Astar, Graph.path_Astar_state, Graph.resolve, hl,
        bind, Except.bind]
    | some st =>
      simp only [Graph.path_Astar, Graph.path_Astar_state, Graph.resolve, hl,
        bind, Except.bind]
      cases hr : reconUCS g S st.parent (g.vertices.size + 1) G [G] 0 with
      | error e => rfl
      | ok pr => rfl

/-- A reconstruction that starts at the start vertex returns the
accumulated path at once. -/
theorem recon_self_UCS (g : Graph) (S : Vid) (par : List (Vid × Vid)) :
    reconUCS g S par (g.vertices.size + 1) S [S] 0 = .ok ([S], 0) := by
  unfold reconUCS
  rw [if_pos rfl]

/-- Same for the BFS reconstruction. -/
theorem recon_self_BFS (g : Graph) (S : Vid) (par : List (Vid × Vid)) :
    reconBFS g S par (g.vertices.size + 1) S [S] 0 = .ok ([S], 0) := by
  unfold reconBFS
  rw [if_pos rfl]

/-- C5: with start equal to goal, `path_UCS` and `path_Astar` return
the single-vertex path with cost zero on every graph; `path_BFS`
instead returns `None` (no path) when the vertex has no incident edge,
and `([v], 0)` only when the undirected neighbourhood leads back to the
start (the goal test never inspects the start itself). -/
theorem C5_start_equals_goal (g : Graph) (S : Vid) :
    g.path_UCS (.inr S) (.inr S) = .ok (some ([S], 0, [])) ∧
    g.path_Astar (.inr S) (.inr S) = .ok (some ([S], 0, [])) ∧
    ((g.vtx S).edgelist = [] → g.path_BFS (.inr S) (.inr S) = .ok none) ∧
    (∀ n1 ns, g.neighboursM S = .ok (n1 :: ns) →
      (S ∈ n1 :: ns ∨ ∃ ns1, g.neighboursM n1 = .ok ns1 ∧ S ∈ ns1) →
      g.path_BFS (.inr S) (.inr S) = .ok (some ([S], 0))) := by
  refine ⟨?_, ?_, ?_, ?_⟩
  · rw [path_UCS_of_loop]
    rw [show ucsLoop g S (bfsFuel g) ⟨[S], [], [], [(S, 0)]⟩ =
        .ok (some ⟨[], [], [], [(S, 0)]⟩) from
      ucsLoop_self g S (2 * g.vertices.size + 1) [] [] [(S, 0)] 0
        (qdictGet_single_self S 0)]
    dsimp only
    rw [recon_self_UCS]
    rfl
  · rw [path_Astar_of_loop]
    rw [show astLoop g S (bfsFuel g) ⟨[S], [], [], [(S, 0)], [(S, 0)]⟩ =
        .ok (some ⟨[], [], [], [(S, 0)], [(S, 0)]⟩) from
      astLoop_self g S (2 * g.vertices.size + 1) [] [] [(S, 0)] [(S, 0)] 0
        (qdictGet_single_self S 0)]
    dsimp only
    rw [recon_self_UCS]
    rfl
  · intro hempty
    have h1 : g.neighboursM S = .ok [] := by
      unfold Graph.neighboursM
      rw [hempty]
      rfl
    rw [path_BFS_of_loop]
    rw [show bfsLoop g S (bfsFuel g) ⟨[S], [], []⟩ = .ok none  from by
      show bfsLoop g S (2 * g.vertices.size + 1 + 1) ⟨[S], [], []⟩ = .ok none
      rw [bfsLoop_step, h1]
      rfl]
  · intro n1 ns hns hor
    rw [path_BFS_of_loop]
    by_cases hS : S ∈ n1 :: ns
    · obtain ⟨fr2, par2, hex⟩ := bfsExpand_done_of_mem S S [] (n1 :: ns) [] [] hS
      rw [show bfsLoop g S (bfsFuel g) ⟨[S], [], []⟩ =
          .ok (some ⟨fr2, [], par2⟩) from by
        show bfsLoop g S (2 * g.vertices.size + 1 + 1) ⟨[S], [], []⟩ = _
        rw [bfsLoop_step, hns]
        dsimp only
        rw [hex]]
      dsimp only
      rw [recon_self_BFS]
    · rcases hor with h | ⟨ns1, hn1, hSmem⟩
      · exact absurd h hS
      have hn1S : ¬ n1 = S := fun hc => hS (hc ▸ List.mem_cons_self n1 ns)
      have hSns : S ∉ ns := fun hc => hS (List.mem_cons_of_mem n1 hc)
      obtain ⟨fr2, par2, hex, suf, hsuf⟩ :=
        bfsExpand_not_mem S S [] ns [n1] (pdictSet [] n1 S) hSns
      obtain ⟨fr3, par3, hex2⟩ :=
        bfsExpand_done_of_mem S n1 [S] ns1 (suf) par2 hSmem
      rw [show bfsLoop g S (bfsFuel g) ⟨[S], [], []⟩ =
          .ok (some ⟨fr3, [S], par3⟩) from by
        show bfsLoop g S (2 * g.vertices.size + 1 + 1) ⟨[S], [], []⟩ = _
        rw [bfsLoop_step, hns]
        dsimp only
        rw [bfsExpand_cons, if_neg hn1S, if_pos (by simp), List.nil_append]
        rw [hex, hsuf]
        show bfsLoop g S (2 * g.vertices.size + 1) ⟨n1 :: suf, [S], par2⟩ = _
        rw [bfsLoop_step, hn1]
        dsimp only
        rw [hex2]]
      dsimp only
      rw [recon_self_BFS]

/-- C5 counterexample: on a single isolated vertex, `path_BFS(v, v)`
returns `None` instead of the claimed single-vertex zero-cost path. -/
theorem C5_counterexample_bfs_isolated :
    oneVertexGraph.path_BFS (.inr 0) (.inr 0) = .ok none ∧
      (.ok none : Except PyErr (Option (List Vid × ℚ))) ≠
        .ok (some ([0], 0)) := by
  refine ⟨by with_unfolding_all rfl, by decide⟩

/-- Witness for C5: the theorem instantiated on `twoVertexGraph` at its
vertex `A`, whose neighbour `B` leads back to it. -/
theorem C5_witness :
    twoVertexGraph.path_UCS (.inr 0) (.inr 0) = .ok (some ([0], 0, [])) ∧
      twoVertexGraph.path_BFS (.inr 0) (.inr 0) = .ok (some ([0], 0)) :=
  ⟨(C5_start_equals_goal twoVertexGraph 0).1,
    (C5_start_equals_goal twoVertexGraph 0).2.2.2 1 []
      (by with_unfolding_all rfl)
      (Or.inr ⟨[0], by with_unfolding_all rfl, by decide⟩)⟩

end GS

namespace GS

/-- A successful BFS reconstruction yields a path that starts at the
start vertex and keeps the accumulated tail (so it ends at the goal). -/
theorem reconBFS_head_last (g : Graph) (S : Vid) (par : List (Vid × Vid)) :
    ∀ fuel x path len p c,
      reconBFS g S par fuel x (x :: path) len = .ok (p, c) →
      p.head? = some S ∧ p.getLast? = (x :: path).getLast? := by
  intro fuel
  induction fuel with
  | zero =>
    intro x path len p c h
    exact absurd h (by simp [reconBFS])
  | succ fuel ih =>
    intro x path len p c h
    unfold reconBFS at h
    by_cases hx : x = S
    · rw [if_pos hx] at h
      simp only [Except.ok.injEq, Prod.mk.injEq] at h
      obtain ⟨h1, h2⟩ := h
      subst hx
      rw [← h1]
      exact ⟨rfl, rfl⟩
    · rw [if_neg hx] at h
      rcases hp : pdictGet par x with _ | pa
      · rw [hp] at h
        exact absurd h (by simp)
      · rw [hp] at h
        dsimp only at h
        rcases he : g.edgeto x pa with e1 | e
        · rw [he] at h
          exact absurd h (by simp)
        · rw [he] at h
          dsimp only at h
          rcases ha : addCost len (g.edg e).cost with e2 | len2
          · rw [ha] at h
            exact absurd h (by simp)
          · rw [ha] at h
            dsimp only at h
            have hrec := ih pa (x :: path) len2 p c h
            refine ⟨hrec.1, ?_⟩
            rw [hrec.2]
            exact List.getLast?_cons_cons
/-- Same, for the UCS and A* reconstruction. -/
theorem reconUCS_head_last (g : Graph) (S : Vid) (par : List (Vid × Vid)) :
    ∀ fuel x path len p c,
      reconUCS g S par fuel x (x :: path) len = .ok (p, c) →
      p.head? = some S ∧ p.getLast? = (x :: path).getLast? := by
  intro fuel
  induction fuel with
  | zero =>
    intro x path len p c h
    exact absurd h (by simp [reconUCS])
  | succ fuel ih =>
    intro x path len p c h
    unfold reconUCS at h
    by_cases hx : x = S
    · rw [if_pos hx] at h
      simp only [Except.ok.injEq, Prod.mk.injEq] at h
      obtain ⟨h1, h2⟩ := h
      subst hx
      rw [← h1]
      exact ⟨rfl, rfl⟩
    · rw [if_neg hx] at h
      rcases hp : pdictGet par x with _ | pa
      · rw [hp] at h
        exact absurd h (by simp)
      · rw [hp] at h
        dsimp only at h
        rcases he : g.edgeto pa x with e1 | e
        · rw [he] at h
          exact absurd h (by simp)
        · rw [he] at h
          dsimp only at h
          rcases ha : addCost len (g.edg e).cost with e2 | len2
          · rw [ha] at h
            exact absurd h (by simp)
          · rw [ha] at h
            dsimp only at h
            have hrec := ih pa (x :: path) len2 p c h
            refine ⟨hrec.1, ?_⟩
            rw [hrec.2]
            exact List.getLast?_cons_cons

/-- C1 counterexample: the value `path_BFS` returns does not carry the
parent mapping (nor the explored sequence): two graphs on which the
search builds different parent maps give identical return values.  In
addition the class namespace has no frontier-bounded variant: neither
`path_sma` (which the CLI invokes) nor `path_bfs` exists, so no result
can distinguish a bound-exceeded outcome. -/
theorem C1_counterexample_return_shape :
    bfsResultNames twoVertexGraph (.inl "A") (.inl "B") =
        bfsResultNames threeVertexGraph (.inl "A") (.inl "B") ∧
      bfsParentsNames twoVertexGraph (.inl "A") (.inl "B") ≠
        bfsParentsNames threeVertexGraph (.inl "A") (.inl "B") ∧
      "path_sma" ∉ GraphClassAttrs ∧ "path_bfs" ∉ GraphClassAttrs := by
  exact ⟨by with_unfolding_all rfl, by decide, by decide, by decide⟩

/-- C1 amended: the searches return `(path, cost)` (BFS) or
`(path, cost, parent-name map)` (UCS, A*) on success — with the path
running from the start to the goal inclusive — and the bare failure
indicator `None` otherwise; no explored sequence is returned and no
frontier-bounded variant exists. -/
theorem C1_amended_output_contract (g : Graph) (S G : Vid) :
    (∀ p c, g.path_BFS (.inr S) (.inr G) = .ok (some (p, c)) →
      p.head? = some S ∧ p.getLast? = some G) ∧
    (∀ p c pn, g.path_UCS (.inr S) (.inr G) = .ok (some (p, c, pn)) →
      p.head? = some S ∧ p.getLast? = some G) ∧
    (∀ p c pn, g.path_Astar (.inr S) (.inr G) = .ok (some (p, c, pn)) →
      p.head? = some S ∧ p.getLast? = some G) := by
  refine ⟨?_, ?_, ?_⟩
  · intro p c h
    rw [path_BFS_of_loop] at h
    rcases hl : bfsLoop g G (bfsFuel g) ⟨[S], [], []⟩ with e | r
    · rw [hl] at h
      exact absurd h (by simp)
    · rw [hl] at h
      rcases r with _ | st
      · exact absurd h (by simp)
      · dsimp only at h
        rcases hr : reconBFS g S st.parent (g.vertices.size + 1) G [G] 0
          with e | pr
        · rw [hr] at h
          exact absurd h (by simp)
        · rw [hr] at h
          have hpr : pr = (p, c) := by simpa using h
          have := reconBFS_head_last g S st.parent (g.vertices.size + 1)
            G [] 0 p c (hpr ▸ hr)
          exact ⟨this.1, this.2⟩
  · intro p c pn h
    rw [path_UCS_of_loop] at h
    rcases hl : ucsLoop g G (bfsFuel g) ⟨[S], [], [], [(S, 0)]⟩ with e | r
    · rw [hl] at h
      exact absurd h (by simp)
    · rw [hl] at h
      rcases r with _ | st
      · exact absurd h (by simp)
      · dsimp only at h
        rcases hr : reconUCS g S st.parent (g.vertices.size + 1) G [G] 0
          with e | pr
        · rw [hr] at h
          exact absurd h (by simp)
        · rw [hr] at h
          have hpr : pr.1 = p := by
            simpa using congrArg (fun x =>
              match x with
              | Except.ok (some y) => y.1
              | _ => pr.1) h
          have := reconUCS_head_last g S st.parent (g.vertices.size + 1)
            G [] 0 pr.1 pr.2 (by rw [← hr])
          rw [hpr] at this
          exact ⟨this.1, this.2⟩
  · intro p c pn h
    rw [path_Astar_of_loop] at h
    rcases hl : astLoop g G (bfsFuel g) ⟨[S], [], [], [(S, 0)], [(S, 0)]⟩
      with e | r
    · rw [hl] at h
      exact absurd h (by simp)
    · rw [hl] at h
      rcases r with _ | st
      · exact absurd h (by simp)
      · dsimp only at h
        rcases hr : reconUCS g S st.parent (g.vertices.size + 1) G [G] 0
          with e | pr
        · rw [hr] at h
          exact absurd h (by simp)
        · rw [hr] at h
          have hpr : pr.1 = p := by
            simpa using congrArg (fun x =>
              match x with
              | Except.ok (some y) => y.1
              | _ => pr.1) h
          have := reconUCS_head_last g S st.parent (g.vertices.size + 1)
            G [] 0 pr.1 pr.2 (by rw [← hr])
          rw [hpr] at this
          exact ⟨this.1, this.2⟩

/-- Witness for C1: the start/goal endpoints of the UCS result on the
demo graph. -/
theorem C1_witness :
    ([0, 1, 2, 3] : List Vid).head? = some 0 ∧
      ([0, 1, 2, 3] : List Vid).getLast? = some 3 :=
  (C1_amended_output_contract demoGraph 0 3).2.1 [0, 1, 2, 3] 4
    [(some "B", some "A"), (some "C", some "B"), (some "D", some "C")]
    (by with_unfolding_all rfl)

end GS


namespace GS

/-- In-place update branch of `pdictSet`: the key is found. -/
theorem pdictGet_map_self (d : List (Vid × Vid)) (k v : Vid)
    (h : (d.any fun p => p.1 = k) = true) :
    pdictGet (d.map (fun p => if p.1 = k then (k, v) else p)) k = some v := by
  induction d with
  | nil => simp at h
  | cons p rest ih =>
    by_cases hp : p.1 = k
    · simp [pdictGet, List.find?, hp]
    · simp only [List.any_cons, Bool.or_eq_true, decide_eq_true_eq] at h
      rcases h with h | h
      · exact absurd h hp
      · simpa [pdictGet, List.find?, hp] using ih h

/-- Append branch of `pdictSet`: the key is fresh. -/
theorem pdictGet_append_self (d : List (Vid × Vid)) (k v : Vid)
    (h : (d.any fun p => p.1 = k) = false) :
    pdictGet (d ++ [(k, v)]) k = some v := by
  induction d with
  | nil => simp [pdictGet, List.find?]
  | cons p rest ih =>
    simp only [List.any_cons, Bool.or_eq_false_iff, decide_eq_false_iff_not] at h
    have := ih (by simp [h.2])
    simpa [pdictGet, List.find?, h.1] using this

/-- Setting a parent keeps it retrievable. -/
theorem pdictGet_set_self (d : List (Vid × Vid)) (k v : Vid) :
    pdictGet (pdictSet d k v) k = some v := by
  unfold pdictSet
  by_cases h : (d.any fun p => p.1 = k) = true
  · rw [if_pos h]; exact pdictGet_map_self d k v h
  · rw [if_neg h]
    exact pdictGet_append_self d k v (Bool.not_eq_true _ ▸ h)

/-- The in-place update branch leaves other keys unchanged. -/
theorem pdictGet_map_ne (d : List (Vid × Vid)) (k v k2 : Vid)
    (h : k2 ≠ k) :
    pdictGet (d.map (fun p => if p.1 = k then (k, v) else p)) k2 =
      pdictGet d k2 := by
  induction d with
  | nil => rfl
  | cons p rest ih =>
    by_cases hp : p.1 = k
    · have h1 : ¬ (k : Vid) = k2 := fun hc => h hc.symm
      have h2 : ¬ p.1 = k2 := fun hc => h1 (hp ▸ hc)
      simp only [List.map_cons, pdictGet, List.find?, hp, if_true]
      simp only [decide_eq_false h1, decide_eq_false h2]
      simpa [pdictGet] using ih
    · by_cases hq : p.1 = k2
      · simp only [List.map_cons]
        rw [if_neg hp]
        simp [pdictGet, List.find?, hq]
      · simp only [List.map_cons, pdictGet, List.find?, if_neg hp,
          decide_eq_false hq]
        simpa [pdictGet] using ih

/-- The append branch leaves other keys unchanged. -/
theorem pdictGet_append_ne (d : List (Vid × Vid)) (k v k2 : Vid)
    (h : k2 ≠ k) :
    pdictGet (d ++ [(k, v)]) k2 = pdictGet d k2 := by
  induction d with
  | nil =>
    have h1 : ¬ (k : Vid) = k2 := fun hc => h hc.symm
    simp [pdictGet, List.find?, h1]
  | cons p rest ih =>
    by_cases hq : p.1 = k2
    · simp [pdictGet, List.find?, hq]
    · simp only [List.cons_append, pdictGet, List.find?, decide_eq_false hq]
      simpa [pdictGet] using ih

/-- Setting a parent leaves other keys unchanged. -/
theorem pdictGet_set_ne (d : List (Vid × Vid)) (k v k2 : Vid)
    (h : k2 ≠ k) : pdictGet (pdictSet d k v) k2 = pdictGet d k2 := by
  unfold pdictSet
  by_cases hh : (d.any fun p => p.1 = k) = true
  · rw [if_pos hh]; exact pdictGet_map_ne d k v k2 h
  · rw [if_neg hh]; exact pdictGet_append_ne d k v k2 h

/-- Extending the parent map (keeping every existing binding) preserves
parent chains. -/
theorem ParChain.extend {g : Graph} {par par2 : List (Vid × Vid)}
    {S v : Vid} {n : Nat}
    (hext : ∀ k w, pdictGet par k = some w → pdictGet par2 k = some w)
    (h : ParChain g par S v n) : ParChain g par2 S v n := by
  induction h with
  | nil => exact .nil
  | cons hvS hpar hadj _ ih => exact .cons hvS (hext _ _ hpar) hadj ih

/-- A parent chain is a walk. -/
theorem ParChain.toWalk {g : Graph} {par : List (Vid × Vid)} {S v : Vid}
    {n : Nat} (h : ParChain g par S v n) : WalkLen g S v n := by
  induction h with
  | nil => exact .nil
  | cons _ _ hadj _ ih => exact .cons ih hadj

/-- An avoiding walk is a walk. -/
theorem AvoidWalk.toWalkLen {g : Graph} {G S v : Vid} {n : Nat}
    (h : AvoidWalk g G S v n) : WalkLen g S v n := by
  induction h with
  | nil _ => exact .nil
  | cons _ hadj _ ih => exact .cons ih hadj

/-- The endpoint of an avoiding walk differs from the avoided vertex. -/
theorem AvoidWalk.ne {g : Graph} {G S v : Vid} {n : Nat}
    (h : AvoidWalk g G S v n) : v ≠ G := by
  cases h with
  | nil h => exact h
  | cons _ _ h => exact h

/-- First-arrival decomposition: a walk reaching `G` (with `S ≠ G` and
no self-loop at `G`) contains a `G`-avoiding prefix that ends one edge
short of `G`. -/
theorem walk_first_arrival {g : Graph} {S G : Vid} {k : Nat}
    (hSG : S ≠ G) (hG : G ∉ nbrs g G) (h : WalkLen g S G k) :
    ∃ j u, j < k ∧ AvoidWalk g G S u j ∧ G ∈ nbrs g u := by
  suffices hgen : ∀ v n, WalkLen g S v n →
      (v ≠ G → AvoidWalk g G S v n ∨
        ∃ j u, j < n ∧ AvoidWalk g G S u j ∧ G ∈ nbrs g u) ∧
      (v = G → ∃ j u, j < n ∧ AvoidWalk g G S u j ∧ G ∈ nbrs g u) by
    exact (hgen G k h).2 rfl
  intro v n hw
  induction hw with
  | nil =>
    exact ⟨fun _ => Or.inl (.nil hSG), fun hvG => absurd hvG hSG⟩
  | @cons u v2 n2 hw hadj ih =>
    constructor
    · intro hvG
      by_cases huG : u = G
      · obtain ⟨j, w, hj, hav, hwadj⟩ := ih.2 huG
        exact Or.inr ⟨j, w, Nat.lt_succ_of_lt hj, hav, hwadj⟩
      · rcases ih.1 huG with hav | ⟨j, w, hj, hav, hwadj⟩
        · exact Or.inl (.cons hav hadj hvG)
        · exact Or.inr ⟨j, w, Nat.lt_succ_of_lt hj, hav, hwadj⟩
    · intro hvG
      have hadjG : G ∈ nbrs g u := hvG ▸ hadj
      by_cases huG : u = G
      · exact absurd (huG ▸ hadjG) hG
      · rcases ih.1 huG with hav | ⟨j, w, hj, hav, hwadj⟩
        · exact ⟨n2, u, Nat.lt_succ_self n2, hav, hadjG⟩
        · exact ⟨j, w, Nat.lt_succ_of_lt hj, hav, hwadj⟩

/-- A duplicate-free list of vertex identities below the arena size has
at most arena-size many elements. -/
theorem nodup_bounded_length (l : List Vid) (n : Nat) (hd : l.Nodup)
    (hb : ∀ v ∈ l, v < n) : l.length ≤ n := by
  classical
  calc l.length = l.toFinset.card := (List.toFinset_card_of_nodup hd).symm
    _ ≤ (Finset.range n).card := by
        apply Finset.card_le_card
        intro v hv
        simp only [List.mem_toFinset] at hv
        simpa using hb v hv
    _ = n := Finset.card_range n

end GS

namespace GS

/-- A successful `mapM` produces one output per input. -/
theorem mapM_ok_length {α β : Type} {f : α → Except PyErr β}
    {el : List α} {l : List β} (h : el.mapM f = .ok l) :
    l.length = el.length := by
  induction el generalizing l with
  | nil =>
    rw [List.mapM_nil] at h
    cases h
    rfl
  | cons e rest ih =>
    rw [List.mapM_cons] at h
    cases hfe : f e with
    | error err => rw [hfe] at h; cases h
    | ok b =>
      rw [hfe] at h
      cases hrest : rest.mapM f with
      | error err =>
        rw [hrest] at h
        cases h
      | ok bs =>
        rw [hrest] at h
        cases h
        simpa using ih hrest

/-- Pairing each `mapM` output with its input element: relates
`Vertex.neighbours` to `Vertex.incidences`. -/
theorem mapM_pair {α β : Type} {f : α → Except PyErr β}
    {el : List α} {l : List β} (h : el.mapM f = .ok l) :
    el.mapM (fun e => (f e).map (fun n => (n, e))) = .ok (l.zip el) := by
  induction el generalizing l with
  | nil =>
    rw [List.mapM_nil] at h
    cases h
    rw [List.mapM_nil]
    rfl
  | cons e rest ih =>
    rw [List.mapM_cons] at h
    cases hfe : f e with
    | error err => rw [hfe] at h; cases h
    | ok b =>
      rw [hfe] at h
      cases hrest : rest.mapM f with
      | error err => rw [hrest] at h; cases h
      | ok bs =>
        rw [hrest] at h
        cases h
        rw [List.mapM_cons, hfe]
        show (rest.mapM fun e => (f e).map fun n => (n, e)) >>= _ = _
        rw [ih hrest]
        rfl

/-- `find?` on a zipped pair list succeeds at any member of the first
component list, returning a pair whose second component is an input. -/
theorem find_zip_mem {l : List Vid} {el : List Eid} (p : Vid)
    (hlen : l.length = el.length) (hp : p ∈ l) :
    ∃ e, (l.zip el).find? (fun q => q.1 = p) = some (p, e) ∧ e ∈ el := by
  induction l generalizing el with
  | nil => cases hp
  | cons a l2 ih =>
    cases el with
    | nil => cases hlen
    | cons e el2 =>
      by_cases ha : a = p
      · subst ha
        exact ⟨e, by simp [List.zip, List.find?], List.mem_cons_self e el2⟩
      · have hp2 : p ∈ l2 := by
          rcases List.mem_cons.mp hp with h1 | h1
          · exact absurd h1.symm ha
          · exact h1
        obtain ⟨e2, hfind, hmem⟩ :=
          @ih el2 (by simpa using hlen) hp2
        refine ⟨e2, ?_, List.mem_cons_of_mem e hmem⟩
        simpa [List.zip, List.find?, ha] using hfind

/-- `edgeto` succeeds at any neighbour, returning one of the source
vertex's incident edges. -/
theorem edgeto_of_mem_nbrs {g : Graph} {x p : Vid}
    (htot : g.neighboursM x = .ok (nbrs g x)) (hp : p ∈ nbrs g x) :
    ∃ e, g.edgeto x p = .ok e ∧ e ∈ (g.vtx x).edgelist := by
  have hmap : (g.vtx x).edgelist.mapM (fun e => (g.edg e).next x) =
      .ok (nbrs g x) := htot
  have hinc := mapM_pair hmap
  have hlen : (nbrs g x).length = (g.vtx x).edgelist.length :=
    mapM_ok_length hmap
  obtain ⟨e, hfind, hmem⟩ := find_zip_mem p hlen hp
  refine ⟨e, ?_, hmem⟩
  unfold Graph.edgeto
  show (g.incidencesM x) >>= _ = _
  unfold Graph.incidencesM
  rw [hinc]
  show (match ((nbrs g x).zip (g.vtx x).edgelist).find?
      (fun q => q.1 = p) with
    | some q => (Except.ok q.2 : Except PyErr Eid)
    | none => Except.error (PyErr.valueError "dest is not a neighbour")) = _
  rw [hfind]

end GS

namespace GS

/-- Full specification of a BFS expansion that does not reach the goal:
the goal was absent from the neighbour list, the frontier grew by a
duplicate-free block of fresh neighbours, every neighbour is now queued
or explored, old parents survive, and exactly the fresh block received
`x` as parent. -/
theorem bfsExpand_false_spec (goal x : Vid) (expl : List Vid) :
    ∀ ns fr par fr2 par2,
      bfsExpand goal x expl ns fr par = (fr2, par2, false) →
      (∀ a ∈ ns, a ∉ fr → a ∉ expl → pdictGet par a = none) →
      goal ∉ ns ∧
      ∃ added,
        fr2 = fr ++ added ∧
        added.Nodup ∧
        (∀ a ∈ added, a ∈ ns ∧ a ∉ fr ∧ a ∉ expl) ∧
        (∀ n ∈ ns, n ∈ fr2 ∨ n ∈ expl) ∧
        (∀ k w, pdictGet par k = some w → pdictGet par2 k = some w) ∧
        (∀ a ∈ added, pdictGet par2 a = some x) ∧
        (∀ k, k ∉ added → pdictGet par2 k = pdictGet par k) := by
  intro ns
  induction ns with
  | nil =>
    intro fr par fr2 par2 h _
    cases h
    refine ⟨List.not_mem_nil _, [], by simp, List.nodup_nil, ?_, ?_, ?_, ?_, ?_⟩
    · intro a ha; cases ha
    · intro n hn; cases hn
    · intro k w hk; exact hk
    · intro a ha; cases ha
    · intro k _; rfl
  | cons n rest ih =>
    intro fr par fr2 par2 h hfresh
    rw [bfsExpand_cons] at h
    by_cases hn : n = goal
    · rw [if_pos hn] at h
      cases h
    · rw [if_neg hn] at h
      by_cases hnew : n ∉ fr ∧ n ∉ expl
      · rw [if_pos hnew] at h
        have hfresh2 : ∀ a ∈ rest, a ∉ fr ++ [n] → a ∉ expl →
            pdictGet (pdictSet par n x) a = none := by
          intro a ha hafr haex
          have hane : a ≠ n := by
            intro hc
            exact hafr (by simp [hc])
          rw [pdictGet_set_ne par n x a hane]
          exact hfresh a (List.mem_cons_of_mem n ha)
            (fun hc => hafr (List.mem_append_left _ hc)) haex
        obtain ⟨hg, added, hfr2, hnd, hmem, hcov, hext, hbind, hother⟩ :=
          ih (fr ++ [n]) (pdictSet par n x) fr2 par2 h hfresh2
        have hnadd : n ∉ added := by
          intro hc
          exact (hmem n hc).2.1 (List.mem_append_right fr (List.mem_singleton_self n))
        refine ⟨?_, n :: added, ?_, ?_, ?_, ?_, ?_, ?_, ?_⟩
        · intro hc
          rcases List.mem_cons.mp hc with h1 | h1
          · exact hn h1.symm
          · exact hg h1
        · rw [hfr2, List.append_assoc]; rfl
        · exact List.nodup_cons.mpr ⟨hnadd, hnd⟩
        · intro a ha
          rcases List.mem_cons.mp ha with h1 | h1
          · subst h1
            exact ⟨List.mem_cons_self a rest, hnew.1, hnew.2⟩
          · obtain ⟨h2, h3, h4⟩ := hmem a h1
            exact ⟨List.mem_cons_of_mem n h2,
              fun hc => h3 (List.mem_append_left _ hc), h4⟩
        · intro m hm
          rcases List.mem_cons.mp hm with h1 | h1
          · subst h1
            exact Or.inl (hfr2 ▸
              List.mem_append_left _ (List.mem_append_right fr (List.mem_singleton_self m)))
          · exact hcov m h1
        · intro k w hk
          have hkn : k ≠ n := by
            intro hc
            subst hc
            rw [hfresh k (List.mem_cons_self k rest) hnew.1 hnew.2] at hk
            cases hk
          exact hext k w (by rw [pdictGet_set_ne par n x k hkn]; exact hk)
        · intro a ha
          rcases List.mem_cons.mp ha with h1 | h1
          · subst h1
            rw [hother a hnadd, pdictGet_set_self]
          · exact hbind a h1
        · intro k hk
          have hkn : k ≠ n := fun hc => hk (hc ▸ List.mem_cons_self n added)
          have hka : k ∉ added := fun hc => hk (List.mem_cons_of_mem n hc)
          rw [hother k hka, pdictGet_set_ne par n x k hkn]
      · rw [if_neg hnew] at h
        obtain ⟨hg, added, hfr2, hnd, hmem, hcov, hext, hbind, hother⟩ :=
          ih fr par fr2 par2 h
            (fun a ha => hfresh a (List.mem_cons_of_mem n ha))
        refine ⟨?_, added, hfr2, hnd, ?_, ?_, hext, hbind, hother⟩
        · intro hc
          rcases List.mem_cons.mp hc with h1 | h1
          · exact hn h1.symm
          · exact hg h1
        · intro a ha
          obtain ⟨h2, h3, h4⟩ := hmem a ha
          exact ⟨List.mem_cons_of_mem n h2, h3, h4⟩
        · intro m hm
          rcases List.mem_cons.mp hm with h1 | h1
          · subst h1
            rcases not_and_or.mp hnew with h2 | h2
            · exact Or.inl (hfr2 ▸ List.mem_append_left _ (not_not.mp h2))
            · exact Or.inr (not_not.mp h2)
          · exact hcov m h1

/-- Specification of a BFS expansion that reaches the goal: the goal
was a listed neighbour, its recorded parent is `x`, and bindings of
other keys survive. -/
theorem bfsExpand_true_spec (goal x : Vid) (expl : List Vid) :
    ∀ ns fr par fr2 par2,
      bfsExpand goal x expl ns fr par = (fr2, par2, true) →
      (∀ a ∈ ns, a ∉ fr → a ∉ expl → pdictGet par a = none) →
      goal ∈ ns ∧
      pdictGet par2 goal = some x ∧
      (∀ k w, pdictGet par k = some w → k ≠ goal → pdictGet par2 k = some w) := by
  intro ns
  induction ns with
  | nil =>
    intro fr par fr2 par2 h _
    cases h
  | cons n rest ih =>
    intro fr par fr2 par2 h hfresh
    rw [bfsExpand_cons] at h
    by_cases hn : n = goal
    · rw [if_pos hn] at h
      subst hn
      cases h
      exact ⟨List.mem_cons_self n rest, pdictGet_set_self par n x,
        fun k w hk hkg => by rw [pdictGet_set_ne par n x k hkg]; exact hk⟩
    · rw [if_neg hn] at h
      by_cases hnew : n ∉ fr ∧ n ∉ expl
      · rw [if_pos hnew] at h
        have hfresh2 : ∀ a ∈ rest, a ∉ fr ++ [n] → a ∉ expl →
            pdictGet (pdictSet par n x) a = none := by
          intro a ha hafr haex
          have hane : a ≠ n := by
            intro hc
            exact hafr (by simp [hc])
          rw [pdictGet_set_ne par n x a hane]
          exact hfresh a (List.mem_cons_of_mem n ha)
            (fun hc => hafr (List.mem_append_left _ hc)) haex
        obtain ⟨hg, hbind, hext⟩ := ih (fr ++ [n]) (pdictSet par n x) fr2 par2 h hfresh2
        refine ⟨List.mem_cons_of_mem n hg, hbind, ?_⟩
        intro k w hk hkg
        have hkn : k ≠ n := by
          intro hc
          subst hc
          rw [hfresh k (List.mem_cons_self k rest) hnew.1 hnew.2] at hk
          cases hk
        exact hext k w (by rw [pdictGet_set_ne par n x k hkn]; exact hk) hkg
      · rw [if_neg hnew] at h
        obtain ⟨hg, hbind, hext⟩ := ih fr par fr2 par2 h
          (fun a ha => hfresh a (List.mem_cons_of_mem n ha))
        exact ⟨List.mem_cons_of_mem n hg, hbind, hext⟩

end GS

namespace GS

/-- Path reconstruction follows a parent chain: on a graph whose edges
all cost `c0`, a chain of `n` parent steps yields a path of `n`
vertices prepended to the accumulator, headed by the start, with the
accumulated cost grown by `n * c0`. -/
theorem reconBFS_chain {g : Graph} {par : List (Vid × Vid)} {S : Vid}
    {c0 : ℚ}
    (htot : ∀ u, g.neighboursM u = .ok (nbrs g u))
    (hsym : ∀ u v, v ∈ nbrs g u → u ∈ nbrs g v)
    (hcost : ∀ u e, e ∈ (g.vtx u).edgelist → (g.edg e).cost = some c0) :
    ∀ n v, ParChain g par S v n → ∀ fuel path len, n < fuel →
      ∃ out, reconBFS g S par fuel v (v :: path) len =
          .ok (out, len + n * c0) ∧
        out.length = n + 1 + path.length ∧
        out.head? = some S ∧
        out.getLast? = (v :: path).getLast? := by
  intro n v hchain
  induction hchain with
  | nil =>
    intro fuel path len hfuel
    cases fuel with
    | zero => cases hfuel
    | succ f =>
      refine ⟨S :: path, ?_, by simp [Nat.add_comm], rfl, rfl⟩
      show reconBFS g S par (f + 1) S (S :: path) len = _
      unfold reconBFS
      rw [if_pos rfl]
      norm_num
  | @cons v2 p n2 hvS hpar hadj hrest ih =>
    intro fuel path len hfuel
    cases fuel with
    | zero => cases hfuel
    | succ f =>
      obtain ⟨e, hedge, hmem⟩ :=
        edgeto_of_mem_nbrs (htot v2) (hsym p v2 hadj)
      obtain ⟨out, hrec, hlen, hhead, hlast⟩ :=
        ih f (v2 :: path) (len + c0) (Nat.lt_of_succ_lt_succ hfuel)
      refine ⟨out, ?_, ?_, hhead, ?_⟩
      · show reconBFS g S par (f + 1) v2 (v2 :: path) len = _
        unfold reconBFS
        rw [if_neg hvS, hpar]
        dsimp only
        rw [hedge]
        dsimp only
        rw [hcost v2 e hmem]
        dsimp only [addCost]
        rw [hrec]
        have : len + c0 + n2 * c0 = len + (n2 + 1) * c0 := by ring
        rw [this]
        norm_cast
      · rw [hlen]
        simp
        ring
      · rw [hlast]
        rfl

end GS

namespace GS

/-- In a layer-sorted list the head carries the smallest layer. -/
theorem chain_head_le {lv : Vid → Nat} :
    ∀ (rest : List Vid) (x : Vid),
      (x :: rest).Chain' (fun a b => lv a ≤ lv b) →
      ∀ b ∈ x :: rest, lv x ≤ lv b := by
  intro rest
  induction rest with
  | nil =>
    intro x _ b hb
    rcases List.mem_cons.mp hb with h1 | h1
    · exact h1 ▸ Nat.le_refl _
    · cases h1
  | cons z l3 ih =>
    intro x hch b hb
    rcases List.mem_cons.mp hb with h1 | h1
    · exact h1 ▸ Nat.le_refl _
    · have hyz : lv x ≤ lv z := (List.chain'_cons.mp hch).1
      have hch2 : (z :: l3).Chain' (fun a b => lv a ≤ lv b) :=
        (List.chain'_cons.mp hch).2
      exact Nat.le_trans hyz (ih z hch2 b h1)

/-- A constant-layer list is layer-sorted. -/
theorem chain_const {lv : Vid → Nat} {c : Nat} :
    ∀ l : List Vid, (∀ a ∈ l, lv a = c) →
      l.Chain' (fun a b => lv a ≤ lv b) := by
  intro l
  induction l with
  | nil => intro _; exact List.chain'_nil
  | cons y l2 ih =>
    intro hc
    rw [List.chain'_cons']
    refine ⟨?_, ih (fun a ha => hc a (List.mem_cons_of_mem y ha))⟩
    intro z hz
    have h1 : lv y = c := hc y (List.mem_cons_self y l2)
    have h2 : lv z = c := hc z (List.mem_cons_of_mem y (List.mem_of_mem_head? hz))
    rw [h1, h2]

/-- With an exhausted frontier the explored set is closed under
goal-avoiding walks. -/
theorem avoid_mem_explored_of_closed {g : Graph} {G S : Vid}
    {ex : List Vid} (hS : S ∈ ex)
    (hcl : ∀ x ∈ ex, ∀ n ∈ nbrs g x, n = G ∨ n ∈ ex) :
    ∀ u j, AvoidWalk g G S u j → u ∈ ex := by
  intro u j h
  induction h with
  | nil _ => exact hS
  | cons hw hadj hne ih =>
    rcases hcl _ ih _ hadj with h1 | h1
    · exact absurd h1 hne
    · exact h1

/-- Vertices whose goal-avoiding distance is below the layer of the
frontier head are already explored. -/
theorem avoid_mem_explored_of_lt {g : Graph} {S G : Vid} {st : BfsSt}
    {lv : Vid → Nat} {x : Vid} {rest : List Vid}
    (hinv : BfsInv g S G st lv) (hfr : st.frontier = x :: rest) :
    ∀ u j, AvoidWalk g G S u j → j < lv x → u ∈ st.explored := by
  intro u j h
  induction h with
  | nil hne =>
    intro hlt
    rcases List.mem_append.mp hinv.startSeen with h1 | h1
    · exact h1
    · exfalso
      have hmin : lv S ≤ 0 :=
        hinv.minimal S (List.mem_append_right _ h1) 0 (.nil hne)
      have hhead : lv x ≤ lv S := by
        refine chain_head_le rest x (hfr ▸ hinv.sorted) S ?_
        rw [hfr] at h1
        exact h1
      omega
  | @cons u2 v2 j2 hw hadj hne ih =>
    intro hlt
    have hu2 : u2 ∈ st.explored := ih (Nat.lt_of_succ_lt hlt)
    rcases hinv.closed u2 hu2 v2 hadj with h1 | h1
    · exact absurd h1 hne
    · rcases List.mem_append.mp h1 with h2 | h2
      · exact h2
      · exfalso
        have hmin : lv v2 ≤ j2 + 1 :=
          hinv.minimal v2 (List.mem_append_right _ h2) (j2 + 1)
            (.cons hw hadj hne)
        have hhead : lv x ≤ lv v2 := by
          refine chain_head_le rest x (hfr ▸ hinv.sorted) v2 ?_
          rw [hfr] at h2
          exact h2
        omega

end GS

namespace GS

/-- Layer-sortedness only inspects the layers of the list members. -/
theorem chain_of_eq_on {lv lv2 : Vid → Nat} :
    ∀ l : List Vid, (∀ a ∈ l, lv2 a = lv a) →
      l.Chain' (fun a b => lv a ≤ lv b) →
      l.Chain' (fun a b => lv2 a ≤ lv2 b) := by
  intro l
  induction l with
  | nil => intro _ _; exact List.chain'_nil
  | cons y l2 ih =>
    intro heq hch
    rw [List.chain'_cons']
    rw [List.chain'_cons'] at hch
    refine ⟨?_, ih (fun a ha => heq a (List.mem_cons_of_mem y ha)) hch.2⟩
    intro z hz
    rw [heq y (List.mem_cons_self y l2),
      heq z (List.mem_cons_of_mem y (List.mem_of_mem_head? hz))]
    exact hch.1 z hz

/-- One non-final iteration of the BFS loop preserves the invariant:
popping the head `x` and expanding its neighbours yields a state that
again satisfies `BfsInv`, for the layer map sending the fresh block to
the next layer. -/
theorem bfsInv_step {g : Graph} {S G : Vid} (wf : BfsWF g) {st : BfsSt}
    {lv : Vid → Nat} {x : Vid} {rest : List Vid} {fr2 : List Vid}
    {par2 : List (Vid × Vid)}
    (hinv : BfsInv g S G st lv) (hfr : st.frontier = x :: rest)
    (hexp : bfsExpand G x st.explored (nbrs g x) rest st.parent =
      (fr2, par2, false)) :
    ∃ lv2, BfsInv g S G ⟨fr2, st.explored ++ [x], par2⟩ lv2 := by
  classical
  have hxseen : x ∈ st.explored ++ st.frontier := by
    rw [hfr]; exact List.mem_append_right _ (List.mem_cons_self x rest)
  have hfresh : ∀ a ∈ nbrs g x, a ∉ rest → a ∉ st.explored →
      pdictGet st.parent a = none := by
    intro a ha harest haex
    cases hpa : pdictGet st.parent a with
    | none => rfl
    | some w =>
      exfalso
      have hdom := hinv.parDom a (by rw [hpa]; rfl)
      rw [hfr] at hdom
      rcases List.mem_append.mp hdom with h1 | h1
      · exact haex h1
      · rcases List.mem_cons.mp h1 with h2 | h2
        · exact wf.irrefl x (h2 ▸ ha)
        · exact harest h2
  obtain ⟨hg, added, hfr2, hnd, hmem, hcov, hext, hbind, hother⟩ :=
    bfsExpand_false_spec G x st.explored (nbrs g x) rest st.parent
      fr2 par2 hexp hfresh
  have haddx : ∀ a ∈ added, a ≠ x :=
    fun a ha hc => wf.irrefl x (hc ▸ (hmem a ha).1)
  have haddG : ∀ a ∈ added, a ≠ G :=
    fun a ha hc => hg (hc ▸ (hmem a ha).1)
  have haddseen : ∀ a ∈ added, a ∉ st.explored ++ st.frontier := by
    intro a ha hc
    rw [hfr] at hc
    rcases List.mem_append.mp hc with h1 | h1
    · exact (hmem a ha).2.2 h1
    · rcases List.mem_cons.mp h1 with h2 | h2
      · exact haddx a ha h2
      · exact (hmem a ha).2.1 h2
  have hseenadd : ∀ v ∈ st.explored ++ st.frontier, v ∉ added :=
    fun v hv hc => haddseen v hc hv
  refine ⟨fun v => if v ∈ added then lv x + 1 else lv v, ?_⟩
  set lv2 := fun v => if v ∈ added then lv x + 1 else lv v with hlv2
  have hlv2old : ∀ v ∈ st.explored ++ st.frontier, lv2 v = lv v := by
    intro v hv
    simp only [hlv2]
    rw [if_neg (hseenadd v hv)]
  have hlv2add : ∀ a ∈ added, lv2 a = lv x + 1 := by
    intro a ha
    simp only [hlv2]
    rw [if_pos ha]
  have hmemL2 : ∀ v, v ∈ st.explored ++ [x] ++ fr2 ↔
      v ∈ st.explored ++ st.frontier ∨ v ∈ added := by
    intro v
    rw [hfr2, hfr]
    simp only [List.mem_append, List.mem_cons, List.mem_singleton,
      List.not_mem_nil, or_false]
    tauto
  have hchain2 : ∀ v ∈ st.explored ++ st.frontier,
      ParChain g par2 S v (lv v) :=
    fun v hv => (hinv.chain v hv).extend hext
  have hheadmin : ∀ b ∈ st.frontier, lv x ≤ lv b := by
    intro b hb
    rw [hfr] at hb
    exact chain_head_le rest x (hfr ▸ hinv.sorted) b hb
  have hnd0 := hinv.nodup
  rw [hfr] at hnd0
  have hparts := List.nodup_append.mp hnd0
  have hxrest : x ∉ rest := (List.nodup_cons.mp hparts.2.1).1
  have hrestnd : rest.Nodup := (List.nodup_cons.mp hparts.2.1).2
  have hexdisj : ∀ v ∈ st.explored, v ∉ x :: rest := by
    intro v hv
    exact List.disjoint_left.mp hparts.2.2 hv
  refine ⟨?_, ?_, ?_, ?_, ?_, ?_, ?_, ?_, ?_, ?_, ?_, ?_, ?_⟩
  · -- startSeen
    exact (hmemL2 S).mpr (Or.inl hinv.startSeen)
  · -- nodup
    show (st.explored ++ [x] ++ fr2).Nodup
    rw [hfr2]
    apply List.nodup_append.mpr
    refine ⟨?_, ?_, ?_⟩
    · apply List.nodup_append.mpr
      refine ⟨hparts.1, List.nodup_singleton x, ?_⟩
      intro v hv
      simp only [List.mem_singleton]
      intro hc
      exact hexdisj v hv (hc ▸ List.mem_cons_self x rest)
    · apply List.nodup_append.mpr
      refine ⟨hrestnd, hnd, ?_⟩
      intro v hv hc
      exact (hmem v hc).2.1 hv
    · intro v hv
      rcases List.mem_append.mp hv with h1 | h1
      · intro hc
        rcases List.mem_append.mp hc with h2 | h2
        · exact hexdisj v h1 (List.mem_cons_of_mem x h2)
        · exact (hmem v h2).2.2 h1
      · rw [List.mem_singleton] at h1
        subst h1
        intro hc
        rcases List.mem_append.mp hc with h2 | h2
        · exact hxrest h2
        · exact haddx v h2 rfl
  · -- bound
    intro v hv
    rcases (hmemL2 v).mp hv with h1 | h1
    · exact hinv.bound v h1
    · exact wf.bounded x v (hmem v h1).1
  · -- goalSeen
    intro hc
    rcases (hmemL2 G).mp hc with h1 | h1
    · exact hinv.goalSeen h1
    · exact haddG G h1 rfl
  · -- goalPar
    show pdictGet par2 G = none
    rw [hother G (fun hc => haddG G hc rfl)]
    exact hinv.goalPar
  · -- parDom
    intro k hk
    by_cases hka : k ∈ added
    · exact (hmemL2 k).mpr (Or.inr hka)
    · rw [hother k hka] at hk
      exact (hmemL2 k).mpr (Or.inl (hinv.parDom k hk))
  · -- expNoGoal
    intro y hy
    rcases List.mem_append.mp hy with h1 | h1
    · exact hinv.expNoGoal y h1
    · rw [List.mem_singleton] at h1
      exact h1 ▸ hg
  · -- closed
    intro y hy n hn
    rcases List.mem_append.mp hy with h1 | h1
    · rcases hinv.closed y h1 n hn with h2 | h2
      · exact Or.inl h2
      · exact Or.inr ((hmemL2 n).mpr (Or.inl h2))
    · rw [List.mem_singleton] at h1
      subst h1
      rcases hcov n hn with h2 | h2
      · exact Or.inr (List.mem_append_right _ h2)
      · exact Or.inr (List.mem_append_left _ (List.mem_append_left _ h2))
  · -- chain
    intro v hv
    rcases (hmemL2 v).mp hv with h1 | h1
    · rw [hlv2old v h1]
      exact hchain2 v h1
    · rw [hlv2add v h1]
      have hvS : v ≠ S := fun hc => haddseen v h1 (hc ▸ hinv.startSeen)
      exact .cons hvS (hbind v h1) (hmem v h1).1 (hchain2 x hxseen)
  · -- chainLen
    intro v hv
    show lv2 v ≤ (st.explored ++ [x]).length
    rw [List.length_append, List.length_singleton]
    rcases (hmemL2 v).mp hv with h1 | h1
    · rw [hlv2old v h1]
      exact Nat.le_succ_of_le (hinv.chainLen v h1)
    · rw [hlv2add v h1]
      exact Nat.succ_le_succ (hinv.chainLen x hxseen)
  · -- sorted
    show fr2.Chain' (fun a b => lv2 a ≤ lv2 b)
    rw [hfr2]
    apply List.chain'_append.mpr
    refine ⟨?_, ?_, ?_⟩
    · apply chain_of_eq_on rest
      · intro a ha
        exact hlv2old a (by rw [hfr]; exact List.mem_append_right _ (List.mem_cons_of_mem x ha))
      · exact (List.chain'_cons'.mp (hfr ▸ hinv.sorted)).2
    · exact chain_const added (fun a ha => hlv2add a ha)
    · intro a ha b hb
      have ha2 : a ∈ rest := List.mem_of_mem_getLast? ha
      have hb2 : b ∈ added := List.mem_of_mem_head? hb
      rw [hlv2old a (by rw [hfr]; exact List.mem_append_right _ (List.mem_cons_of_mem x ha2)),
        hlv2add b hb2]
      exact hinv.twoLevel x (by rw [hfr]; exact List.mem_cons_self x rest)
        a (by rw [hfr]; exact List.mem_cons_of_mem x ha2)
  · -- twoLevel
    intro a ha b hb
    show lv2 b ≤ lv2 a + 1
    rw [hfr2] at ha hb
    have hamem : a ∈ rest ∨ a ∈ added := List.mem_append.mp ha
    have hbmem : b ∈ rest ∨ b ∈ added := List.mem_append.mp hb
    have hfra : ∀ c, c ∈ rest → c ∈ st.frontier := by
      intro c hc; rw [hfr]; exact List.mem_cons_of_mem x hc
    have hxfr : x ∈ st.frontier := by
      rw [hfr]; exact List.mem_cons_self x rest
    rcases hbmem with hb1 | hb1
    · rw [hlv2old b (List.mem_append_right _ (hfra b hb1))]
      rcases hamem with ha1 | ha1
      · rw [hlv2old a (List.mem_append_right _ (hfra a ha1))]
        exact hinv.twoLevel a (hfra a ha1) b (hfra b hb1)
      · rw [hlv2add a ha1]
        have := hinv.twoLevel x hxfr b (hfra b hb1)
        omega
    · rw [hlv2add b hb1]
      rcases hamem with ha1 | ha1
      · rw [hlv2old a (List.mem_append_right _ (hfra a ha1))]
        have := hheadmin a (hfra a ha1)
        omega
      · rw [hlv2add a ha1]
        omega
  · -- minimal
    intro v hv j hav
    rcases (hmemL2 v).mp hv with h1 | h1
    · rw [hlv2old v h1]
      exact hinv.minimal v h1 j hav
    · rw [hlv2add v h1]
      cases hav with
      | nil hne =>
        exact absurd hinv.startSeen (haddseen S h1)
      | @cons u2 v2 j2 hw hadj hne =>
        by_cases hj : j2 < lv x
        · exfalso
          have hu2 : u2 ∈ st.explored :=
            avoid_mem_explored_of_lt hinv hfr u2 j2 hw hj
          rcases hinv.closed u2 hu2 v hadj with h2 | h2
          · exact hne h2
          · exact haddseen v h1 h2
        · omega

end GS

namespace GS

/-- Successor-fuel unfolding of the BFS loop. -/
theorem bfsLoop_succ (g : Graph) (goal : Vid) (f : Nat) (st : BfsSt) :
    bfsLoop g goal (f + 1) st =
      match st.frontier with
      | [] => .ok none
      | x :: rest =>
        match g.neighboursM x with
        | .error e => .error e
        | .ok ns =>
          match bfsExpand goal x st.explored ns rest st.parent with
          | (fr, par, true) => .ok (some ⟨fr, st.explored, par⟩)
          | (fr, par, false) =>
              bfsLoop g goal f ⟨fr, st.explored ++ [x], par⟩ := by
  rfl

/-- The BFS loop, started in an invariant state while the goal is
reachable, terminates with a final state whose parent map carries a
chain from the goal back to the start of minimal walk length. -/
theorem bfsLoop_reaches {g : Graph} {S G : Vid} (wf : BfsWF g)
    (hSG : S ≠ G) {k : Nat} (hreach : WalkLen g S G k) :
    ∀ fuel st lv, BfsInv g S G st lv →
      g.vertices.size + 1 ≤ fuel + st.explored.length →
      ∃ stF n, bfsLoop g G fuel st = .ok (some stF) ∧
        ParChain g stF.parent S G n ∧
        n ≤ g.vertices.size ∧
        ∀ m, WalkLen g S G m → n ≤ m := by
  intro fuel
  induction fuel with
  | zero =>
    intro st lv hinv hcount
    exfalso
    have hexnd : st.explored.Nodup := (List.nodup_append.mp hinv.nodup).1
    have hexb : ∀ v ∈ st.explored, v < g.vertices.size :=
      fun v hv => hinv.bound v (List.mem_append_left _ hv)
    have := nodup_bounded_length st.explored g.vertices.size hexnd hexb
    omega
  | succ f ihf =>
    intro st lv hinv hcount
    rcases hfr : st.frontier with _ | ⟨x, rest⟩
    · exfalso
      have hSex : S ∈ st.explored := by
        have := hinv.startSeen
        rw [hfr, List.append_nil] at this
        exact this
      have hcl : ∀ y ∈ st.explored, ∀ n ∈ nbrs g y, n = G ∨ n ∈ st.explored := by
        intro y hy n hn
        rcases hinv.closed y hy n hn with h1 | h1
        · exact Or.inl h1
        · rw [hfr, List.append_nil] at h1
          exact Or.inr h1
      obtain ⟨j, u, hj, hav, hadj⟩ :=
        walk_first_arrival hSG (wf.irrefl G) hreach
      have hu : u ∈ st.explored :=
        avoid_mem_explored_of_closed hSex hcl u j hav
      exact hinv.expNoGoal u hu hadj
    · have hxseen : x ∈ st.explored ++ st.frontier := by
        rw [hfr]; exact List.mem_append_right _ (List.mem_cons_self x rest)
      have hfresh : ∀ a ∈ nbrs g x, a ∉ rest → a ∉ st.explored →
          pdictGet st.parent a = none := by
        intro a ha harest haex
        cases hpa : pdictGet st.parent a with
        | none => rfl
        | some w =>
          exfalso
          have hdom := hinv.parDom a (by rw [hpa]; rfl)
          rw [hfr] at hdom
          rcases List.mem_append.mp hdom with h1 | h1
          · exact haex h1
          · rcases List.mem_cons.mp h1 with h2 | h2
            · exact wf.irrefl x (h2 ▸ ha)
            · exact harest h2
      have hloop : bfsLoop g G (f + 1) st =
          match bfsExpand G x st.explored (nbrs g x) rest st.parent with
          | (fr2, par2, true) => .ok (some ⟨fr2, st.explored, par2⟩)
          | (fr2, par2, false) =>
              bfsLoop g G f ⟨fr2, st.explored ++ [x], par2⟩ := by
        rw [bfsLoop_succ, hfr]
        dsimp only
        rw [wf.total x]
      rcases hexp : bfsExpand G x st.explored (nbrs g x) rest st.parent
        with ⟨fr2, par2, done⟩
      cases done
      · -- expansion did not reach the goal: recurse
        rw [hexp] at hloop
        obtain ⟨lv2, hinv2⟩ := bfsInv_step wf hinv hfr hexp
        obtain ⟨stF, n, hrun, hchain, hn, hmin⟩ :=
          ihf ⟨fr2, st.explored ++ [x], par2⟩ lv2 hinv2
            (by simp only [List.length_append, List.length_singleton]; omega)
        exact ⟨stF, n, hloop ▸ hrun, hchain, hn, hmin⟩
      · -- the goal appeared among the neighbours of x
        rw [hexp] at hloop
        obtain ⟨hgmem, hbindG, hextc⟩ :=
          bfsExpand_true_spec G x st.explored (nbrs g x) rest st.parent
            fr2 par2 hexp hfresh
        have hext : ∀ k2 w, pdictGet st.parent k2 = some w →
            pdictGet par2 k2 = some w := by
          intro k2 w hk2
          by_cases hkG : k2 = G
          · rw [hkG, hinv.goalPar] at hk2
            cases hk2
          · exact hextc k2 w hk2 hkG
        have hchainx : ParChain g par2 S x (lv x) :=
          (hinv.chain x hxseen).extend hext
        have hchainG : ParChain g par2 S G (lv x + 1) :=
          .cons (Ne.symm hSG) hbindG hgmem hchainx
        have hlvx : lv x ≤ st.explored.length := hinv.chainLen x hxseen
        have hexnd : st.explored.Nodup := (List.nodup_append.mp hinv.nodup).1
        have hxex : x ∉ st.explored := by
          intro hc
          have := (List.nodup_append.mp hinv.nodup).2.2
          exact List.disjoint_left.mp this hc
            (by rw [hfr]; exact List.mem_cons_self x rest)
        have hexlen : st.explored.length + 1 ≤ g.vertices.size := by
          have hnd2 : (st.explored ++ [x]).Nodup := by
            apply List.nodup_append.mpr
            refine ⟨hexnd, List.nodup_singleton x, ?_⟩
            intro v hv
            simp only [List.mem_singleton]
            intro hc
            exact hxex (hc ▸ hv)
          have hb2 : ∀ v ∈ st.explored ++ [x], v < g.vertices.size := by
            intro v hv
            rcases List.mem_append.mp hv with h1 | h1
            · exact hinv.bound v (List.mem_append_left _ h1)
            · rw [List.mem_singleton] at h1
              exact h1 ▸ hinv.bound x hxseen
          have := nodup_bounded_length (st.explored ++ [x]) g.vertices.size
            hnd2 hb2
          simpa using this
        refine ⟨⟨fr2, st.explored, par2⟩, lv x + 1, hloop, hchainG, ?_, ?_⟩
        · omega
        · intro m hm
          obtain ⟨j, u, hj, hav, hadj⟩ :=
            walk_first_arrival hSG (wf.irrefl G) hm
          by_cases hjx : j < lv x
          · exfalso
            have hu : u ∈ st.explored :=
              avoid_mem_explored_of_lt hinv hfr u j hav hjx
            exact hinv.expNoGoal u hu hadj
          · omega

end GS

namespace GS

/-- C3 (amended): on a graph whose adjacency is total, symmetric,
self-loop-free and in-bounds, with all edge costs equal, `path_BFS`
between distinct vertices joined by some walk succeeds and returns a
path realising the minimum possible number of edges. -/
theorem C3_bfs_minimal_edges (g : Graph) (S G : Vid) (c0 : ℚ)
    (wf : BfsWF g) (hS : S < g.vertices.size) (hSG : S ≠ G)
    (hcost : ∀ u, ∀ e ∈ (g.vtx u).edgelist, (g.edg e).cost = some c0)
    {k : Nat} (hreach : WalkLen g S G k) :
    ∃ p c, g.path_BFS (.inr S) (.inr G) = .ok (some (p, c)) ∧
      p.head? = some S ∧ p.getLast? = some G ∧
      (∃ n, WalkLen g S G n ∧ p.length = n + 1) ∧
      (∀ m, WalkLen g S G m → p.length ≤ m + 1) := by
  have hinv0 : BfsInv g S G ⟨[S], [], []⟩ (fun _ => 0) := by
    refine ⟨?_, ?_, ?_, ?_, ?_, ?_, ?_, ?_, ?_, ?_, ?_, ?_, ?_⟩
    · exact List.mem_append_right _ (List.mem_singleton_self S)
    · simp
    · intro v hv
      simp only [List.nil_append, List.mem_singleton] at hv
      exact hv ▸ hS
    · intro hc
      simp only [List.nil_append, List.mem_singleton] at hc
      exact hSG hc.symm
    · rfl
    · intro k2 hk2
      simp [pdictGet] at hk2
    · intro x hx; cases hx
    · intro x hx; cases hx
    · intro v hv
      simp only [List.nil_append, List.mem_singleton] at hv
      subst hv
      exact ParChain.nil
    · intro v _
      simp
    · simp
    · intro a _ b _
      omega
    · intro v _ j _
      exact Nat.zero_le j
  obtain ⟨stF, n, hrun, hchainG, hn, hmin⟩ :=
    bfsLoop_reaches wf hSG hreach (bfsFuel g) ⟨[S], [], []⟩ (fun _ => 0)
      hinv0 (by unfold bfsFuel; simp; omega)
  obtain ⟨out, hrec, hlen, hhead, hlast⟩ :=
    reconBFS_chain wf.total wf.sym hcost n G hchainG
      (g.vertices.size + 1) [] 0 (by omega)
  have hl2 : out.length = n + 1 := by simpa using hlen
  refine ⟨out, 0 + n * c0, ?_, hhead, by rw [hlast]; rfl,
    ⟨n, hchainG.toWalk, hl2⟩, ?_⟩
  · rw [path_BFS_of_loop, hrun]
    dsimp only
    rw [hrec]
  · intro m hm
    have := hmin m hm
    omega

end GS

namespace GS

/-- Reading a vertex beyond the arena yields the default vertex. -/
theorem vtx_out_of_range (g : Graph) (u : Vid)
    (h : g.vertices.size ≤ u) : g.vtx u = default := by
  unfold Graph.vtx Array.getD
  rw [dif_neg (by omega)]

/-- Out-of-arena vertices have no neighbours. -/
theorem neighboursM_out_of_range (g : Graph) (u : Vid)
    (h : g.vertices.size ≤ u) : g.neighboursM u = .ok [] := by
  unfold Graph.neighboursM
  rw [vtx_out_of_range g u h]
  rfl

/-- Out-of-arena vertices have an empty neighbour list. -/
theorem nbrs_out_of_range (g : Graph) (u : Vid)
    (h : g.vertices.size ≤ u) : nbrs g u = [] := by
  unfold nbrs
  rw [neighboursM_out_of_range g u h]

/-- `twoVertexGraph` satisfies the adjacency well-formedness used by
the BFS analysis. -/
theorem twoVertexGraph_wf : BfsWF twoVertexGraph := by
  have hsize : twoVertexGraph.vertices.size = 2 := by
    with_unfolding_all rfl
  have h0t : twoVertexGraph.neighboursM 0 = .ok [1] := by
    with_unfolding_all rfl
  have h1t : twoVertexGraph.neighboursM 1 = .ok [0] := by
    with_unfolding_all rfl
  have h0 : nbrs twoVertexGraph 0 = [1] := by unfold nbrs; rw [h0t]
  have h1 : nbrs twoVertexGraph 1 = [0] := by unfold nbrs; rw [h1t]
  have hbig : ∀ m : Nat, twoVertexGraph.neighboursM (m + 2) = .ok [] :=
    fun m => neighboursM_out_of_range _ _ (by rw [hsize]; omega)
  have hbign : ∀ m : Nat, nbrs twoVertexGraph (m + 2) = [] :=
    fun m => nbrs_out_of_range _ _ (by rw [hsize]; omega)
  refine ⟨?_, ?_, ?_, ?_⟩
  · intro u
    match u with
    | 0 => rw [h0t, h0]
    | 1 => rw [h1t, h1]
    | m + 2 => rw [hbig m, hbign m]
  · intro u v hv
    match u with
    | 0 =>
      rw [h0, List.mem_singleton] at hv
      subst hv
      rw [h1]
      exact List.mem_singleton_self 0
    | 1 =>
      rw [h1, List.mem_singleton] at hv
      subst hv
      rw [h0]
      exact List.mem_singleton_self 1
    | m + 2 =>
      rw [hbign m] at hv
      cases hv
  · intro u
    match u with
    | 0 => rw [h0]; simp
    | 1 => rw [h1]; simp
    | m + 2 => rw [hbign m]; simp
  · intro u v hv
    rw [hsize]
    match u with
    | 0 => rw [h0, List.mem_singleton] at hv; subst hv; decide
    | 1 => rw [h1, List.mem_singleton] at hv; subst hv; decide
    | m + 2 => rw [hbign m] at hv; cases hv

/-- Every edge of `twoVertexGraph` costs 1. -/
theorem twoVertexGraph_cost :
    ∀ u, ∀ e ∈ (twoVertexGraph.vtx u).edgelist,
      (twoVertexGraph.edg e).cost = some 1 := by
  intro u
  match u with
  | 0 =>
    rw [show (twoVertexGraph.vtx 0).edgelist = [0] from by
      with_unfolding_all rfl]
    intro e he
    rw [List.mem_singleton] at he
    subst he
    with_unfolding_all rfl
  | 1 =>
    rw [show (twoVertexGraph.vtx 1).edgelist = [0] from by
      with_unfolding_all rfl]
    intro e he
    rw [List.mem_singleton] at he
    subst he
    with_unfolding_all rfl
  | m + 2 =>
    rw [show (twoVertexGraph.vtx (m + 2)).edgelist = [] from by
      rw [vtx_out_of_range twoVertexGraph (m + 2) (by
        rw [show twoVertexGraph.vertices.size = 2 from by
          with_unfolding_all rfl]
        omega)]
      rfl]
    intro e he
    cases he

/-- The one-edge walk across `twoVertexGraph`. -/
theorem twoVertexGraph_walk : WalkLen twoVertexGraph 0 1 1 := by
  refine .cons .nil ?_
  rw [show nbrs twoVertexGraph 0 = [1] from by
    unfold nbrs
    rw [show twoVertexGraph.neighboursM 0 = .ok [1] from by
      with_unfolding_all rfl]]
  exact List.mem_singleton_self 1

end GS

namespace GS

/-- Every vertex of `twoIslandGraph` has an empty edge list. -/
theorem twoIslandGraph_edgeless :
    ∀ u, (twoIslandGraph.vtx u).edgelist = [] := by
  intro u
  match u with
  | 0 => with_unfolding_all rfl
  | 1 => with_unfolding_all rfl
  | m + 2 =>
    rw [vtx_out_of_range twoIslandGraph (m + 2) (by
      rw [show twoIslandGraph.vertices.size = 2 from by
        with_unfolding_all rfl]
      omega)]
    rfl

/-- `twoIslandGraph` has no neighbours anywhere. -/
theorem twoIslandGraph_nbrs :
    ∀ u, twoIslandGraph.neighboursM u = .ok [] ∧
      nbrs twoIslandGraph u = [] := by
  intro u
  have h1 : twoIslandGraph.neighboursM u = .ok [] := by
    unfold Graph.neighboursM
    rw [twoIslandGraph_edgeless u]
    rfl
  exact ⟨h1, by unfold nbrs; rw [h1]⟩

/-- The edgeless graph satisfies the adjacency well-formedness. -/
theorem twoIslandGraph_wf : BfsWF twoIslandGraph := by
  refine ⟨?_, ?_, ?_, ?_⟩
  · intro u
    rw [(twoIslandGraph_nbrs u).1, (twoIslandGraph_nbrs u).2]
  · intro u v hv
    rw [(twoIslandGraph_nbrs u).2] at hv
    cases hv
  · intro u hv
    rw [(twoIslandGraph_nbrs u).2] at hv
    cases hv
  · intro u v hv
    rw [(twoIslandGraph_nbrs u).2] at hv
    cases hv

/-- C3 counterexample: on the edgeless two-vertex graph every edge cost
is (vacuously) equal and the adjacency is well-formed; the length-0
walk joins vertex 0 to itself, so a path between them exists, yet
`path_BFS(0, 0)` returns `None` instead of a minimal path. -/
theorem C3_counterexample_start_goal :
    BfsWF twoIslandGraph ∧
    (∀ u, ∀ e ∈ (twoIslandGraph.vtx u).edgelist,
      (twoIslandGraph.edg e).cost = some 1) ∧
    WalkLen twoIslandGraph 0 0 0 ∧
    twoIslandGraph.path_BFS (.inr 0) (.inr 0) = .ok none := by
  refine ⟨twoIslandGraph_wf, ?_, .nil, by with_unfolding_all rfl⟩
  intro u e he
  rw [twoIslandGraph_edgeless u] at he
  cases he

/-- C3 witness: the amended minimality theorem instantiated on the
one-edge graph `A-B`; BFS from `A` to `B` returns a path of minimal
edge count. -/
theorem C3_witness :
    ∃ p c, twoVertexGraph.path_BFS (.inr 0) (.inr 1) = .ok (some (p, c)) ∧
      p.head? = some 0 ∧ p.getLast? = some 1 ∧
      (∃ n, WalkLen twoVertexGraph 0 1 n ∧ p.length = n + 1) ∧
      (∀ m, WalkLen twoVertexGraph 0 1 m → p.length ≤ m + 1) :=
  C3_bfs_minimal_edges twoVertexGraph 0 1 1 twoVertexGraph_wf
    (by rw [show twoVertexGraph.vertices.size = 2 from by
      with_unfolding_all rfl]; decide)
    (by decide) twoVertexGraph_cost twoVertexGraph_walk

end GS

namespace GS

/-- In-place update branch of `qdictSet`: the key is found. -/
theorem qdictGet_map_self (d : List (Vid × ℚ)) (k : Vid) (v : ℚ)
    (h : (d.any fun p => p.1 = k) = true) :
    qdictGet (d.map (fun p => if p.1 = k then (k, v) else p)) k = some v := by
  induction d with
  | nil => simp at h
  | cons p rest ih =>
    by_cases hp : p.1 = k
    · simp [qdictGet, List.find?, hp]
    · simp only [List.any_cons, Bool.or_eq_true, decide_eq_true_eq] at h
      rcases h with h | h
      · exact absurd h hp
      · simpa [qdictGet, List.find?, hp] using ih h

/-- Append branch of `qdictSet`: the key is fresh. -/
theorem qdictGet_append_self (d : List (Vid × ℚ)) (k : Vid) (v : ℚ)
    (h : (d.any fun p => p.1 = k) = false) :
    qdictGet (d ++ [(k, v)]) k = some v := by
  induction d with
  | nil => simp [qdictGet, List.find?]
  | cons p rest ih =>
    simp only [List.any_cons, Bool.or_eq_false_iff,
      decide_eq_false_iff_not] at h
    have := ih (by simp [h.2])
    simpa [qdictGet, List.find?, h.1] using this

/-- Setting a cost keeps it retrievable. -/
theorem qdictGet_set_self (d : List (Vid × ℚ)) (k : Vid) (v : ℚ) :
    qdictGet (qdictSet d k v) k = some v := by
  unfold qdictSet
  by_cases h : (d.any fun p => p.1 = k) = true
  · rw [if_pos h]; exact qdictGet_map_self d k v h
  · rw [if_neg h]
    exact qdictGet_append_self d k v (Bool.not_eq_true _ ▸ h)

/-- The in-place update branch leaves other keys unchanged. -/
theorem qdictGet_map_ne (d : List (Vid × ℚ)) (k : Vid) (v : ℚ)
    (k2 : Vid) (h : k2 ≠ k) :
    qdictGet (d.map (fun p => if p.1 = k then (k, v) else p)) k2 =
      qdictGet d k2 := by
  induction d with
  | nil => rfl
  | cons p rest ih =>
    by_cases hp : p.1 = k
    · have h1 : ¬ (k : Vid) = k2 := fun hc => h hc.symm
      have h2 : ¬ p.1 = k2 := fun hc => h1 (hp ▸ hc)
      simp only [List.map_cons, qdictGet, List.find?, hp, if_true]
      simp only [decide_eq_false h1, decide_eq_false h2]
      simpa [qdictGet] using ih
    · by_cases hq : p.1 = k2
      · simp only [List.map_cons]
        rw [if_neg hp]
        simp [qdictGet, List.find?, hq]
      · simp only [List.map_cons, qdictGet, List.find?, if_neg hp,
          decide_eq_false hq]
        simpa [qdictGet] using ih

/-- The append branch leaves other keys unchanged. -/
theorem qdictGet_append_ne (d : List (Vid × ℚ)) (k : Vid) (v : ℚ)
    (k2 : Vid) (h : k2 ≠ k) :
    qdictGet (d ++ [(k, v)]) k2 = qdictGet d k2 := by
  induction d with
  | nil =>
    have h1 : ¬ (k : Vid) = k2 := fun hc => h hc.symm
    simp [qdictGet, List.find?, h1]
  | cons p rest ih =>
    by_cases hq : p.1 = k2
    · simp [qdictGet, List.find?, hq]
    · simp only [List.cons_append, qdictGet, List.find?,
        decide_eq_false hq]
      simpa [qdictGet] using ih

/-- Setting a cost leaves other keys unchanged. -/
theorem qdictGet_set_ne (d : List (Vid × ℚ)) (k : Vid) (v : ℚ)
    (k2 : Vid) (h : k2 ≠ k) :
    qdictGet (qdictSet d k v) k2 = qdictGet d k2 := by
  unfold qdictSet
  by_cases hh : (d.any fun p => p.1 = k) = true
  · rw [if_pos hh]; exact qdictGet_map_ne d k v k2 h
  · rw [if_neg hh]; exact qdictGet_append_ne d k v k2 h

/-- Updating a key preserves definedness of every key. -/
theorem qdictGet_set_isSome (d : List (Vid × ℚ)) (k : Vid) (v : ℚ)
    (k2 : Vid) (h : (qdictGet d k2).isSome = true) :
    (qdictGet (qdictSet d k v) k2).isSome = true := by
  by_cases hk : k2 = k
  · subst hk
    rw [qdictGet_set_self]
    rfl
  · rw [qdictGet_set_ne d k v k2 hk]
    exact h

/-- Cost-weighted walks have non-negative cost when every edge does. -/
theorem CostWalk.nonneg {g : Graph} {c : Vid → Vid → ℚ} {S v : Vid}
    {w : ℚ} (hc : ∀ u v, 0 ≤ c u v) (h : CostWalk g c S v w) : 0 ≤ w := by
  induction h with
  | nil => exact le_refl 0
  | @cons u v2 w2 _ _ ih =>
    have := hc u v2
    linarith

/-- Walk concatenation: a walk to `y` continues along a walk starting
at `y`. -/
theorem CostWalk.trans {g : Graph} {c : Vid → Vid → ℚ} {S y v : Vid}
    {w1 w2 : ℚ} (h1 : CostWalk g c S y w1) (h2 : CostWalk g c y v w2) :
    CostWalk g c S v (w1 + w2) := by
  induction h2 with
  | nil => simpa using h1
  | @cons u v2 w3 _ hadj ih =>
    have := CostWalk.cons ih hadj
    rw [add_assoc] at this
    exact this

/-- Boundary decomposition of a walk ending outside the settled set:
either the start itself is unsettled, or the walk crosses the boundary
at a settled vertex `u` followed by an unsettled neighbour `y`, and the
remaining segment is a walk from `y`. -/
theorem costWalk_boundary {g : Graph} {c : Vid → Vid → ℚ} {S x : Vid}
    {w : ℚ} (ex : List Vid) (h : CostWalk g c S x w) (hx : x ∉ ex) :
    (S ∉ ex ∧ ∃ w2, w = w2 ∧ CostWalk g c S x w2) ∨
    (∃ u y w0 w2, u ∈ ex ∧ y ∈ nbrs g u ∧ y ∉ ex ∧
      CostWalk g c S u w0 ∧ CostWalk g c y x w2 ∧
      w = w0 + c u y + w2) := by
  induction h with
  | nil => exact Or.inl ⟨hx, 0, rfl, .nil⟩
  | @cons u v2 w2 hw hadj ih =>
    by_cases hu : u ∈ ex
    · exact Or.inr ⟨u, v2, w2, 0, hu, hadj, hx, hw, .nil, by ring⟩
    · rcases ih hu with ⟨hS, w3, hw3, hwalk⟩ | ⟨u2, y, w0, w3, hu2, hyadj, hy, hw0, hseg, hsum⟩
      · exact Or.inl ⟨hS, w3 + c u v2, by rw [hw3], .cons hwalk hadj⟩
      · exact Or.inr ⟨u2, y, w0, w3 + c u v2, hu2, hyadj, hy, hw0,
          .cons hseg hadj, by rw [hsum]; ring⟩

/-- Telescoping a consistent heuristic along a walk. -/
theorem heuristic_telescope {g : Graph} {c : Vid → Vid → ℚ}
    {hf : Vid → ℚ} {y x : Vid} {w : ℚ}
    (hcons : ∀ u v, v ∈ nbrs g u → hf u ≤ c u v + hf v)
    (h : CostWalk g c y x w) : hf y ≤ w + hf x := by
  induction h with
  | nil => simp
  | @cons u v2 w2 _ hadj ih =>
    have := hcons u v2 hadj
    linarith

/-- A cost chain survives a step in which the settled set grows and the
parent and cost entries of its own head and of every settled vertex are
unchanged. -/
theorem CostChain.preserve {g : Graph} {c : Vid → Vid → ℚ}
    {par par2 : List (Vid × Vid)} {f f2 : List (Vid × ℚ)} {S : Vid}
    {ex ex2 : List Vid} {v : Vid} {n : Nat}
    (hsub : ∀ u ∈ ex, u ∈ ex2)
    (hex : ∀ u ∈ ex, qdictGet f2 u = qdictGet f u ∧
      pdictGet par2 u = pdictGet par u)
    (hv : qdictGet f2 v = qdictGet f v ∧
      pdictGet par2 v = pdictGet par v)
    (h : CostChain g c par f S ex v n) :
    CostChain g c par2 f2 S ex2 v n := by
  induction h with
  | nil => exact .nil
  | @cons v2 p n2 qv qp hvS hpar hadj hqv hqp hsum hp hrest ih =>
    exact .cons hvS (hv.2 ▸ hpar) hadj (hv.1 ▸ hqv)
      (((hex p hp).1) ▸ hqp) hsum (hsub p hp) (ih (hex p hp))

end GS

namespace GS

/-- Behaviour of `np.argmin`'s scanning loop: it returns either the
incumbent index with the incumbent value minimal, or the offset of a
minimal element of the remaining list. -/
theorem listArgmin_go_spec : ∀ (xs : List ℚ) (bv : ℚ) (best i : Nat),
    (listArgmin.go xs bv best i = best ∧ ∀ y ∈ xs, bv ≤ y) ∨
    (∃ j, ∃ h : j < xs.length, listArgmin.go xs bv best i = i + j ∧
      xs.get ⟨j, h⟩ ≤ bv ∧ ∀ y ∈ xs, xs.get ⟨j, h⟩ ≤ y) := by
  intro xs
  induction xs with
  | nil =>
    intro bv best i
    exact Or.inl ⟨rfl, fun y hy => absurd hy (List.not_mem_nil y)⟩
  | cons y ys ih =>
    intro bv best i
    show (listArgmin.go (y :: ys) bv best i = best ∧ _) ∨ _
    unfold listArgmin.go
    by_cases hy : y < bv
    · rw [if_pos hy]
      rcases ih y i (i + 1) with ⟨hr, hmin⟩ | ⟨j, hj, hr, hle, hmin⟩
      · refine Or.inr ⟨0, by simp, by simpa using hr, ?_, ?_⟩
        · show y ≤ bv
          exact le_of_lt hy
        · intro z hz
          show y ≤ z
          rcases List.mem_cons.mp hz with h1 | h1
          · rw [h1]
          · exact hmin z h1
      · refine Or.inr ⟨j + 1, by simpa using Nat.succ_lt_succ hj,
          by rw [hr]; omega, ?_, ?_⟩
        · show ys.get ⟨j, hj⟩ ≤ bv
          exact le_trans hle (le_of_lt hy)
        · intro z hz
          show ys.get ⟨j, hj⟩ ≤ z
          rcases List.mem_cons.mp hz with h1 | h1
          · rw [h1]; exact hle
          · exact hmin z h1
    · rw [if_neg hy]
      push_neg at hy
      rcases ih bv best (i + 1) with ⟨hr, hmin⟩ | ⟨j, hj, hr, hle, hmin⟩
      · refine Or.inl ⟨hr, ?_⟩
        intro z hz
        rcases List.mem_cons.mp hz with h1 | h1
        · rw [h1]; exact hy
        · exact hmin z h1
      · refine Or.inr ⟨j + 1, by simpa using Nat.succ_lt_succ hj,
          by rw [hr]; omega, ?_, ?_⟩
        · show ys.get ⟨j, hj⟩ ≤ bv
          exact hle
        · intro z hz
          show ys.get ⟨j, hj⟩ ≤ z
          rcases List.mem_cons.mp hz with h1 | h1
          · rw [h1]; exact le_trans hle hy
          · exact hmin z h1

/-- `np.argmin` on a non-empty list returns an in-range index pointing
at a minimal element. -/
theorem listArgmin_spec (a : ℚ) (l : List ℚ) :
    listArgmin (a :: l) < (a :: l).length ∧
    ∀ y ∈ a :: l, (a :: l).getD (listArgmin (a :: l)) 0 ≤ y := by
  rcases listArgmin_go_spec l a 0 1 with ⟨hr, hmin⟩ | ⟨j, hj, hr, hle, hmin⟩
  · have hval : listArgmin (a :: l) = 0 := hr
    rw [hval]
    refine ⟨by simp, ?_⟩
    intro z hz
    show a ≤ z
    rcases List.mem_cons.mp hz with h1 | h1
    · rw [h1]
    · exact hmin z h1
  · have hval : listArgmin (a :: l) = 1 + j := hr
    rw [hval]
    have hget : (a :: l).getD (1 + j) 0 = l.get ⟨j, hj⟩ := by
      rw [show 1 + j = j + 1 from by omega]
      simp only [List.getD_cons_succ]
      rw [List.getD_eq_getElem l 0 hj]
      simp
    constructor
    · simp only [List.length_cons]
      omega
    · intro z hz
      rw [hget]
      rcases List.mem_cons.mp hz with h1 | h1
      · rw [h1]; exact hle
      · exact hmin z h1

/-- Removing the element at an in-range index is a permutation with the
element put in front. -/
theorem perm_argpop {α : Type} : ∀ (l : List α) (i : Nat)
    (h : i < l.length), (l.get ⟨i, h⟩ :: l.eraseIdx i).Perm l := by
  intro l
  induction l with
  | nil => intro i h; cases h
  | cons y t ih =>
    intro i h
    cases i with
    | zero => exact List.Perm.refl _
    | succ i =>
      have h2 : i < t.length := Nat.lt_of_succ_lt_succ h
      show ((t.get ⟨i, h2⟩) :: y :: t.eraseIdx i).Perm (y :: t)
      have hsw : ((t.get ⟨i, h2⟩) :: y :: t.eraseIdx i).Perm
          (y :: t.get ⟨i, h2⟩ :: t.eraseIdx i) := List.Perm.swap _ _ _
      exact hsw.trans (List.Perm.cons y (ih i h2))

end GS

namespace GS

/-- Reading all keys of a total cost dict succeeds, producing the
mapped lookup values. -/
theorem mapM_qdictGetM (f : List (Vid × ℚ)) :
    ∀ l : List Vid, (∀ v ∈ l, (qdictGet f v).isSome = true) →
      l.mapM (qdictGetM f) =
        .ok (l.map (fun v => (qdictGet f v).getD 0)) := by
  intro l
  induction l with
  | nil => intro _; rfl
  | cons v rest ih =>
    intro htot
    rw [List.mapM_cons]
    obtain ⟨q, hq⟩ := Option.isSome_iff_exists.mp
      (htot v (List.mem_cons_self v rest))
    have h1 : qdictGetM f v = .ok q := by
      unfold qdictGetM
      rw [hq]
    rw [h1]
    show (rest.mapM (qdictGetM f)) >>= _ = _
    rw [ih (fun u hu => htot u (List.mem_cons_of_mem v hu))]
    show Except.ok _ = _
    rw [List.map_cons, hq]
    rfl

/-- `getD` through `map` at an in-range index. -/
theorem getD_map_lt (f : Vid → ℚ) : ∀ (l : List Vid) (i : Nat),
    i < l.length → (l.map f).getD i 0 = f (l.getD i 0) := by
  intro l i h
  rw [List.getD_eq_getElem (l.map f) 0 (by simpa using h),
    List.getD_eq_getElem l 0 h]
  simp

/-- `getD` at an in-range index is a member. -/
theorem getD_mem {α : Type} [Inhabited α] (l : List α) (i : Nat)
    (d : α) (h : i < l.length) : l.getD i d ∈ l := by
  rw [List.getD_eq_getElem l d h]
  exact List.getElem_mem h

/-- One step of the UCS neighbour loop. -/
theorem ucsExpand_cons (g : Graph) (x : Vid) (expl : List Vid)
    (n : Vid) (e : Eid) (rest : List (Vid × Eid)) (fr : List Vid)
    (par : List (Vid × Vid)) (f : List (Vid × ℚ)) :
    ucsExpand g x expl ((n, e) :: rest) fr par f = (do
      let fx ← qdictGetM f x
      let fnew ← addCost fx (g.edg e).cost
      if n ∉ fr ∧ n ∉ expl then
        ucsExpand g x expl rest (fr ++ [n]) (pdictSet par n x)
          (qdictSet f n fnew)
      else if n ∈ fr then do
        let fn ← qdictGetM f n
        if fnew < fn then
          ucsExpand g x expl rest fr (pdictSet par n x) (qdictSet f n fnew)
        else
          ucsExpand g x expl rest fr par f
      else
        ucsExpand g x expl rest fr par f) := rfl

/-- One step of the A* neighbour loop. -/
theorem astExpand_cons (g : Graph) (x goal : Vid) (expl : List Vid)
    (n : Vid) (e : Eid) (rest : List (Vid × Eid)) (fr : List Vid)
    (par : List (Vid × Vid)) (gd f : List (Vid × ℚ)) :
    astExpand g x goal expl ((n, e) :: rest) fr par gd f =
      (if n ∉ fr ∧ n ∉ expl then do
        let gx ← qdictGetM gd x
        let gn ← addCost gx (g.edg e).cost
        let h ← g.heuristic_distance n goal
        astExpand g x goal expl rest (fr ++ [n])
          (pdictSet par n x) (qdictSet gd n gn) (qdictSet f n (gn + h))
      else if n ∈ fr then do
        let gx ← qdictGetM gd x
        let gnew ← addCost gx (g.edg e).cost
        let gn ← qdictGetM gd n
        if gnew < gn then do
          let h ← g.heuristic_distance n goal
          astExpand g x goal expl rest fr (pdictSet par n x)
            (qdictSet gd n gnew) (qdictSet f n (gnew + h))
        else
          astExpand g x goal expl rest fr par gd f
      else
        astExpand g x goal expl rest fr par gd f) := rfl

end GS

namespace GS

/-- Bind reduction for `Except`. -/
theorem exbind_ok {ε α β : Type} (a : α) (f : α → Except ε β) :
    (Except.ok a >>= f : Except ε β) = f a := rfl

/-- Full specification of one UCS expansion over an incidence list
whose edge costs follow the cost function `c`: the expansion succeeds,
the frontier grows by a block of fresh neighbours, every listed
neighbour ends up queued or explored, every key is either untouched or
re-keyed to `x` with cost `f[x] + c x k`, stored costs never increase,
and every non-explored listed neighbour ends at or below
`f[x] + c x k`. -/
theorem ucsExpand_spec (g : Graph) (c : Vid → Vid → ℚ) (x : Vid)
    (expl : List Vid) :
    ∀ (inc : List (Vid × Eid)) (fr : List Vid) (par : List (Vid × Vid))
      (f : List (Vid × ℚ)) (qx : ℚ),
      qdictGet f x = some qx →
      (∀ pr ∈ inc, (g.edg pr.2).cost = some (c x pr.1)) →
      (∀ pr ∈ inc, pr.1 ≠ x) →
      (∀ k, (qdictGet f k).isSome = true → k ∈ fr ∨ k ∈ expl ∨ k = x) →
      (∀ v ∈ fr, (qdictGet f v).isSome = true) →
      (∀ v ∈ fr, v ∉ expl) →
      ∃ fr2 par2 f2 added,
        ucsExpand g x expl inc fr par f = .ok (fr2, par2, f2) ∧
        fr2 = fr ++ added ∧
        added.Nodup ∧
        (∀ a ∈ added, a ∉ fr ∧ a ∉ expl ∧ ∃ pr ∈ inc, pr.1 = a) ∧
        (∀ pr ∈ inc, pr.1 ∈ fr2 ∨ pr.1 ∈ expl) ∧
        (∀ k, (qdictGet f2 k = qdictGet f k ∧
            pdictGet par2 k = pdictGet par k) ∨
          (k ∉ expl ∧ k ≠ x ∧ (∃ pr ∈ inc, pr.1 = k) ∧
            pdictGet par2 k = some x ∧
            qdictGet f2 k = some (qx + c x k))) ∧
        (∀ k q, qdictGet f k = some q →
          ∃ q2, qdictGet f2 k = some q2 ∧ q2 ≤ q) ∧
        (∀ pr ∈ inc, pr.1 ∉ expl →
          ∃ q2, qdictGet f2 pr.1 = some q2 ∧ q2 ≤ qx + c x pr.1) := by
  intro inc
  induction inc with
  | nil =>
    intro fr par f qx hqx _ _ _ _ _
    refine ⟨fr, par, f, [], rfl, (List.append_nil fr).symm,
      List.nodup_nil, ?_, ?_, ?_, ?_, ?_⟩
    · intro a ha; cases ha
    · intro pr hpr; cases hpr
    · intro k; exact Or.inl ⟨rfl, rfl⟩
    · intro k q hk; exact ⟨q, hk, le_refl q⟩
    · intro pr hpr; cases hpr
  | cons pr0 rest ih =>
    obtain ⟨n, e⟩ := pr0
    intro fr par f qx hqx hassoc hne hdom htot hfrex
    have hcost_h : (g.edg e).cost = some (c x n) :=
      hassoc (n, e) (List.mem_cons_self _ _)
    have hne_h : n ≠ x := hne (n, e) (List.mem_cons_self _ _)
    have hgM : qdictGetM f x = .ok qx := by
      unfold qdictGetM; rw [hqx]
    rw [ucsExpand_cons, hgM]
    simp only [exbind_ok]
    rw [hcost_h]
    dsimp only [addCost]
    simp only [exbind_ok]
    by_cases hnew : n ∉ fr ∧ n ∉ expl
    · rw [if_pos hnew]
      have hqx2 : qdictGet (qdictSet f n (qx + c x n)) x = some qx := by
        rw [qdictGet_set_ne f n _ x (Ne.symm hne_h)]; exact hqx
      have hdom2 : ∀ k, (qdictGet (qdictSet f n (qx + c x n)) k).isSome = true →
          k ∈ fr ++ [n] ∨ k ∈ expl ∨ k = x := by
        intro k hk
        by_cases hkn : k = n
        · exact Or.inl (by rw [hkn]; exact List.mem_append_right _ (List.mem_singleton_self n))
        · rw [qdictGet_set_ne f n _ k hkn] at hk
          rcases hdom k hk with h1 | h1
          · exact Or.inl (List.mem_append_left _ h1)
          · exact Or.inr h1
      have htot2 : ∀ v ∈ fr ++ [n],
          (qdictGet (qdictSet f n (qx + c x n)) v).isSome = true := by
        intro v hv
        rcases List.mem_append.mp hv with h1 | h1
        · exact qdictGet_set_isSome f n _ v (htot v h1)
        · rw [List.mem_singleton] at h1
          rw [h1, qdictGet_set_self]
          rfl
      have hfrex2 : ∀ v ∈ fr ++ [n], v ∉ expl := by
        intro v hv
        rcases List.mem_append.mp hv with h1 | h1
        · exact hfrex v h1
        · rw [List.mem_singleton] at h1
          exact h1 ▸ hnew.2
      obtain ⟨fr2, par2, f2, added, heq, hfr2, hnd, hmem, hcov, htri, hdec, hub⟩ :=
        ih (fr ++ [n]) (pdictSet par n x) (qdictSet f n (qx + c x n)) qx
          hqx2 (fun pr hpr => hassoc pr (List.mem_cons_of_mem _ hpr))
          (fun pr hpr => hne pr (List.mem_cons_of_mem _ hpr))
          hdom2 htot2 hfrex2
      have hnadd : n ∉ added := by
        intro hc
        exact (hmem n hc).1 (List.mem_append_right _ (List.mem_singleton_self n))
      refine ⟨fr2, par2, f2, n :: added, heq, ?_, ?_, ?_, ?_, ?_, ?_, ?_⟩
      · rw [hfr2, List.append_assoc]
        rfl
      · exact List.nodup_cons.mpr ⟨hnadd, hnd⟩
      · intro a ha
        rcases List.mem_cons.mp ha with h1 | h1
        · refine ⟨?_, ?_, (n, e), List.mem_cons_self _ _, h1.symm⟩
          · rw [h1]; exact hnew.1
          · rw [h1]; exact hnew.2
        · obtain ⟨h2, h3, pr, hpr, hpr1⟩ := hmem a h1
          exact ⟨fun hc => h2 (List.mem_append_left _ hc), h3,
            pr, List.mem_cons_of_mem _ hpr, hpr1⟩
      · intro pr hpr
        rcases List.mem_cons.mp hpr with h1 | h1
        · subst h1
          exact Or.inl (hfr2 ▸ List.mem_append_left _
            (List.mem_append_right _ (List.mem_singleton_self n)))
        · exact hcov pr h1
      · intro k
        by_cases hkn : k = n
        · subst hkn
          rcases htri k with ⟨hf2, hp2⟩ | ⟨h1, h2, ⟨pr, hpr, hpr1⟩, h4, h5⟩
          · refine Or.inr ⟨hnew.2, hne_h, ⟨(k, e), List.mem_cons_self _ _, rfl⟩, ?_, ?_⟩
            · rw [hp2, pdictGet_set_self]
            · rw [hf2, qdictGet_set_self]
          · exact Or.inr ⟨h1, h2, ⟨pr, List.mem_cons_of_mem _ hpr, hpr1⟩, h4, h5⟩
        · rcases htri k with ⟨hf2, hp2⟩ | ⟨h1, h2, ⟨pr, hpr, hpr1⟩, h4, h5⟩
          · refine Or.inl ⟨?_, ?_⟩
            · rw [hf2, qdictGet_set_ne f n _ k hkn]
            · rw [hp2, pdictGet_set_ne par n x k hkn]
          · exact Or.inr ⟨h1, h2, ⟨pr, List.mem_cons_of_mem _ hpr, hpr1⟩, h4, h5⟩
      · intro k q hk
        have hkn : k ≠ n := by
          intro hc
          subst hc
          rcases hdom k (by rw [hk]; rfl) with h1 | h1 | h1
          · exact hnew.1 h1
          · exact hnew.2 h1
          · exact hne_h h1
        exact hdec k q (by rw [qdictGet_set_ne f n _ k hkn]; exact hk)
      · intro pr hpr hprex
        rcases List.mem_cons.mp hpr with h1 | h1
        · subst h1
          exact hdec n (qx + c x n) (qdictGet_set_self f n _)
        · exact hub pr h1 hprex
    · rw [if_neg hnew]
      by_cases hnfr : n ∈ fr
      · rw [if_pos hnfr]
        obtain ⟨fn, hfn⟩ := Option.isSome_iff_exists.mp (htot n hnfr)
        have hfnM : qdictGetM f n = .ok fn := by
          unfold qdictGetM; rw [hfn]
        rw [hfnM]
        simp only [exbind_ok]
        by_cases hlt : qx + c x n < fn
        · rw [if_pos hlt]
          have hqx2 : qdictGet (qdictSet f n (qx + c x n)) x = some qx := by
            rw [qdictGet_set_ne f n _ x (Ne.symm hne_h)]; exact hqx
          have hdom2 : ∀ k, (qdictGet (qdictSet f n (qx + c x n)) k).isSome = true →
              k ∈ fr ∨ k ∈ expl ∨ k = x := by
            intro k hk
            by_cases hkn : k = n
            · exact Or.inl (hkn ▸ hnfr)
            · rw [qdictGet_set_ne f n _ k hkn] at hk
              exact hdom k hk
          have htot2 : ∀ v ∈ fr,
              (qdictGet (qdictSet f n (qx + c x n)) v).isSome = true :=
            fun v hv => qdictGet_set_isSome f n _ v (htot v hv)
          obtain ⟨fr2, par2, f2, added, heq, hfr2, hnd, hmem, hcov, htri, hdec, hub⟩ :=
            ih fr (pdictSet par n x) (qdictSet f n (qx + c x n)) qx
              hqx2 (fun pr hpr => hassoc pr (List.mem_cons_of_mem _ hpr))
              (fun pr hpr => hne pr (List.mem_cons_of_mem _ hpr))
              hdom2 htot2 hfrex
          refine ⟨fr2, par2, f2, added, heq, hfr2, hnd, ?_, ?_, ?_, ?_, ?_⟩
          · intro a ha
            obtain ⟨h2, h3, pr, hpr, hpr1⟩ := hmem a ha
            exact ⟨h2, h3, pr, List.mem_cons_of_mem _ hpr, hpr1⟩
          · intro pr hpr
            rcases List.mem_cons.mp hpr with h1 | h1
            · subst h1
              exact Or.inl (hfr2 ▸ List.mem_append_left _ hnfr)
            · exact hcov pr h1
          · intro k
            by_cases hkn : k = n
            · subst hkn
              rcases htri k with ⟨hf2, hp2⟩ | ⟨h1, h2, ⟨pr, hpr, hpr1⟩, h4, h5⟩
              · refine Or.inr ⟨hfrex k hnfr, hne_h,
                  ⟨(k, e), List.mem_cons_self _ _, rfl⟩, ?_, ?_⟩
                · rw [hp2, pdictGet_set_self]
                · rw [hf2, qdictGet_set_self]
              · exact Or.inr ⟨h1, h2, ⟨pr, List.mem_cons_of_mem _ hpr, hpr1⟩,
                  h4, h5⟩
            · rcases htri k with ⟨hf2, hp2⟩ | ⟨h1, h2, ⟨pr, hpr, hpr1⟩, h4, h5⟩
              · refine Or.inl ⟨?_, ?_⟩
                · rw [hf2, qdictGet_set_ne f n _ k hkn]
                · rw [hp2, pdictGet_set_ne par n x k hkn]
              · exact Or.inr ⟨h1, h2, ⟨pr, List.mem_cons_of_mem _ hpr, hpr1⟩,
                  h4, h5⟩
          · intro k q hk
            by_cases hkn : k = n
            · subst hkn
              have : q = fn := by
                rw [hk] at hfn
                exact (Option.some.injEq _ _ ▸ hfn :)
              obtain ⟨q2, hq2, hle⟩ :=
                hdec k (qx + c x k) (qdictGet_set_self f k _)
              exact ⟨q2, hq2, le_trans hle (this ▸ le_of_lt hlt)⟩
            · exact hdec k q (by rw [qdictGet_set_ne f n _ k hkn]; exact hk)
          · intro pr hpr hprex
            rcases List.mem_cons.mp hpr with h1 | h1
            · subst h1
              exact hdec n (qx + c x n) (qdictGet_set_self f n _)
            · exact hub pr h1 hprex
        · rw [if_neg hlt]
          obtain ⟨fr2, par2, f2, added, heq, hfr2, hnd, hmem, hcov, htri, hdec, hub⟩ :=
            ih fr par f qx hqx
              (fun pr hpr => hassoc pr (List.mem_cons_of_mem _ hpr))
              (fun pr hpr => hne pr (List.mem_cons_of_mem _ hpr))
              hdom htot hfrex
          refine ⟨fr2, par2, f2, added, heq, hfr2, hnd, ?_, ?_, ?_, hdec, ?_⟩
          · intro a ha
            obtain ⟨h2, h3, pr, hpr, hpr1⟩ := hmem a ha
            exact ⟨h2, h3, pr, List.mem_cons_of_mem _ hpr, hpr1⟩
          · intro pr hpr
            rcases List.mem_cons.mp hpr with h1 | h1
            · subst h1
              exact Or.inl (hfr2 ▸ List.mem_append_left _ hnfr)
            · exact hcov pr h1
          · intro k
            rcases htri k with h | ⟨h1, h2, ⟨pr, hpr, hpr1⟩, h4, h5⟩
            · exact Or.inl h
            · exact Or.inr ⟨h1, h2, ⟨pr, List.mem_cons_of_mem _ hpr, hpr1⟩,
                h4, h5⟩
          · intro pr hpr hprex
            rcases List.mem_cons.mp hpr with h1 | h1
            · subst h1
              obtain ⟨q2, hq2, hle⟩ := hdec n fn hfn
              exact ⟨q2, hq2, le_trans hle (not_lt.mp hlt)⟩
            · exact hub pr h1 hprex
      · rw [if_neg hnfr]
        have hnex : n ∈ expl := by
          rcases not_and_or.mp hnew with h1 | h1
          · exact absurd (not_not.mp h1) hnfr
          · exact not_not.mp h1
        obtain ⟨fr2, par2, f2, added, heq, hfr2, hnd, hmem, hcov, htri, hdec, hub⟩ :=
          ih fr par f qx hqx
            (fun pr hpr => hassoc pr (List.mem_cons_of_mem _ hpr))
            (fun pr hpr => hne pr (List.mem_cons_of_mem _ hpr))
            hdom htot hfrex
        refine ⟨fr2, par2, f2, added, heq, hfr2, hnd, ?_, ?_, ?_, hdec, ?_⟩
        · intro a ha
          obtain ⟨h2, h3, pr, hpr, hpr1⟩ := hmem a ha
          exact ⟨h2, h3, pr, List.mem_cons_of_mem _ hpr, hpr1⟩
        · intro pr hpr
          rcases List.mem_cons.mp hpr with h1 | h1
          · subst h1
            exact Or.inr hnex
          · exact hcov pr h1
        · intro k
          rcases htri k with h | ⟨h1, h2, ⟨pr, hpr, hpr1⟩, h4, h5⟩
          · exact Or.inl h
          · exact Or.inr ⟨h1, h2, ⟨pr, List.mem_cons_of_mem _ hpr, hpr1⟩,
              h4, h5⟩
        · intro pr hpr hprex
          rcases List.mem_cons.mp hpr with h1 | h1
          · subst h1
            exact absurd hnex hprex
          · exact hub pr h1 hprex

end GS

namespace GS

/-- Successor-fuel unfolding of the UCS loop. -/
theorem ucsLoop_succ (g : Graph) (goal : Vid) (fl : Nat) (st : UcsSt) :
    ucsLoop g goal (fl + 1) st =
      (match st.frontier with
      | [] => .ok none
      | _ :: _ => do
        let vals ← st.frontier.mapM (qdictGetM st.f)
        let i := listArgmin vals
        let x := st.frontier.getD i 0
        let frontier := st.frontier.eraseIdx i
        if x = goal then
          .ok (some ⟨frontier, st.explored, st.parent, st.f⟩)
        else do
          let inc ← g.incidencesM x
          let (fr, par, f) ←
            ucsExpand g x st.explored inc frontier st.parent st.f
          ucsLoop g goal fl ⟨fr, st.explored ++ [x], par, f⟩) := rfl

/-- Successor-fuel unfolding of the A* loop. -/
theorem astLoop_succ (g : Graph) (goal : Vid) (fl : Nat) (st : AstSt) :
    astLoop g goal (fl + 1) st =
      (match st.frontier with
      | [] => .ok none
      | _ :: _ => do
        let vals ← st.frontier.mapM (qdictGetM st.f)
        let i := listArgmin vals
        let x := st.frontier.getD i 0
        let frontier := st.frontier.eraseIdx i
        if x = goal then
          .ok (some ⟨frontier, st.explored, st.parent, st.gd, st.f⟩)
        else do
          let inc ← g.incidencesM x
          let (fr, par, gd, f) ←
            astExpand g x goal st.explored inc frontier st.parent st.gd st.f
          astLoop g goal fl ⟨fr, st.explored ++ [x], par, gd, f⟩) := rfl

/-- `Vertex.incidences` pairs each neighbour with its own edge. -/
theorem incidencesM_eq_zip {g : Graph} {x : Vid}
    (htot : g.neighboursM x = .ok (nbrs g x)) :
    g.incidencesM x = .ok ((nbrs g x).zip (g.vtx x).edgelist) :=
  mapM_pair htot

/-- The first components of the incidence list are the neighbours. -/
theorem zip_fst_eq_nbrs {g : Graph} {x : Vid}
    (htot : g.neighboursM x = .ok (nbrs g x)) :
    ((nbrs g x).zip (g.vtx x).edgelist).map Prod.fst = nbrs g x :=
  List.map_fst_zip _ _ (le_of_eq (mapM_ok_length htot))

/-- The popped UCS vertex carries the minimal cost of any walk reaching
it. -/
theorem ucs_pop_min {g : Graph} {c : Vid → Vid → ℚ} {S G : Vid}
    {st : UcsSt} (hnn : ∀ u v, 0 ≤ c u v)
    (hinv : UcsInv g c S G st) {x : Vid} (hx : x ∈ st.frontier)
    (hmin : ∀ y ∈ st.frontier, ∀ qx qy, qdictGet st.f x = some qx →
      qdictGet st.f y = some qy → qx ≤ qy) :
    ∀ qx, qdictGet st.f x = some qx → ∀ w, CostWalk g c S x w →
      qx ≤ w := by
  intro qx hqx w hw
  have hxex : x ∉ st.explored := by
    intro hc
    have := (List.nodup_append.mp hinv.nodup).2.2
    exact List.disjoint_left.mp this hc hx
  rcases costWalk_boundary st.explored hw hxex with
    ⟨hS, _, _, _⟩ | ⟨u, y, w0, w2, hu, hyadj, hy, hw0, hseg, hsum⟩
  · rcases hinv.startStrong with h1 | h1
    · exact absurd h1 hS
    · have hfr : st.frontier = [S] := by rw [h1]
      have hxS : x = S := by
        rw [hfr, List.mem_singleton] at hx
        exact hx
      have : qx = 0 := by
        rw [hxS, hinv.fS] at hqx
        exact (Option.some.injEq _ _ ▸ hqx :).symm
      rw [this]
      exact CostWalk.nonneg hnn hw
  · obtain ⟨qu, hqu⟩ := Option.isSome_iff_exists.mp
      (hinv.fTotal u (List.mem_append_left _ hu))
    have hyfr : y ∈ st.frontier := by
      rcases hinv.boundaryClosed u hu y hyadj with h1 | h1
      · exact absurd h1 hy
      · exact h1
    obtain ⟨qy, hqy⟩ := Option.isSome_iff_exists.mp
      (hinv.fTotal y (List.mem_append_right _ hyfr))
    have h1 : qu ≤ w0 := (hinv.settled u hu qu hqu).2 w0 hw0
    have h2 : qy ≤ qu + c u y :=
      hinv.boundaryLe u hu y hyadj hyfr qu qy hqu hqy
    have h3 : qx ≤ qy := hmin y hyfr qx qy hqx hqy
    have h4 : 0 ≤ w2 := CostWalk.nonneg hnn hseg
    rw [hsum]
    linarith

/-- The popped A* vertex carries the minimal cost-to-come of any walk
reaching it, provided the heuristic is consistent. -/
theorem ast_pop_min {g : Graph} {c : Vid → Vid → ℚ} {hf : Vid → ℚ}
    {S G : Vid} {st : AstSt} (hnn : ∀ u v, 0 ≤ c u v)
    (hcons : ∀ u v, v ∈ nbrs g u → hf u ≤ c u v + hf v)
    (hinv : AstInv g c hf S G st) {x : Vid} (hx : x ∈ st.frontier)
    (hmin : ∀ y ∈ st.frontier, ∀ fx fy, qdictGet st.f x = some fx →
      qdictGet st.f y = some fy → fx ≤ fy) :
    ∀ gx, qdictGet st.gd x = some gx → ∀ w, CostWalk g c S x w →
      gx ≤ w := by
  intro gx hgx w hw
  have hxex : x ∉ st.explored := by
    intro hc
    have := (List.nodup_append.mp hinv.nodup).2.2
    exact List.disjoint_left.mp this hc hx
  rcases costWalk_boundary st.explored hw hxex with
    ⟨hS, _, _, _⟩ | ⟨u, y, w0, w2, hu, hyadj, hy, hw0, hseg, hsum⟩
  · rcases hinv.startStrong with h1 | h1
    · exact absurd h1 hS
    · have hfr : st.frontier = [S] := by rw [h1]
      have hxS : x = S := by
        rw [hfr, List.mem_singleton] at hx
        exact hx
      have : gx = 0 := by
        rw [hxS, hinv.gS] at hgx
        exact (Option.some.injEq _ _ ▸ hgx :).symm
      rw [this]
      exact CostWalk.nonneg hnn hw
  · have hSex : S ∈ st.explored := by
      rcases hinv.startStrong with h1 | h1
      · exact h1
      · exfalso
        have : st.explored = [] := by rw [h1]
        rw [this] at hu
        cases hu
    obtain ⟨gu, hgu⟩ := Option.isSome_iff_exists.mp
      (hinv.gdTotal u (List.mem_append_left _ hu))
    have hyfr : y ∈ st.frontier := by
      rcases hinv.boundaryClosed u hu y hyadj with h1 | h1
      · exact absurd h1 hy
      · exact h1
    obtain ⟨gy, hgy⟩ := Option.isSome_iff_exists.mp
      (hinv.gdTotal y (List.mem_append_right _ hyfr))
    have hxfr_ne : x ≠ S := by
      intro hc
      have := (List.nodup_append.mp hinv.nodup).2.2
      exact List.disjoint_left.mp this (hc ▸ hSex) hx
    have hyfr_ne : y ≠ S := by
      intro hc
      have := (List.nodup_append.mp hinv.nodup).2.2
      exact List.disjoint_left.mp this (hc ▸ hSex) hyfr
    obtain ⟨gx2, hgx2⟩ := Option.isSome_iff_exists.mp
      (hinv.gdTotal x (List.mem_append_right _ hx))
    have hfx : qdictGet st.f x = some (gx + hf x) :=
      hinv.fEq x hx hxfr_ne gx hgx
    have hfy : qdictGet st.f y = some (gy + hf y) :=
      hinv.fEq y hyfr hyfr_ne gy hgy
    have h1 : gu ≤ w0 := (hinv.settled u hu gu hgu).2 w0 hw0
    have h2 : gy ≤ gu + c u y :=
      hinv.boundaryLe u hu y hyadj hyfr gu gy hgu hgy
    have h3 : gx + hf x ≤ gy + hf y :=
      hmin y hyfr (gx + hf x) (gy + hf y) hfx hfy
    have h4 : hf y ≤ w2 + hf x := heuristic_telescope hcons hseg
    rw [hsum]
    linarith

end GS


namespace GS

/-- One non-final iteration of the UCS loop: expanding the popped
minimal-cost frontier vertex `x` succeeds and preserves the invariant,
with `x` joining the settled set. -/
theorem ucsInv_step {g : Graph} {c : Vid → Vid → ℚ} {S G : Vid}
    (wf : BfsWF g)
    (hassoc : ∀ u v e, (v, e) ∈ (nbrs g u).zip (g.vtx u).edgelist →
      (g.edg e).cost = some (c u v))
    (hnn : ∀ u v, 0 ≤ c u v)
    {st : UcsSt} (hinv : UcsInv g c S G st) {x : Vid}
    (hx : x ∈ st.frontier) (hxG : x ≠ G)
    (hmin : ∀ y ∈ st.frontier,
      (qdictGet st.f x).getD 0 ≤ (qdictGet st.f y).getD 0)
    {fr' : List Vid} (hperm : (x :: fr').Perm st.frontier) :
    ∃ fr2 par2 f2,
      ucsExpand g x st.explored ((nbrs g x).zip (g.vtx x).edgelist)
        fr' st.parent st.f = .ok (fr2, par2, f2) ∧
      UcsInv g c S G ⟨fr2, st.explored ++ [x], par2, f2⟩ := by
  classical
  obtain ⟨qx, hqx⟩ := Option.isSome_iff_exists.mp
    (hinv.fTotal x (List.mem_append_right _ hx))
  have hfst : ∀ pr ∈ (nbrs g x).zip (g.vtx x).edgelist,
      pr.1 ∈ nbrs g x := by
    intro pr hpr
    have : pr.1 ∈ ((nbrs g x).zip (g.vtx x).edgelist).map Prod.fst :=
      List.mem_map_of_mem Prod.fst hpr
    rw [zip_fst_eq_nbrs (wf.total x)] at this
    exact this
  have hnbr_pr : ∀ v ∈ nbrs g x,
      ∃ pr ∈ (nbrs g x).zip (g.vtx x).edgelist, pr.1 = v := by
    intro v hv
    rw [← zip_fst_eq_nbrs (wf.total x)] at hv
    obtain ⟨pr, hpr, hpr1⟩ := List.mem_map.mp hv
    exact ⟨pr, hpr, hpr1⟩
  have hmemfr : ∀ v, v ∈ st.frontier ↔ v = x ∨ v ∈ fr' := by
    intro v
    rw [← hperm.mem_iff, List.mem_cons]
  have hfrdisj : ∀ v ∈ st.frontier, v ∉ st.explored := by
    intro v hv hc
    have := (List.nodup_append.mp hinv.nodup).2.2
    exact List.disjoint_left.mp this hc hv
  have hxex : x ∉ st.explored := hfrdisj x hx
  obtain ⟨fr2, par2, f2, added, heq, hfr2, hnd, hmem, hcov, htri, hdec, hub⟩ :=
    ucsExpand_spec g c x st.explored ((nbrs g x).zip (g.vtx x).edgelist)
      fr' st.parent st.f qx hqx
      (fun pr hpr => hassoc x pr.1 pr.2 (by rwa [Prod.mk.eta]))
      (fun pr hpr hc => by
        have h2 := hfst pr hpr
        rw [hc] at h2
        exact wf.irrefl x h2)
      (fun k hk => by
        have := hinv.fDom k hk
        rcases List.mem_append.mp this with h1 | h1
        · exact Or.inr (Or.inl h1)
        · rcases (hmemfr k).mp h1 with h2 | h2
          · exact Or.inr (Or.inr h2)
          · exact Or.inl h2)
      (fun v hv => hinv.fTotal v
        (List.mem_append_right _ ((hmemfr v).mpr (Or.inr hv))))
      (fun v hv => hfrdisj v ((hmemfr v).mpr (Or.inr hv)))
  refine ⟨fr2, par2, f2, heq, ?_⟩
  have hxuntouched : qdictGet f2 x = qdictGet st.f x ∧
      pdictGet par2 x = pdictGet st.parent x := by
    rcases htri x with h | ⟨_, h2, _, _, _⟩
    · exact h
    · exact absurd rfl h2
  have hexuntouched : ∀ u ∈ st.explored,
      qdictGet f2 u = qdictGet st.f u ∧
      pdictGet par2 u = pdictGet st.parent u := by
    intro u hu
    rcases htri u with h | ⟨h1, _, _, _, _⟩
    · exact h
    · exact absurd hu h1
  have haddne : ∀ a ∈ added, a ≠ x := by
    intro a ha hc
    obtain ⟨_, _, pr, hpr, hpr1⟩ := hmem a ha
    have h2 := hfst pr hpr
    rw [hpr1, hc] at h2
    exact wf.irrefl x h2
  have haddnbr : ∀ a ∈ added, a ∈ nbrs g x := by
    intro a ha
    obtain ⟨_, _, pr, hpr, hpr1⟩ := hmem a ha
    have h2 := hfst pr hpr
    rw [hpr1] at h2
    exact h2
  have haddseen : ∀ a ∈ added, a ∉ st.explored ++ st.frontier := by
    intro a ha hc
    obtain ⟨h1, h2, _⟩ := hmem a ha
    rcases List.mem_append.mp hc with h3 | h3
    · exact h2 h3
    · rcases (hmemfr a).mp h3 with h4 | h4
      · exact haddne a ha h4
      · exact h1 h4
  have hcase2add : ∀ a ∈ added, pdictGet par2 a = some x ∧
      qdictGet f2 a = some (qx + c x a) := by
    intro a ha
    rcases htri a with ⟨h1, _⟩ | ⟨_, _, _, h4, h5⟩
    · exfalso
      obtain ⟨_, hanex, pr, hpr, hpr1⟩ := hmem a ha
      obtain ⟨q2, hq2, _⟩ := hub pr hpr (by rw [hpr1]; exact hanex)
      rw [hpr1] at hq2
      rw [h1] at hq2
      exact haddseen a ha (hinv.fDom a (by rw [hq2]; rfl))
    · exact ⟨h4, h5⟩
  have hmemL2 : ∀ v, v ∈ (st.explored ++ [x]) ++ fr2 ↔
      v ∈ st.explored ++ st.frontier ∨ v ∈ added := by
    intro v
    rw [hfr2]
    constructor
    · intro hv
      rcases List.mem_append.mp hv with h1 | h1
      · rcases List.mem_append.mp h1 with h2 | h2
        · exact Or.inl (List.mem_append_left _ h2)
        · rw [List.mem_singleton] at h2
          exact Or.inl (List.mem_append_right _ (h2 ▸ hx))
      · rcases List.mem_append.mp h1 with h2 | h2
        · exact Or.inl (List.mem_append_right _ ((hmemfr v).mpr (Or.inr h2)))
        · exact Or.inr h2
    · intro hv
      rcases hv with h1 | h1
      · rcases List.mem_append.mp h1 with h2 | h2
        · exact List.mem_append_left _ (List.mem_append_left _ h2)
        · rcases (hmemfr v).mp h2 with h3 | h3
          · exact List.mem_append_left _ (List.mem_append_right _
              (by rw [List.mem_singleton]; exact h3))
          · exact List.mem_append_right _ (List.mem_append_left _ h3)
      · exact List.mem_append_right _ (List.mem_append_right _ h1)
  have hxwalk : CostWalk g c S x qx := hinv.frontierUB x hx qx hqx
  have hxminw : ∀ w, CostWalk g c S x w → qx ≤ w := by
    refine ucs_pop_min hnn hinv hx ?_ qx hqx
    intro y hy qx2 qy hqx2 hqy
    have h0 := hmin y hy
    rw [hqx2, hqy] at h0
    simpa using h0
  have hSnotadd : S ∉ added := by
    intro hc
    rcases hinv.startStrong with h1 | h1
    · exact (hmem S hc).2.1 h1
    · have hxS : x = S := by
        have h2 : st.frontier = [S] := by rw [h1]
        rw [h2, List.mem_singleton] at hx
        exact hx
      exact haddne S hc hxS.symm
  have haddneS : ∀ a ∈ added, a ≠ S :=
    fun a ha hc => hSnotadd (hc ▸ ha)
  have hfr2neS : ∀ v ∈ fr', v ≠ x → pdictGet par2 v = some x →
      v ≠ S := by
    intro v hv hvx hpv hc
    rcases hinv.startStrong with h1 | h1
    · exact hfrdisj v ((hmemfr v).mpr (Or.inr hv)) (hc ▸ h1)
    · have hxS : x = S := by
        have h2 : st.frontier = [S] := by rw [h1]
        rw [h2, List.mem_singleton] at hx
        exact hx
      exact hvx (hc.trans hxS.symm)
  have hnodup2 : (st.explored ++ x :: fr').Nodup :=
    (List.Perm.nodup_iff (List.Perm.append_left st.explored hperm)).mpr
      hinv.nodup
  have hxfr' : x ∉ fr' :=
    (List.nodup_cons.mp (List.nodup_append.mp hnodup2).2.1).1
  have hfr'nd : fr'.Nodup :=
    (List.nodup_cons.mp (List.nodup_append.mp hnodup2).2.1).2
  have hexdisj2 : ∀ v ∈ st.explored, v ∉ x :: fr' := by
    intro v hv
    exact List.disjoint_left.mp (List.nodup_append.mp hnodup2).2.2 hv
  refine ⟨?_, ?_, ?_, ?_, ?_, ?_, ?_, ?_, ?_, ?_, ?_, ?_, ?_⟩
  · -- nodup
    show ((st.explored ++ [x]) ++ fr2).Nodup
    rw [hfr2]
    apply List.nodup_append.mpr
    refine ⟨?_, ?_, ?_⟩
    · apply List.nodup_append.mpr
      refine ⟨(List.nodup_append.mp hnodup2).1, List.nodup_singleton x, ?_⟩
      intro v hv
      simp only [List.mem_singleton]
      intro hc
      exact hexdisj2 v hv (hc ▸ List.mem_cons_self x fr')
    · apply List.nodup_append.mpr
      refine ⟨hfr'nd, hnd, ?_⟩
      intro v hv hc
      exact (hmem v hc).1 hv
    · intro v hv
      rcases List.mem_append.mp hv with h1 | h1
      · intro hc
        rcases List.mem_append.mp hc with h2 | h2
        · exact hexdisj2 v h1 (List.mem_cons_of_mem x h2)
        · exact (hmem v h2).2.1 h1
      · rw [List.mem_singleton] at h1
        subst h1
        intro hc
        rcases List.mem_append.mp hc with h2 | h2
        · exact hxfr' h2
        · exact haddne v h2 rfl
  · -- bound
    intro v hv
    rcases (hmemL2 v).mp hv with h1 | h1
    · exact hinv.bound v h1
    · exact wf.bounded x v (haddnbr v h1)
  · -- startStrong
    refine Or.inl ?_
    rcases hinv.startStrong with h1 | h1
    · exact List.mem_append_left _ h1
    · have hxS : x = S := by
        have h2 : st.frontier = [S] := by rw [h1]
        rw [h2, List.mem_singleton] at hx
        exact hx
      exact List.mem_append_right _
        (by rw [List.mem_singleton]; exact hxS.symm)
  · -- goalEx
    intro hc
    rcases List.mem_append.mp hc with h1 | h1
    · exact hinv.goalEx h1
    · rw [List.mem_singleton] at h1
      exact hxG h1.symm
  · -- fS
    show qdictGet f2 S = some 0
    by_cases hSx : S = x
    · rw [hSx, hxuntouched.1, ← hSx]
      exact hinv.fS
    · have hSex : S ∈ st.explored := by
        rcases hinv.startStrong with h1 | h1
        · exact h1
        · exfalso
          apply hSx
          have h2 : st.frontier = [S] := by rw [h1]
          rw [h2, List.mem_singleton] at hx
          exact hx.symm
      rw [(hexuntouched S hSex).1]
      exact hinv.fS
  · -- parDom
    intro k hk
    rcases htri k with ⟨_, h2⟩ | ⟨h1, _, ⟨pr, hpr, hpr1⟩, _, _⟩
    · rw [h2] at hk
      exact (hmemL2 k).mpr (Or.inl (hinv.parDom k hk))
    · rcases hcov pr hpr with h3 | h3
      · exact List.mem_append_right _ (hpr1 ▸ h3)
      · exact absurd (hpr1 ▸ h3) h1
  · -- fDom
    intro k hk
    rcases htri k with ⟨h2, _⟩ | ⟨h1, _, ⟨pr, hpr, hpr1⟩, _, _⟩
    · rw [h2] at hk
      exact (hmemL2 k).mpr (Or.inl (hinv.fDom k hk))
    · rcases hcov pr hpr with h3 | h3
      · exact List.mem_append_right _ (hpr1 ▸ h3)
      · exact absurd (hpr1 ▸ h3) h1
  · -- fTotal
    intro v hv
    rcases (hmemL2 v).mp hv with h1 | h1
    · rcases List.mem_append.mp h1 with h2 | h2
      · rw [(hexuntouched v h2).1]
        exact hinv.fTotal v h1
      · rcases (hmemfr v).mp h2 with h3 | h3
        · rw [h3, hxuntouched.1]
          exact hinv.fTotal x (List.mem_append_right _ hx)
        · obtain ⟨q, hq⟩ := Option.isSome_iff_exists.mp (hinv.fTotal v h1)
          obtain ⟨q2, hq2, _⟩ := hdec v q hq
          rw [hq2]
          rfl
    · rw [(hcase2add v h1).2]
      rfl
  · -- settled
    intro v hv q hq
    rcases List.mem_append.mp hv with h1 | h1
    · rw [(hexuntouched v h1).1] at hq
      exact hinv.settled v h1 q hq
    · rw [List.mem_singleton] at h1
      subst h1
      rw [hxuntouched.1, hqx] at hq
      have hqqx : q = qx := by
        exact ((Option.some.injEq _ _).mp hq).symm
      rw [hqqx]
      exact ⟨hxwalk, hxminw⟩
  · -- frontierUB
    intro v hv q hq
    rw [hfr2] at hv
    rcases List.mem_append.mp hv with h1 | h1
    · rcases htri v with ⟨h2, _⟩ | ⟨_, _, ⟨pr, hpr, hpr1⟩, _, h5⟩
      · rw [h2] at hq
        exact hinv.frontierUB v ((hmemfr v).mpr (Or.inr h1)) q hq
      · rw [h5] at hq
        have : q = qx + c x v := ((Option.some.injEq _ _).mp hq).symm
        rw [this]
        exact hxwalk.cons (hpr1 ▸ hfst pr hpr)
    · rw [(hcase2add v h1).2] at hq
      have : q = qx + c x v := ((Option.some.injEq _ _).mp hq).symm
      rw [this]
      exact hxwalk.cons (haddnbr v h1)
  · -- boundaryClosed
    intro u hu v hv
    rcases List.mem_append.mp hu with h1 | h1
    · rcases hinv.boundaryClosed u h1 v hv with h2 | h2
      · exact Or.inl (List.mem_append_left _ h2)
      · rcases (hmemfr v).mp h2 with h3 | h3
        · exact Or.inl (List.mem_append_right _
            (by rw [List.mem_singleton]; exact h3))
        · exact Or.inr (hfr2 ▸ List.mem_append_left _ h3)
    · rw [List.mem_singleton] at h1
      subst h1
      obtain ⟨pr, hpr, hpr1⟩ := hnbr_pr v hv
      rcases hcov pr hpr with h3 | h3
      · exact Or.inr (hpr1 ▸ h3)
      · exact Or.inl (List.mem_append_left _ (hpr1 ▸ h3))
  · -- boundaryLe
    intro u hu v hv hvfr qu qv hqu hqv
    dsimp only at hu hvfr hqu hqv
    rw [hfr2] at hvfr
    rcases List.mem_append.mp hu with h1 | h1
    · rw [(hexuntouched u h1).1] at hqu
      rcases List.mem_append.mp hvfr with h2 | h2
      · obtain ⟨qv0, hqv0⟩ := Option.isSome_iff_exists.mp
          (hinv.fTotal v (List.mem_append_right _ ((hmemfr v).mpr (Or.inr h2))))
        obtain ⟨q2, hq2, hle⟩ := hdec v qv0 hqv0
        rw [hq2] at hqv
        have hq2v : qv = q2 := ((Option.some.injEq _ _).mp hqv).symm
        have hold := hinv.boundaryLe u h1 v hv
          ((hmemfr v).mpr (Or.inr h2)) qu qv0 hqu hqv0
        rw [hq2v]
        exact le_trans hle hold
      · exfalso
        rcases hinv.boundaryClosed u h1 v hv with h3 | h3
        · exact haddseen v h2 (List.mem_append_left _ h3)
        · exact haddseen v h2 (List.mem_append_right _ h3)
    · rw [List.mem_singleton] at h1
      subst h1
      rw [hxuntouched.1, hqx] at hqu
      have hquqx : qu = qx := ((Option.some.injEq _ _).mp hqu).symm
      obtain ⟨pr, hpr, hpr1⟩ := hnbr_pr v hv
      have hvnex : v ∉ st.explored := by
        rcases List.mem_append.mp hvfr with h2 | h2
        · exact hfrdisj v ((hmemfr v).mpr (Or.inr h2))
        · exact (hmem v h2).2.1
      obtain ⟨q2, hq2, hle⟩ := hub pr hpr (hpr1 ▸ hvnex)
      rw [hpr1] at hq2 hle
      rw [hq2] at hqv
      have : qv = q2 := ((Option.some.injEq _ _).mp hqv).symm
      rw [this, hquqx]
      exact hle
  · -- chains
    intro v hv
    have hsub : ∀ u ∈ st.explored, u ∈ st.explored ++ [x] :=
      fun u hu => List.mem_append_left _ hu
    have hexlen : (st.explored ++ [x]).length = st.explored.length + 1 := by
      rw [List.length_append, List.length_singleton]
    have hxchain : ∃ n, n ≤ st.explored.length ∧
        CostChain g c par2 f2 S (st.explored ++ [x]) x n := by
      obtain ⟨n, hn, hch⟩ := hinv.chains x
        (List.mem_append_right _ hx)
      exact ⟨n, hn, hch.preserve hsub hexuntouched hxuntouched⟩
    rcases (hmemL2 v).mp hv with h1 | h1
    · rcases List.mem_append.mp h1 with h2 | h2
      · obtain ⟨n, hn, hch⟩ := hinv.chains v h1
        refine ⟨n, by rw [hexlen]; omega,
          hch.preserve hsub hexuntouched (hexuntouched v h2)⟩
      · rcases (hmemfr v).mp h2 with h3 | h3
        · subst h3
          obtain ⟨n, hn, hch⟩ := hxchain
          exact ⟨n, by rw [hexlen]; omega, hch⟩
        · rcases htri v with hun | ⟨hnex, hnx, ⟨pr, hpr, hpr1⟩, h4, h5⟩
          · obtain ⟨n, hn, hch⟩ := hinv.chains v h1
            exact ⟨n, by rw [hexlen]; omega,
              hch.preserve hsub hexuntouched hun⟩
          · obtain ⟨n, hn, hch⟩ := hxchain
            refine ⟨n + 1, by rw [hexlen]; omega, ?_⟩
            refine CostChain.cons (hfr2neS v h3 hnx h4) h4
              (hpr1 ▸ hfst pr hpr) h5 ?_ rfl
              (List.mem_append_right _ (List.mem_singleton_self x)) hch
            rw [hxuntouched.1]
            exact hqx
    · obtain ⟨n, hn, hch⟩ := hxchain
      refine ⟨n + 1, by rw [hexlen]; omega, ?_⟩
      refine CostChain.cons (haddneS v h1) (hcase2add v h1).1
        (haddnbr v h1) (hcase2add v h1).2 ?_ rfl
        (List.mem_append_right _ (List.mem_singleton_self x)) hch
      rw [hxuntouched.1]
      exact hqx

end GS

namespace GS

/-- The UCS loop, started in an invariant state with the goal reachable,
terminates by popping the goal, whose stored cost is the minimal walk
cost, and whose parent chain reaches back to the start. -/
theorem ucsLoop_reaches {g : Graph} {c : Vid → Vid → ℚ} {S G : Vid}
    (wf : BfsWF g)
    (hassoc : ∀ u v e, (v, e) ∈ (nbrs g u).zip (g.vtx u).edgelist →
      (g.edg e).cost = some (c u v))
    (hnn : ∀ u v, 0 ≤ c u v)
    {w0 : ℚ} (hreach : CostWalk g c S G w0) :
    ∀ fuel st, UcsInv g c S G st →
      g.vertices.size + 1 ≤ fuel + st.explored.length →
      ∃ stF q n, ucsLoop g G fuel st = .ok (some stF) ∧
        qdictGet stF.f G = some q ∧
        CostWalk g c S G q ∧ (∀ w, CostWalk g c S G w → q ≤ w) ∧
        n ≤ g.vertices.size ∧
        qdictGet stF.f S = some 0 ∧
        CostChain g c stF.parent stF.f S stF.explored G n := by
  intro fuel
  induction fuel with
  | zero =>
    intro st hinv hcount
    exfalso
    have hexnd : st.explored.Nodup := (List.nodup_append.mp hinv.nodup).1
    have hexb : ∀ v ∈ st.explored, v < g.vertices.size :=
      fun v hv => hinv.bound v (List.mem_append_left _ hv)
    have := nodup_bounded_length st.explored g.vertices.size hexnd hexb
    omega
  | succ fl ihf =>
    intro st hinv hcount
    rcases hfrc : st.frontier with _ | ⟨a, rest⟩
    · exfalso
      rcases costWalk_boundary st.explored hreach hinv.goalEx with
        ⟨hS, _, _, _⟩ | ⟨u, y, _, _, hu, hyadj, hy, _, _, _⟩
      · rcases hinv.startStrong with h1 | h1
        · exact hS h1
        · have h2 : st.frontier = [S] := by rw [h1]
          rw [hfrc] at h2
          cases h2
      · rcases hinv.boundaryClosed u hu y hyadj with h2 | h2
        · exact hy h2
        · rw [hfrc] at h2
          cases h2
    · have htotfr : ∀ v ∈ st.frontier, (qdictGet st.f v).isSome = true :=
        fun v hv => hinv.fTotal v (List.mem_append_right _ hv)
      have hvals : st.frontier.mapM (qdictGetM st.f) =
          .ok (st.frontier.map (fun v => (qdictGet st.f v).getD 0)) :=
        mapM_qdictGetM st.f st.frontier htotfr
      have hmapc : st.frontier.map (fun v => (qdictGet st.f v).getD 0) =
          ((qdictGet st.f a).getD 0) ::
            rest.map (fun v => (qdictGet st.f v).getD 0) := by
        rw [hfrc]
        rfl
      have hargmin := listArgmin_spec ((qdictGet st.f a).getD 0)
        (rest.map (fun v => (qdictGet st.f v).getD 0))
      rw [← hmapc] at hargmin
      have hilen :
          listArgmin (st.frontier.map (fun v => (qdictGet st.f v).getD 0)) <
            st.frontier.length := by
        have := hargmin.1
        rw [List.length_map] at this
        exact this
      set i := listArgmin (st.frontier.map (fun v => (qdictGet st.f v).getD 0))
        with hidef
      set x := st.frontier.getD i 0 with hxdef
      have hxmem : x ∈ st.frontier := getD_mem st.frontier i 0 hilen
      have hfvx : (st.frontier.map (fun v => (qdictGet st.f v).getD 0)).getD
          i 0 = (qdictGet st.f x).getD 0 :=
        getD_map_lt _ st.frontier i hilen
      have hminx : ∀ y ∈ st.frontier,
          (qdictGet st.f x).getD 0 ≤ (qdictGet st.f y).getD 0 := by
        intro y hy
        have h1 := hargmin.2 ((qdictGet st.f y).getD 0)
          (List.mem_map_of_mem _ hy)
        rw [hfvx] at h1
        exact h1
      have hperm : (x :: st.frontier.eraseIdx i).Perm st.frontier := by
        have h1 := perm_argpop st.frontier i hilen
        have h2 : st.frontier.get ⟨i, hilen⟩ = x := by
          rw [hxdef, List.getD_eq_getElem st.frontier 0 hilen]
          rfl
        rw [h2] at h1
        exact h1
      obtain ⟨qx, hqx⟩ := Option.isSome_iff_exists.mp
        (hinv.fTotal x (List.mem_append_right _ hxmem))
      rw [ucsLoop_succ, hfrc]
      dsimp only
      rw [← hfrc, hvals]
      simp only [exbind_ok]
      rw [← hidef, ← hxdef]
      by_cases hxG : x = G
      · rw [if_pos hxG]
        refine ⟨⟨st.frontier.eraseIdx i, st.explored, st.parent, st.f⟩,
          qx, ?_⟩
        obtain ⟨n, hn, hch⟩ := hinv.chains x (List.mem_append_right _ hxmem)
        have hexlen : st.explored.length ≤ g.vertices.size :=
          nodup_bounded_length st.explored g.vertices.size
            (List.nodup_append.mp hinv.nodup).1
            (fun v hv => hinv.bound v (List.mem_append_left _ hv))
        refine ⟨n, rfl, by rw [← hxG]; exact hqx,
          hxG ▸ hinv.frontierUB x hxmem qx hqx, ?_, by omega, hinv.fS, ?_⟩
        · intro w hw
          refine ucs_pop_min hnn hinv hxmem ?_ qx hqx w (hxG ▸ hw)
          intro y hy qx2 qy hqx2 hqy
          have h0 := hminx y hy
          rw [hqx2, hqy] at h0
          simpa using h0
        · show CostChain g c st.parent st.f S st.explored G n
          rw [← hxG]
          exact hch
      · rw [if_neg hxG]
        rw [incidencesM_eq_zip (wf.total x)]
        simp only [exbind_ok]
        obtain ⟨fr2, par2, f2, heq, hinv2⟩ :=
          ucsInv_step wf hassoc hnn hinv hxmem hxG hminx hperm
        rw [heq]
        simp only [exbind_ok]
        obtain ⟨stF, q, n, hrun, hconc⟩ :=
          ihf ⟨fr2, st.explored ++ [x], par2, f2⟩ hinv2
            (by simp only [List.length_append, List.length_singleton]; omega)
        exact ⟨stF, q, n, hrun, hconc⟩

end GS

namespace GS

/-- `edgeto` at a neighbour returns an edge that is paired with that
neighbour in the incidence list. -/
theorem edgeto_zip_mem {g : Graph} {x p : Vid}
    (htot : g.neighboursM x = .ok (nbrs g x)) (hp : p ∈ nbrs g x) :
    ∃ e, g.edgeto x p = .ok e ∧
      (p, e) ∈ (nbrs g x).zip (g.vtx x).edgelist := by
  have hmap : (g.vtx x).edgelist.mapM (fun e => (g.edg e).next x) =
      .ok (nbrs g x) := htot
  have hinc := mapM_pair hmap
  have hlen : (nbrs g x).length = (g.vtx x).edgelist.length :=
    mapM_ok_length hmap
  obtain ⟨e, hfind, _⟩ := find_zip_mem p hlen hp
  refine ⟨e, ?_, ?_⟩
  · unfold Graph.edgeto
    show (g.incidencesM x) >>= _ = _
    unfold Graph.incidencesM
    rw [hinc]
    show (match ((nbrs g x).zip (g.vtx x).edgelist).find?
        (fun q => q.1 = p) with
      | some q => (Except.ok q.2 : Except PyErr Eid)
      | none => Except.error (PyErr.valueError "dest is not a neighbour")) = _
    rw [hfind]
  · exact List.mem_of_find?_eq_some hfind

/-- Path reconstruction of the cost searches follows a cost chain: the
accumulated edge costs telescope to the stored cost of the endpoint. -/
theorem reconUCS_chain {g : Graph} {c : Vid → Vid → ℚ}
    {par : List (Vid × Vid)} {f : List (Vid × ℚ)} {S : Vid}
    {ex : List Vid}
    (htot : ∀ u, g.neighboursM u = .ok (nbrs g u))
    (hassoc : ∀ u v e, (v, e) ∈ (nbrs g u).zip (g.vtx u).edgelist →
      (g.edg e).cost = some (c u v))
    (hS0 : qdictGet f S = some 0) :
    ∀ n v, CostChain g c par f S ex v n →
      ∀ q, qdictGet f v = some q →
      ∀ fuel path len, n < fuel →
      ∃ out, reconUCS g S par fuel v (v :: path) len =
          .ok (out, len + q) ∧
        out.length = n + 1 + path.length ∧
        out.head? = some S ∧
        out.getLast? = (v :: path).getLast? := by
  intro n v hchain
  induction hchain with
  | nil =>
    intro q hq fuel path len hfuel
    cases fuel with
    | zero => cases hfuel
    | succ fl =>
      have hq0 : q = 0 := by
        rw [hS0] at hq
        exact ((Option.some.injEq _ _).mp hq).symm
      refine ⟨S :: path, ?_, by simp [Nat.add_comm], rfl, rfl⟩
      show reconUCS g S par (fl + 1) S (S :: path) len = _
      unfold reconUCS
      rw [if_pos rfl, hq0]
      norm_num
  | @cons v2 p n2 qv qp hvS hpar hadj hqv hqp hsum hp hrest ih =>
    intro q hq fuel path len hfuel
    cases fuel with
    | zero => cases hfuel
    | succ fl =>
      obtain ⟨e, hedge, hpair⟩ := edgeto_zip_mem (htot p) hadj
      have hcost : (g.edg e).cost = some (c p v2) := hassoc p v2 e hpair
      obtain ⟨out, hrec, hlen, hhead, hlast⟩ :=
        ih qp hqp fl (v2 :: path) (len + c p v2)
          (Nat.lt_of_succ_lt_succ hfuel)
      refine ⟨out, ?_, ?_, hhead, ?_⟩
      · show reconUCS g S par (fl + 1) v2 (v2 :: path) len = _
        unfold reconUCS
        rw [if_neg hvS, hpar]
        dsimp only
        rw [hedge]
        dsimp only
        rw [hcost]
        dsimp only [addCost]
        rw [hrec]
        have hqval : q = qp + c p v2 := by
          rw [hqv] at hq
          rw [((Option.some.injEq _ _).mp hq).symm, hsum]
        rw [hqval]
        have : len + c p v2 + qp = len + (qp + c p v2) := by ring
        rw [this]
      · rw [hlen]
        simp only [List.length_cons]
        omega
      · rw [hlast]
        rfl

end GS

namespace GS

/-- Full specification of one A* expansion over an incidence list whose
edge costs follow the cost function `c` and whose heuristic values
follow `hf`: the expansion succeeds, the frontier grows by a block of
fresh neighbours, every listed neighbour ends up queued or explored,
every key is either untouched (in all three maps) or re-keyed to `x`
with cost-to-come `gd[x] + c x k` and selection value
`gd[x] + c x k + hf k`, stored costs-to-come never increase, and every
non-explored listed neighbour ends at or below `gd[x] + c x k`. -/
theorem astExpand_spec (g : Graph) (c : Vid → Vid → ℚ) (hf : Vid → ℚ)
    (x goal : Vid) (expl : List Vid) :
    ∀ (inc : List (Vid × Eid)) (fr : List Vid) (par : List (Vid × Vid))
      (gd f : List (Vid × ℚ)) (qgx : ℚ),
      qdictGet gd x = some qgx →
      (∀ pr ∈ inc, (g.edg pr.2).cost = some (c x pr.1)) →
      (∀ pr ∈ inc, pr.1 ≠ x) →
      (∀ pr ∈ inc, g.heuristic_distance pr.1 goal = .ok (hf pr.1)) →
      (∀ k, (qdictGet gd k).isSome = true → k ∈ fr ∨ k ∈ expl ∨ k = x) →
      (∀ v ∈ fr, (qdictGet gd v).isSome = true) →
      (∀ v ∈ fr, v ∉ expl) →
      ∃ fr2 par2 gd2 f2 added,
        astExpand g x goal expl inc fr par gd f =
          .ok (fr2, par2, gd2, f2) ∧
        fr2 = fr ++ added ∧
        added.Nodup ∧
        (∀ a ∈ added, a ∉ fr ∧ a ∉ expl ∧ ∃ pr ∈ inc, pr.1 = a) ∧
        (∀ pr ∈ inc, pr.1 ∈ fr2 ∨ pr.1 ∈ expl) ∧
        (∀ k, (qdictGet gd2 k = qdictGet gd k ∧
            qdictGet f2 k = qdictGet f k ∧
            pdictGet par2 k = pdictGet par k) ∨
          (k ∉ expl ∧ k ≠ x ∧ (∃ pr ∈ inc, pr.1 = k) ∧
            pdictGet par2 k = some x ∧
            qdictGet gd2 k = some (qgx + c x k) ∧
            qdictGet f2 k = some (qgx + c x k + hf k))) ∧
        (∀ k q, qdictGet gd k = some q →
          ∃ q2, qdictGet gd2 k = some q2 ∧ q2 ≤ q) ∧
        (∀ pr ∈ inc, pr.1 ∉ expl →
          ∃ q2, qdictGet gd2 pr.1 = some q2 ∧ q2 ≤ qgx + c x pr.1) := by
  intro inc
  induction inc with
  | nil =>
    intro fr par gd f qgx hqgx _ _ _ _ _ _
    refine ⟨fr, par, gd, f, [], rfl, (List.append_nil fr).symm,
      List.nodup_nil, ?_, ?_, ?_, ?_, ?_⟩
    · intro a ha; cases ha
    · intro pr hpr; cases hpr
    · intro k; exact Or.inl ⟨rfl, rfl, rfl⟩
    · intro k q hk; exact ⟨q, hk, le_refl q⟩
    · intro pr hpr; cases hpr
  | cons pr0 rest ih =>
    obtain ⟨n, e⟩ := pr0
    intro fr par gd f qgx hqgx hassoc hne hheur hdom htot hfrex
    have hcost_h : (g.edg e).cost = some (c x n) :=
      hassoc (n, e) (List.mem_cons_self _ _)
    have hne_h : n ≠ x := hne (n, e) (List.mem_cons_self _ _)
    have hheur_h : g.heuristic_distance n goal = .ok (hf n) :=
      hheur (n, e) (List.mem_cons_self _ _)
    have hgM : qdictGetM gd x = .ok qgx := by
      unfold qdictGetM; rw [hqgx]
    rw [astExpand_cons]
    by_cases hnew : n ∉ fr ∧ n ∉ expl
    · rw [if_pos hnew]
      rw [hgM]
      simp only [exbind_ok]
      rw [hcost_h]
      dsimp only [addCost]
      simp only [exbind_ok]
      rw [hheur_h]
      simp only [exbind_ok]
      have hqgx2 : qdictGet (qdictSet gd n (qgx + c x n)) x = some qgx := by
        rw [qdictGet_set_ne gd n _ x (Ne.symm hne_h)]; exact hqgx
      have hdom2 : ∀ k,
          (qdictGet (qdictSet gd n (qgx + c x n)) k).isSome = true →
          k ∈ fr ++ [n] ∨ k ∈ expl ∨ k = x := by
        intro k hk
        by_cases hkn : k = n
        · exact Or.inl (by
            rw [hkn]
            exact List.mem_append_right _ (List.mem_singleton_self n))
        · rw [qdictGet_set_ne gd n _ k hkn] at hk
          rcases hdom k hk with h1 | h1
          · exact Or.inl (List.mem_append_left _ h1)
          · exact Or.inr h1
      have htot2 : ∀ v ∈ fr ++ [n],
          (qdictGet (qdictSet gd n (qgx + c x n)) v).isSome = true := by
        intro v hv
        rcases List.mem_append.mp hv with h1 | h1
        · exact qdictGet_set_isSome gd n _ v (htot v h1)
        · rw [List.mem_singleton] at h1
          rw [h1, qdictGet_set_self]
          rfl
      have hfrex2 : ∀ v ∈ fr ++ [n], v ∉ expl := by
        intro v hv
        rcases List.mem_append.mp hv with h1 | h1
        · exact hfrex v h1
        · rw [List.mem_singleton] at h1
          exact h1 ▸ hnew.2
      obtain ⟨fr2, par2, gd2, f2, added, heq, hfr2, hnd, hmem, hcov,
        htri, hdec, hub⟩ :=
        ih (fr ++ [n]) (pdictSet par n x) (qdictSet gd n (qgx + c x n))
          (qdictSet f n (qgx + c x n + hf n)) qgx hqgx2
          (fun pr hpr => hassoc pr (List.mem_cons_of_mem _ hpr))
          (fun pr hpr => hne pr (List.mem_cons_of_mem _ hpr))
          (fun pr hpr => hheur pr (List.mem_cons_of_mem _ hpr))
          hdom2 htot2 hfrex2
      have hnadd : n ∉ added := by
        intro hc
        exact (hmem n hc).1
          (List.mem_append_right _ (List.mem_singleton_self n))
      refine ⟨fr2, par2, gd2, f2, n :: added, heq, ?_, ?_, ?_, ?_, ?_,
        ?_, ?_⟩
      · rw [hfr2, List.append_assoc]
        rfl
      · exact List.nodup_cons.mpr ⟨hnadd, hnd⟩
      · intro a ha
        rcases List.mem_cons.mp ha with h1 | h1
        · refine ⟨?_, ?_, (n, e), List.mem_cons_self _ _, h1.symm⟩
          · rw [h1]; exact hnew.1
          · rw [h1]; exact hnew.2
        · obtain ⟨h2, h3, pr, hpr, hpr1⟩ := hmem a h1
          exact ⟨fun hc => h2 (List.mem_append_left _ hc), h3,
            pr, List.mem_cons_of_mem _ hpr, hpr1⟩
      · intro pr hpr
        rcases List.mem_cons.mp hpr with h1 | h1
        · subst h1
          exact Or.inl (hfr2 ▸ List.mem_append_left _
            (List.mem_append_right _ (List.mem_singleton_self n)))
        · exact hcov pr h1
      · intro k
        by_cases hkn : k = n
        · subst hkn
          rcases htri k with ⟨hg2, hf2, hp2⟩ | ⟨h1, h2, ⟨pr, hpr, hpr1⟩, h4, h5, h6⟩
          · refine Or.inr ⟨hnew.2, hne_h,
              ⟨(k, e), List.mem_cons_self _ _, rfl⟩, ?_, ?_, ?_⟩
            · rw [hp2, pdictGet_set_self]
            · rw [hg2, qdictGet_set_self]
            · rw [hf2, qdictGet_set_self]
          · exact Or.inr ⟨h1, h2, ⟨pr, List.mem_cons_of_mem _ hpr, hpr1⟩,
              h4, h5, h6⟩
        · rcases htri k with ⟨hg2, hf2, hp2⟩ | ⟨h1, h2, ⟨pr, hpr, hpr1⟩, h4, h5, h6⟩
          · refine Or.inl ⟨?_, ?_, ?_⟩
            · rw [hg2, qdictGet_set_ne gd n _ k hkn]
            · rw [hf2, qdictGet_set_ne f n _ k hkn]
            · rw [hp2, pdictGet_set_ne par n x k hkn]
          · exact Or.inr ⟨h1, h2, ⟨pr, List.mem_cons_of_mem _ hpr, hpr1⟩,
              h4, h5, h6⟩
      · intro k q hk
        have hkn : k ≠ n := by
          intro hc
          subst hc
          rcases hdom k (by rw [hk]; rfl) with h1 | h1 | h1
          · exact hnew.1 h1
          · exact hnew.2 h1
          · exact hne_h h1
        exact hdec k q (by rw [qdictGet_set_ne gd n _ k hkn]; exact hk)
      · intro pr hpr hprex
        rcases List.mem_cons.mp hpr with h1 | h1
        · subst h1
          exact hdec n (qgx + c x n) (qdictGet_set_self gd n _)
        · exact hub pr h1 hprex
    · rw [if_neg hnew]
      by_cases hnfr : n ∈ fr
      · rw [if_pos hnfr]
        rw [hgM]
        simp only [exbind_ok]
        rw [hcost_h]
        dsimp only [addCost]
        simp only [exbind_ok]
        obtain ⟨gn, hgn⟩ := Option.isSome_iff_exists.mp (htot n hnfr)
        have hgnM : qdictGetM gd n = .ok gn := by
          unfold qdictGetM; rw [hgn]
        rw [hgnM]
        simp only [exbind_ok]
        by_cases hlt : qgx + c x n < gn
        · rw [if_pos hlt]
          rw [hheur_h]
          simp only [exbind_ok]
          have hqgx2 : qdictGet (qdictSet gd n (qgx + c x n)) x = some qgx := by
            rw [qdictGet_set_ne gd n _ x (Ne.symm hne_h)]; exact hqgx
          have hdom2 : ∀ k,
              (qdictGet (qdictSet gd n (qgx + c x n)) k).isSome = true →
              k ∈ fr ∨ k ∈ expl ∨ k = x := by
            intro k hk
            by_cases hkn : k = n
            · exact Or.inl (hkn ▸ hnfr)
            · rw [qdictGet_set_ne gd n _ k hkn] at hk
              exact hdom k hk
          have htot2 : ∀ v ∈ fr,
              (qdictGet (qdictSet gd n (qgx + c x n)) v).isSome = true :=
            fun v hv => qdictGet_set_isSome gd n _ v (htot v hv)
          obtain ⟨fr2, par2, gd2, f2, added, heq, hfr2, hnd, hmem, hcov,
            htri, hdec, hub⟩ :=
            ih fr (pdictSet par n x) (qdictSet gd n (qgx + c x n))
              (qdictSet f n (qgx + c x n + hf n)) qgx hqgx2
              (fun pr hpr => hassoc pr (List.mem_cons_of_mem _ hpr))
              (fun pr hpr => hne pr (List.mem_cons_of_mem _ hpr))
              (fun pr hpr => hheur pr (List.mem_cons_of_mem _ hpr))
              hdom2 htot2 hfrex
          refine ⟨fr2, par2, gd2, f2, added, heq, hfr2, hnd, ?_, ?_, ?_,
            ?_, ?_⟩
          · intro a ha
            obtain ⟨h2, h3, pr, hpr, hpr1⟩ := hmem a ha
            exact ⟨h2, h3, pr, List.mem_cons_of_mem _ hpr, hpr1⟩
          · intro pr hpr
            rcases List.mem_cons.mp hpr with h1 | h1
            · subst h1
              exact Or.inl (hfr2 ▸ List.mem_append_left _ hnfr)
            · exact hcov pr h1
          · intro k
            by_cases hkn : k = n
            · subst hkn
              rcases htri k with ⟨hg2, hf2, hp2⟩ | ⟨h1, h2, ⟨pr, hpr, hpr1⟩, h4, h5, h6⟩
              · refine Or.inr ⟨hfrex k hnfr, hne_h,
                  ⟨(k, e), List.mem_cons_self _ _, rfl⟩, ?_, ?_, ?_⟩
                · rw [hp2, pdictGet_set_self]
                · rw [hg2, qdictGet_set_self]
                · rw [hf2, qdictGet_set_self]
              · exact Or.inr ⟨h1, h2,
                  ⟨pr, List.mem_cons_of_mem _ hpr, hpr1⟩, h4, h5, h6⟩
            · rcases htri k with ⟨hg2, hf2, hp2⟩ | ⟨h1, h2, ⟨pr, hpr, hpr1⟩, h4, h5, h6⟩
              · refine Or.inl ⟨?_, ?_, ?_⟩
                · rw [hg2, qdictGet_set_ne gd n _ k hkn]
                · rw [hf2, qdictGet_set_ne f n _ k hkn]
                · rw [hp2, pdictGet_set_ne par n x k hkn]
              · exact Or.inr ⟨h1, h2,
                  ⟨pr, List.mem_cons_of_mem _ hpr, hpr1⟩, h4, h5, h6⟩
          · intro k q hk
            by_cases hkn : k = n
            · subst hkn
              have hqgn : q = gn := by
                rw [hk] at hgn
                exact ((Option.some.injEq _ _).mp hgn)
              obtain ⟨q2, hq2, hle⟩ :=
                hdec k (qgx + c x k) (qdictGet_set_self gd k _)
              exact ⟨q2, hq2, le_trans hle (hqgn ▸ le_of_lt hlt)⟩
            · exact hdec k q
                (by rw [qdictGet_set_ne gd n _ k hkn]; exact hk)
          · intro pr hpr hprex
            rcases List.mem_cons.mp hpr with h1 | h1
            · subst h1
              exact hdec n (qgx + c x n) (qdictGet_set_self gd n _)
            · exact hub pr h1 hprex
        · rw [if_neg hlt]
          obtain ⟨fr2, par2, gd2, f2, added, heq, hfr2, hnd, hmem, hcov,
            htri, hdec, hub⟩ :=
            ih fr par gd f qgx hqgx
              (fun pr hpr => hassoc pr (List.mem_cons_of_mem _ hpr))
              (fun pr hpr => hne pr (List.mem_cons_of_mem _ hpr))
              (fun pr hpr => hheur pr (List.mem_cons_of_mem _ hpr))
              hdom htot hfrex
          refine ⟨fr2, par2, gd2, f2, added, heq, hfr2, hnd, ?_, ?_, ?_,
            hdec, ?_⟩
          · intro a ha
            obtain ⟨h2, h3, pr, hpr, hpr1⟩ := hmem a ha
            exact ⟨h2, h3, pr, List.mem_cons_of_mem _ hpr, hpr1⟩
          · intro pr hpr
            rcases List.mem_cons.mp hpr with h1 | h1
            · subst h1
              exact Or.inl (hfr2 ▸ List.mem_append_left _ hnfr)
            · exact hcov pr h1
          · intro k
            rcases htri k with h | ⟨h1, h2, ⟨pr, hpr, hpr1⟩, h4, h5, h6⟩
            · exact Or.inl h
            · exact Or.inr ⟨h1, h2,
                ⟨pr, List.mem_cons_of_mem _ hpr, hpr1⟩, h4, h5, h6⟩
          · intro pr hpr hprex
            rcases List.mem_cons.mp hpr with h1 | h1
            · subst h1
              obtain ⟨q2, hq2, hle⟩ := hdec n gn hgn
              exact ⟨q2, hq2, le_trans hle (not_lt.mp hlt)⟩
            · exact hub pr h1 hprex
      · rw [if_neg hnfr]
        have hnex : n ∈ expl := by
          rcases not_and_or.mp hnew with h1 | h1
          · exact absurd (not_not.mp h1) hnfr
          · exact not_not.mp h1
        obtain ⟨fr2, par2, gd2, f2, added, heq, hfr2, hnd, hmem, hcov,
          htri, hdec, hub⟩ :=
          ih fr par gd f qgx hqgx
            (fun pr hpr => hassoc pr (List.mem_cons_of_mem _ hpr))
            (fun pr hpr => hne pr (List.mem_cons_of_mem _ hpr))
            (fun pr hpr => hheur pr (List.mem_cons_of_mem _ hpr))
            hdom htot hfrex
        refine ⟨fr2, par2, gd2, f2, added, heq, hfr2, hnd, ?_, ?_, ?_,
          hdec, ?_⟩
        · intro a ha
          obtain ⟨h2, h3, pr, hpr, hpr1⟩ := hmem a ha
          exact ⟨h2, h3, pr, List.mem_cons_of_mem _ hpr, hpr1⟩
        · intro pr hpr
          rcases List.mem_cons.mp hpr with h1 | h1
          · subst h1
            exact Or.inr hnex
          · exact hcov pr h1
        · intro k
          rcases htri k with h | ⟨h1, h2, ⟨pr, hpr, hpr1⟩, h4, h5, h6⟩
          · exact Or.inl h
          · exact Or.inr ⟨h1, h2,
              ⟨pr, List.mem_cons_of_mem _ hpr, hpr1⟩, h4, h5, h6⟩
        · intro pr hpr hprex
          rcases List.mem_cons.mp hpr with h1 | h1
          · subst h1
            exact absurd hnex hprex
          · exact hub pr h1 hprex

end GS

namespace GS

/-- One non-final iteration of the A* loop: expanding the popped
frontier vertex of minimal selection value succeeds and preserves the
invariant, with `x` joining the settled set. -/
theorem astInv_step {g : Graph} {c : Vid → Vid → ℚ} {hf : Vid → ℚ}
    {S G : Vid} (wf : BfsWF g)
    (hassoc : ∀ u v e, (v, e) ∈ (nbrs g u).zip (g.vtx u).edgelist →
      (g.edg e).cost = some (c u v))
    (hnn : ∀ u v, 0 ≤ c u v)
    (hcons : ∀ u v, v ∈ nbrs g u → hf u ≤ c u v + hf v)
    (hheur : ∀ v, v < g.vertices.size →
      g.heuristic_distance v G = .ok (hf v))
    {st : AstSt} (hinv : AstInv g c hf S G st) {x : Vid}
    (hx : x ∈ st.frontier) (hxG : x ≠ G)
    (hmin : ∀ y ∈ st.frontier,
      (qdictGet st.f x).getD 0 ≤ (qdictGet st.f y).getD 0)
    {fr' : List Vid} (hperm : (x :: fr').Perm st.frontier) :
    ∃ fr2 par2 gd2 f2,
      astExpand g x G st.explored ((nbrs g x).zip (g.vtx x).edgelist)
        fr' st.parent st.gd st.f = .ok (fr2, par2, gd2, f2) ∧
      AstInv g c hf S G ⟨fr2, st.explored ++ [x], par2, gd2, f2⟩ := by
  classical
  obtain ⟨qgx, hqgx⟩ := Option.isSome_iff_exists.mp
    (hinv.gdTotal x (List.mem_append_right _ hx))
  have hfst : ∀ pr ∈ (nbrs g x).zip (g.vtx x).edgelist,
      pr.1 ∈ nbrs g x := by
    intro pr hpr
    have : pr.1 ∈ ((nbrs g x).zip (g.vtx x).edgelist).map Prod.fst :=
      List.mem_map_of_mem Prod.fst hpr
    rw [zip_fst_eq_nbrs (wf.total x)] at this
    exact this
  have hnbr_pr : ∀ v ∈ nbrs g x,
      ∃ pr ∈ (nbrs g x).zip (g.vtx x).edgelist, pr.1 = v := by
    intro v hv
    rw [← zip_fst_eq_nbrs (wf.total x)] at hv
    obtain ⟨pr, hpr, hpr1⟩ := List.mem_map.mp hv
    exact ⟨pr, hpr, hpr1⟩
  have hmemfr : ∀ v, v ∈ st.frontier ↔ v = x ∨ v ∈ fr' := by
    intro v
    rw [← hperm.mem_iff, List.mem_cons]
  have hfrdisj : ∀ v ∈ st.frontier, v ∉ st.explored := by
    intro v hv hc
    have := (List.nodup_append.mp hinv.nodup).2.2
    exact List.disjoint_left.mp this hc hv
  have hxex : x ∉ st.explored := hfrdisj x hx
  obtain ⟨fr2, par2, gd2, f2, added, heq, hfr2, hnd, hmem, hcov, htri,
    hdec, hub⟩ :=
    astExpand_spec g c hf x G st.explored
      ((nbrs g x).zip (g.vtx x).edgelist) fr' st.parent st.gd st.f qgx
      hqgx
      (fun pr hpr => hassoc x pr.1 pr.2 (by rwa [Prod.mk.eta]))
      (fun pr hpr hc => by
        have h2 := hfst pr hpr
        rw [hc] at h2
        exact wf.irrefl x h2)
      (fun pr hpr => hheur pr.1 (wf.bounded x pr.1 (hfst pr hpr)))
      (fun k hk => by
        have := hinv.gdDom k hk
        rcases List.mem_append.mp this with h1 | h1
        · exact Or.inr (Or.inl h1)
        · rcases (hmemfr k).mp h1 with h2 | h2
          · exact Or.inr (Or.inr h2)
          · exact Or.inl h2)
      (fun v hv => hinv.gdTotal v
        (List.mem_append_right _ ((hmemfr v).mpr (Or.inr hv))))
      (fun v hv => hfrdisj v ((hmemfr v).mpr (Or.inr hv)))
  refine ⟨fr2, par2, gd2, f2, heq, ?_⟩
  have hxuntouched : qdictGet gd2 x = qdictGet st.gd x ∧
      qdictGet f2 x = qdictGet st.f x ∧
      pdictGet par2 x = pdictGet st.parent x := by
    rcases htri x with h | ⟨_, h2, _, _, _⟩
    · exact h
    · exact absurd rfl h2
  have hexuntouched : ∀ u ∈ st.explored,
      qdictGet gd2 u = qdictGet st.gd u ∧
      qdictGet f2 u = qdictGet st.f u ∧
      pdictGet par2 u = pdictGet st.parent u := by
    intro u hu
    rcases htri u with h | ⟨h1, _, _, _, _⟩
    · exact h
    · exact absurd hu h1
  have hexuntouchedGP : ∀ u ∈ st.explored,
      qdictGet gd2 u = qdictGet st.gd u ∧
      pdictGet par2 u = pdictGet st.parent u :=
    fun u hu => ⟨(hexuntouched u hu).1, (hexuntouched u hu).2.2⟩
  have haddne : ∀ a ∈ added, a ≠ x := by
    intro a ha hc
    obtain ⟨_, _, pr, hpr, hpr1⟩ := hmem a ha
    have h2 := hfst pr hpr
    rw [hpr1, hc] at h2
    exact wf.irrefl x h2
  have haddnbr : ∀ a ∈ added, a ∈ nbrs g x := by
    intro a ha
    obtain ⟨_, _, pr, hpr, hpr1⟩ := hmem a ha
    have h2 := hfst pr hpr
    rw [hpr1] at h2
    exact h2
  have haddseen : ∀ a ∈ added, a ∉ st.explored ++ st.frontier := by
    intro a ha hc
    obtain ⟨h1, h2, _⟩ := hmem a ha
    rcases List.mem_append.mp hc with h3 | h3
    · exact h2 h3
    · rcases (hmemfr a).mp h3 with h4 | h4
      · exact haddne a ha h4
      · exact h1 h4
  have hcase2add : ∀ a ∈ added, pdictGet par2 a = some x ∧
      qdictGet gd2 a = some (qgx + c x a) ∧
      qdictGet f2 a = some (qgx + c x a + hf a) := by
    intro a ha
    rcases htri a with ⟨h1, _, _⟩ | ⟨_, _, _, h4, h5, h6⟩
    · exfalso
      obtain ⟨_, hanex, pr, hpr, hpr1⟩ := hmem a ha
      obtain ⟨q2, hq2, _⟩ := hub pr hpr (by rw [hpr1]; exact hanex)
      rw [hpr1] at hq2
      rw [h1] at hq2
      exact haddseen a ha (hinv.gdDom a (by rw [hq2]; rfl))
    · exact ⟨h4, h5, h6⟩
  have hmemL2 : ∀ v, v ∈ (st.explored ++ [x]) ++ fr2 ↔
      v ∈ st.explored ++ st.frontier ∨ v ∈ added := by
    intro v
    rw [hfr2]
    constructor
    · intro hv
      rcases List.mem_append.mp hv with h1 | h1
      · rcases List.mem_append.mp h1 with h2 | h2
        · exact Or.inl (List.mem_append_left _ h2)
        · rw [List.mem_singleton] at h2
          exact Or.inl (List.mem_append_right _ (h2 ▸ hx))
      · rcases List.mem_append.mp h1 with h2 | h2
        · exact Or.inl (List.mem_append_right _ ((hmemfr v).mpr (Or.inr h2)))
        · exact Or.inr h2
    · intro hv
      rcases hv with h1 | h1
      · rcases List.mem_append.mp h1 with h2 | h2
        · exact List.mem_append_left _ (List.mem_append_left _ h2)
        · rcases (hmemfr v).mp h2 with h3 | h3
          · exact List.mem_append_left _ (List.mem_append_right _
              (by rw [List.mem_singleton]; exact h3))
          · exact List.mem_append_right _ (List.mem_append_left _ h3)
      · exact List.mem_append_right _ (List.mem_append_right _ h1)
  have hxwalk : CostWalk g c S x qgx := hinv.frontierUB x hx qgx hqgx
  have hxminw : ∀ w, CostWalk g c S x w → qgx ≤ w := by
    refine ast_pop_min hnn hcons hinv hx ?_ qgx hqgx
    intro y hy fx fy hfx hfy
    have h0 := hmin y hy
    rw [hfx, hfy] at h0
    simpa using h0
  have hSnotadd : S ∉ added := by
    intro hc
    rcases hinv.startStrong with h1 | h1
    · exact (hmem S hc).2.1 h1
    · have hxS : x = S := by
        have h2 : st.frontier = [S] := by rw [h1]
        rw [h2, List.mem_singleton] at hx
        exact hx
      exact haddne S hc hxS.symm
  have haddneS : ∀ a ∈ added, a ≠ S :=
    fun a ha hc => hSnotadd (hc ▸ ha)
  have hfr2neS : ∀ v ∈ fr', v ≠ x → pdictGet par2 v = some x →
      v ≠ S := by
    intro v hv hvx hpv hc
    rcases hinv.startStrong with h1 | h1
    · exact hfrdisj v ((hmemfr v).mpr (Or.inr hv)) (hc ▸ h1)
    · have hxS : x = S := by
        have h2 : st.frontier = [S] := by rw [h1]
        rw [h2, List.mem_singleton] at hx
        exact hx
      exact hvx (hc.trans hxS.symm)
  have hnodup2 : (st.explored ++ x :: fr').Nodup :=
    (List.Perm.nodup_iff (List.Perm.append_left st.explored hperm)).mpr
      hinv.nodup
  have hxfr' : x ∉ fr' :=
    (List.nodup_cons.mp (List.nodup_append.mp hnodup2).2.1).1
  have hfr'nd : fr'.Nodup :=
    (List.nodup_cons.mp (List.nodup_append.mp hnodup2).2.1).2
  have hexdisj2 : ∀ v ∈ st.explored, v ∉ x :: fr' := by
    intro v hv
    exact List.disjoint_left.mp (List.nodup_append.mp hnodup2).2.2 hv
  refine ⟨?_, ?_, ?_, ?_, ?_, ?_, ?_, ?_, ?_, ?_, ?_, ?_, ?_, ?_, ?_⟩
  · -- nodup
    show ((st.explored ++ [x]) ++ fr2).Nodup
    rw [hfr2]
    apply List.nodup_append.mpr
    refine ⟨?_, ?_, ?_⟩
    · apply List.nodup_append.mpr
      refine ⟨(List.nodup_append.mp hnodup2).1, List.nodup_singleton x, ?_⟩
      intro v hv
      simp only [List.mem_singleton]
      intro hc
      exact hexdisj2 v hv (hc ▸ List.mem_cons_self x fr')
    · apply List.nodup_append.mpr
      refine ⟨hfr'nd, hnd, ?_⟩
      intro v hv hc
      exact (hmem v hc).1 hv
    · intro v hv
      rcases List.mem_append.mp hv with h1 | h1
      · intro hc
        rcases List.mem_append.mp hc with h2 | h2
        · exact hexdisj2 v h1 (List.mem_cons_of_mem x h2)
        · exact (hmem v h2).2.1 h1
      · rw [List.mem_singleton] at h1
        subst h1
        intro hc
        rcases List.mem_append.mp hc with h2 | h2
        · exact hxfr' h2
        · exact haddne v h2 rfl
  · -- bound
    intro v hv
    rcases (hmemL2 v).mp hv with h1 | h1
    · exact hinv.bound v h1
    · exact wf.bounded x v (haddnbr v h1)
  · -- startStrong
    refine Or.inl ?_
    rcases hinv.startStrong with h1 | h1
    · exact List.mem_append_left _ h1
    · have hxS : x = S := by
        have h2 : st.frontier = [S] := by rw [h1]
        rw [h2, List.mem_singleton] at hx
        exact hx
      exact List.mem_append_right _
        (by rw [List.mem_singleton]; exact hxS.symm)
  · -- goalEx
    intro hc
    rcases List.mem_append.mp hc with h1 | h1
    · exact hinv.goalEx h1
    · rw [List.mem_singleton] at h1
      exact hxG h1.symm
  · -- gS
    show qdictGet gd2 S = some 0
    by_cases hSx : S = x
    · rw [hSx, hxuntouched.1, ← hSx]
      exact hinv.gS
    · have hSex : S ∈ st.explored := by
        rcases hinv.startStrong with h1 | h1
        · exact h1
        · exfalso
          apply hSx
          have h2 : st.frontier = [S] := by rw [h1]
          rw [h2, List.mem_singleton] at hx
          exact hx.symm
      rw [(hexuntouched S hSex).1]
      exact hinv.gS
  · -- parDom
    intro k hk
    rcases htri k with ⟨_, _, h2⟩ | ⟨h1, _, ⟨pr, hpr, hpr1⟩, _, _, _⟩
    · rw [h2] at hk
      exact (hmemL2 k).mpr (Or.inl (hinv.parDom k hk))
    · rcases hcov pr hpr with h3 | h3
      · exact List.mem_append_right _ (hpr1 ▸ h3)
      · exact absurd (hpr1 ▸ h3) h1
  · -- gdDom
    intro k hk
    rcases htri k with ⟨h2, _, _⟩ | ⟨h1, _, ⟨pr, hpr, hpr1⟩, _, _, _⟩
    · rw [h2] at hk
      exact (hmemL2 k).mpr (Or.inl (hinv.gdDom k hk))
    · rcases hcov pr hpr with h3 | h3
      · exact List.mem_append_right _ (hpr1 ▸ h3)
      · exact absurd (hpr1 ▸ h3) h1
  · -- gdTotal
    intro v hv
    rcases (hmemL2 v).mp hv with h1 | h1
    · rcases List.mem_append.mp h1 with h2 | h2
      · rw [(hexuntouched v h2).1]
        exact hinv.gdTotal v h1
      · rcases (hmemfr v).mp h2 with h3 | h3
        · rw [h3, hxuntouched.1]
          exact hinv.gdTotal x (List.mem_append_right _ hx)
        · obtain ⟨q, hq⟩ := Option.isSome_iff_exists.mp (hinv.gdTotal v h1)
          obtain ⟨q2, hq2, _⟩ := hdec v q hq
          rw [hq2]
          rfl
    · rw [(hcase2add v h1).2.1]
      rfl
  · -- fTotal
    intro v hv
    dsimp only at hv
    rw [hfr2] at hv
    rcases List.mem_append.mp hv with h1 | h1
    · rcases htri v with ⟨_, h2, _⟩ | ⟨_, _, _, _, _, h6⟩
      · rw [h2]
        exact hinv.fTotal v ((hmemfr v).mpr (Or.inr h1))
      · rw [h6]
        rfl
    · rw [(hcase2add v h1).2.2]
      rfl
  · -- fEq
    intro v hv hvS qg hqg
    dsimp only at hv hqg ⊢
    rw [hfr2] at hv
    rcases List.mem_append.mp hv with h1 | h1
    · rcases htri v with ⟨hg2, h2, _⟩ | ⟨_, _, _, _, h5, h6⟩
      · rw [h2]
        rw [hg2] at hqg
        exact hinv.fEq v ((hmemfr v).mpr (Or.inr h1)) hvS qg hqg
      · rw [h5] at hqg
        have : qg = qgx + c x v := ((Option.some.injEq _ _).mp hqg).symm
        rw [h6, this]
    · rw [(hcase2add v h1).2.1] at hqg
      have : qg = qgx + c x v := ((Option.some.injEq _ _).mp hqg).symm
      rw [(hcase2add v h1).2.2, this]
  · -- settled
    intro v hv q hq
    rcases List.mem_append.mp hv with h1 | h1
    · rw [(hexuntouched v h1).1] at hq
      exact hinv.settled v h1 q hq
    · rw [List.mem_singleton] at h1
      subst h1
      rw [hxuntouched.1, hqgx] at hq
      have hqqx : q = qgx := ((Option.some.injEq _ _).mp hq).symm
      rw [hqqx]
      exact ⟨hxwalk, hxminw⟩
  · -- frontierUB
    intro v hv q hq
    dsimp only at hv hq
    rw [hfr2] at hv
    rcases List.mem_append.mp hv with h1 | h1
    · rcases htri v with ⟨h2, _, _⟩ | ⟨_, _, ⟨pr, hpr, hpr1⟩, _, h5, _⟩
      · rw [h2] at hq
        exact hinv.frontierUB v ((hmemfr v).mpr (Or.inr h1)) q hq
      · rw [h5] at hq
        have : q = qgx + c x v := ((Option.some.injEq _ _).mp hq).symm
        rw [this]
        refine hxwalk.cons ?_
        have h2 := hfst pr hpr
        rw [hpr1] at h2
        exact h2
    · rw [(hcase2add v h1).2.1] at hq
      have : q = qgx + c x v := ((Option.some.injEq _ _).mp hq).symm
      rw [this]
      exact hxwalk.cons (haddnbr v h1)
  · -- boundaryClosed
    intro u hu v hv
    rcases List.mem_append.mp hu with h1 | h1
    · rcases hinv.boundaryClosed u h1 v hv with h2 | h2
      · exact Or.inl (List.mem_append_left _ h2)
      · rcases (hmemfr v).mp h2 with h3 | h3
        · exact Or.inl (List.mem_append_right _
            (by rw [List.mem_singleton]; exact h3))
        · exact Or.inr (hfr2 ▸ List.mem_append_left _ h3)
    · rw [List.mem_singleton] at h1
      subst h1
      obtain ⟨pr, hpr, hpr1⟩ := hnbr_pr v hv
      rcases hcov pr hpr with h3 | h3
      · exact Or.inr (hpr1 ▸ h3)
      · exact Or.inl (List.mem_append_left _ (hpr1 ▸ h3))
  · -- boundaryLe
    intro u hu v hv hvfr qu qv hqu hqv
    dsimp only at hu hvfr hqu hqv
    rw [hfr2] at hvfr
    rcases List.mem_append.mp hu with h1 | h1
    · rw [(hexuntouched u h1).1] at hqu
      rcases List.mem_append.mp hvfr with h2 | h2
      · obtain ⟨qv0, hqv0⟩ := Option.isSome_iff_exists.mp
          (hinv.gdTotal v (List.mem_append_right _
            ((hmemfr v).mpr (Or.inr h2))))
        obtain ⟨q2, hq2, hle⟩ := hdec v qv0 hqv0
        rw [hq2] at hqv
        have hq2v : qv = q2 := ((Option.some.injEq _ _).mp hqv).symm
        have hold := hinv.boundaryLe u h1 v hv
          ((hmemfr v).mpr (Or.inr h2)) qu qv0 hqu hqv0
        rw [hq2v]
        exact le_trans hle hold
      · exfalso
        rcases hinv.boundaryClosed u h1 v hv with h3 | h3
        · exact haddseen v h2 (List.mem_append_left _ h3)
        · exact haddseen v h2 (List.mem_append_right _ h3)
    · rw [List.mem_singleton] at h1
      subst h1
      rw [hxuntouched.1, hqgx] at hqu
      have hquqx : qu = qgx := ((Option.some.injEq _ _).mp hqu).symm
      obtain ⟨pr, hpr, hpr1⟩ := hnbr_pr v hv
      have hvnex : v ∉ st.explored := by
        rcases List.mem_append.mp hvfr with h2 | h2
        · exact hfrdisj v ((hmemfr v).mpr (Or.inr h2))
        · exact (hmem v h2).2.1
      obtain ⟨q2, hq2, hle⟩ := hub pr hpr (hpr1 ▸ hvnex)
      rw [hpr1] at hq2 hle
      rw [hq2] at hqv
      have : qv = q2 := ((Option.some.injEq _ _).mp hqv).symm
      rw [this, hquqx]
      exact hle
  · -- chains
    intro v hv
    have hsub : ∀ u ∈ st.explored, u ∈ st.explored ++ [x] :=
      fun u hu => List.mem_append_left _ hu
    have hexlen : (st.explored ++ [x]).length = st.explored.length + 1 := by
      rw [List.length_append, List.length_singleton]
    have hxuGP : qdictGet gd2 x = qdictGet st.gd x ∧
        pdictGet par2 x = pdictGet st.parent x :=
      ⟨hxuntouched.1, hxuntouched.2.2⟩
    have hxchain : ∃ n, n ≤ st.explored.length ∧
        CostChain g c par2 gd2 S (st.explored ++ [x]) x n := by
      obtain ⟨n, hn, hch⟩ := hinv.chains x (List.mem_append_right _ hx)
      exact ⟨n, hn, hch.preserve hsub hexuntouchedGP hxuGP⟩
    rcases (hmemL2 v).mp hv with h1 | h1
    · rcases List.mem_append.mp h1 with h2 | h2
      · obtain ⟨n, hn, hch⟩ := hinv.chains v h1
        refine ⟨n, by rw [hexlen]; omega,
          hch.preserve hsub hexuntouchedGP (hexuntouchedGP v h2)⟩
      · rcases (hmemfr v).mp h2 with h3 | h3
        · subst h3
          obtain ⟨n, hn, hch⟩ := hxchain
          exact ⟨n, by rw [hexlen]; omega, hch⟩
        · rcases htri v with hun | ⟨hnex, hnx, ⟨pr, hpr, hpr1⟩, h4, h5, _⟩
          · obtain ⟨n, hn, hch⟩ := hinv.chains v h1
            exact ⟨n, by rw [hexlen]; omega,
              hch.preserve hsub hexuntouchedGP ⟨hun.1, hun.2.2⟩⟩
          · obtain ⟨n, hn, hch⟩ := hxchain
            refine ⟨n + 1, by rw [hexlen]; omega, ?_⟩
            refine CostChain.cons (hfr2neS v h3 hnx h4) h4
              ?_ h5 ?_ rfl
              (List.mem_append_right _ (List.mem_singleton_self x)) hch
            · have h2b := hfst pr hpr
              rw [hpr1] at h2b
              exact h2b
            · rw [hxuntouched.1]
              exact hqgx
    · obtain ⟨n, hn, hch⟩ := hxchain
      refine ⟨n + 1, by rw [hexlen]; omega, ?_⟩
      refine CostChain.cons (haddneS v h1) (hcase2add v h1).1
        (haddnbr v h1) (hcase2add v h1).2.1 ?_ rfl
        (List.mem_append_right _ (List.mem_singleton_self x)) hch
      rw [hxuntouched.1]
      exact hqgx

end GS

namespace GS

/-- The A* loop, started in an invariant state with the goal reachable,
terminates by popping the goal, whose stored cost-to-come is the
minimal walk cost, and whose parent chain reaches back to the start. -/
theorem astLoop_reaches {g : Graph} {c : Vid → Vid → ℚ} {hf : Vid → ℚ}
    {S G : Vid} (wf : BfsWF g)
    (hassoc : ∀ u v e, (v, e) ∈ (nbrs g u).zip (g.vtx u).edgelist →
      (g.edg e).cost = some (c u v))
    (hnn : ∀ u v, 0 ≤ c u v)
    (hcons : ∀ u v, v ∈ nbrs g u → hf u ≤ c u v + hf v)
    (hheur : ∀ v, v < g.vertices.size →
      g.heuristic_distance v G = .ok (hf v))
    {w0 : ℚ} (hreach : CostWalk g c S G w0) :
    ∀ fuel st, AstInv g c hf S G st →
      g.vertices.size + 1 ≤ fuel + st.explored.length →
      ∃ stF q n, astLoop g G fuel st = .ok (some stF) ∧
        qdictGet stF.gd G = some q ∧
        CostWalk g c S G q ∧ (∀ w, CostWalk g c S G w → q ≤ w) ∧
        n ≤ g.vertices.size ∧
        qdictGet stF.gd S = some 0 ∧
        CostChain g c stF.parent stF.gd S stF.explored G n := by
  intro fuel
  induction fuel with
  | zero =>
    intro st hinv hcount
    exfalso
    have hexnd : st.explored.Nodup := (List.nodup_append.mp hinv.nodup).1
    have hexb : ∀ v ∈ st.explored, v < g.vertices.size :=
      fun v hv => hinv.bound v (List.mem_append_left _ hv)
    have := nodup_bounded_length st.explored g.vertices.size hexnd hexb
    omega
  | succ fl ihf =>
    intro st hinv hcount
    rcases hfrc : st.frontier with _ | ⟨a, rest⟩
    · exfalso
      rcases costWalk_boundary st.explored hreach hinv.goalEx with
        ⟨hS, _, _, _⟩ | ⟨u, y, _, _, hu, hyadj, hy, _, _, _⟩
      · rcases hinv.startStrong with h1 | h1
        · exact hS h1
        · have h2 : st.frontier = [S] := by rw [h1]
          rw [hfrc] at h2
          cases h2
      · rcases hinv.boundaryClosed u hu y hyadj with h2 | h2
        · exact hy h2
        · rw [hfrc] at h2
          cases h2
    · have htotfr : ∀ v ∈ st.frontier, (qdictGet st.f v).isSome = true :=
        fun v hv => hinv.fTotal v hv
      have hvals : st.frontier.mapM (qdictGetM st.f) =
          .ok (st.frontier.map (fun v => (qdictGet st.f v).getD 0)) :=
        mapM_qdictGetM st.f st.frontier htotfr
      have hmapc : st.frontier.map (fun v => (qdictGet st.f v).getD 0) =
          ((qdictGet st.f a).getD 0) ::
            rest.map (fun v => (qdictGet st.f v).getD 0) := by
        rw [hfrc]
        rfl
      have hargmin := listArgmin_spec ((qdictGet st.f a).getD 0)
        (rest.map (fun v => (qdictGet st.f v).getD 0))
      rw [← hmapc] at hargmin
      have hilen :
          listArgmin (st.frontier.map (fun v => (qdictGet st.f v).getD 0)) <
            st.frontier.length := by
        have := hargmin.1
        rw [List.length_map] at this
        exact this
      set i := listArgmin (st.frontier.map (fun v => (qdictGet st.f v).getD 0))
        with hidef
      set x := st.frontier.getD i 0 with hxdef
      have hxmem : x ∈ st.frontier := getD_mem st.frontier i 0 hilen
      have hfvx : (st.frontier.map (fun v => (qdictGet st.f v).getD 0)).getD
          i 0 = (qdictGet st.f x).getD 0 :=
        getD_map_lt _ st.frontier i hilen
      have hminx : ∀ y ∈ st.frontier,
          (qdictGet st.f x).getD 0 ≤ (qdictGet st.f y).getD 0 := by
        intro y hy
        have h1 := hargmin.2 ((qdictGet st.f y).getD 0)
          (List.mem_map_of_mem _ hy)
        rw [hfvx] at h1
        exact h1
      have hperm : (x :: st.frontier.eraseIdx i).Perm st.frontier := by
        have h1 := perm_argpop st.frontier i hilen
        have h2 : st.frontier.get ⟨i, hilen⟩ = x := by
          rw [hxdef, List.getD_eq_getElem st.frontier 0 hilen]
          rfl
        rw [h2] at h1
        exact h1
      obtain ⟨qgx, hqgx⟩ := Option.isSome_iff_exists.mp
        (hinv.gdTotal x (List.mem_append_right _ hxmem))
      rw [astLoop_succ, hfrc]
      dsimp only
      rw [← hfrc, hvals]
      simp only [exbind_ok]
      rw [← hidef, ← hxdef]
      by_cases hxG : x = G
      · rw [if_pos hxG]
        refine ⟨⟨st.frontier.eraseIdx i, st.explored, st.parent, st.gd,
          st.f⟩, qgx, ?_⟩
        obtain ⟨n, hn, hch⟩ := hinv.chains x (List.mem_append_right _ hxmem)
        have hexlen : st.explored.length ≤ g.vertices.size :=
          nodup_bounded_length st.explored g.vertices.size
            (List.nodup_append.mp hinv.nodup).1
            (fun v hv => hinv.bound v (List.mem_append_left _ hv))
        refine ⟨n, rfl, by rw [← hxG]; exact hqgx,
          hxG ▸ hinv.frontierUB x hxmem qgx hqgx, ?_, by omega,
          hinv.gS, ?_⟩
        · intro w hw
          refine ast_pop_min hnn hcons hinv hxmem ?_ qgx hqgx w (hxG ▸ hw)
          intro y hy fx fy hfx hfy
          have h0 := hminx y hy
          rw [hfx, hfy] at h0
          simpa using h0
        · show CostChain g c st.parent st.gd S st.explored G n
          rw [← hxG]
          exact hch
      · rw [if_neg hxG]
        rw [incidencesM_eq_zip (wf.total x)]
        simp only [exbind_ok]
        obtain ⟨fr2, par2, gd2, f2, heq, hinv2⟩ :=
          astInv_step wf hassoc hnn hcons hheur hinv hxmem hxG hminx hperm
        rw [heq]
        simp only [exbind_ok]
        obtain ⟨stF, q, n, hrun, hconc⟩ :=
          ihf ⟨fr2, st.explored ++ [x], par2, gd2, f2⟩ hinv2
            (by simp only [List.length_append, List.length_singleton]; omega)
        exact ⟨stF, q, n, hrun, hconc⟩

end GS

namespace GS

/-- Looking up a different key in a singleton cost dict. -/
theorem qdictGet_single_ne (S k : Vid) (q : ℚ) (h : k ≠ S) :
    qdictGet [(S, q)] k = none := by
  unfold qdictGet
  simp [List.find?, show ¬ (S = k) from fun hc => h hc.symm]

/-- C4 (amended): on a graph whose adjacency is total, symmetric,
self-loop-free and in-bounds, whose edge costs follow a non-negative
cost function, and whose heuristic evaluations follow a consistent
heuristic, `path_UCS` and `path_Astar` between connected vertices both
succeed and return paths of equal, minimal total cost. -/
theorem C4_amended_ucs_astar_optimal (g : Graph) (S G : Vid)
    (c : Vid → Vid → ℚ) (hf : Vid → ℚ) (wf : BfsWF g)
    (hassoc : ∀ u v e, (v, e) ∈ (nbrs g u).zip (g.vtx u).edgelist →
      (g.edg e).cost = some (c u v))
    (hnn : ∀ u v, 0 ≤ c u v) (hS : S < g.vertices.size)
    (hheur : ∀ v, v < g.vertices.size →
      g.heuristic_distance v G = .ok (hf v))
    (hcons : ∀ u v, v ∈ nbrs g u → hf u ≤ c u v + hf v)
    {w0 : ℚ} (hreach : CostWalk g c S G w0) :
    ∃ p q pn p2 pn2,
      g.path_UCS (.inr S) (.inr G) = .ok (some (p, q, pn)) ∧
      g.path_Astar (.inr S) (.inr G) = .ok (some (p2, q, pn2)) ∧
      CostWalk g c S G q ∧
      (∀ w, CostWalk g c S G w → q ≤ w) ∧
      p.head? = some S ∧ p.getLast? = some G ∧
      p2.head? = some S ∧ p2.getLast? = some G := by
  by_cases hSG : S = G
  · subst hSG
    refine ⟨[S], 0, [], [S], [], ?_, ?_, .nil,
      fun w hw => CostWalk.nonneg hnn hw, rfl, rfl, rfl, rfl⟩
    · rw [path_UCS_of_loop]
      rw [show ucsLoop g S (bfsFuel g) ⟨[S], [], [], [(S, 0)]⟩ =
          .ok (some ⟨[], [], [], [(S, 0)]⟩) from
        ucsLoop_self g S (2 * g.vertices.size + 1) [] [] [(S, 0)] 0
          (qdictGet_single_self S 0)]
      dsimp only
      rw [recon_self_UCS]
      rfl
    · rw [path_Astar_of_loop]
      rw [show astLoop g S (bfsFuel g) ⟨[S], [], [], [(S, 0)], [(S, 0)]⟩ =
          .ok (some ⟨[], [], [], [(S, 0)], [(S, 0)]⟩) from
        astLoop_self g S (2 * g.vertices.size + 1) [] [] [(S, 0)] [(S, 0)] 0
          (qdictGet_single_self S 0)]
      dsimp only
      rw [recon_self_UCS]
      rfl
  · have hsingle : ∀ k, (qdictGet [(S, (0 : ℚ))] k).isSome = true →
        k = S := by
      intro k hk
      by_cases h : k = S
      · exact h
      · rw [qdictGet_single_ne S k 0 h] at hk
        cases hk
    have hinvU : UcsInv g c S G ⟨[S], [], [], [(S, 0)]⟩ := by
      refine ⟨?_, ?_, ?_, ?_, ?_, ?_, ?_, ?_, ?_, ?_, ?_, ?_, ?_⟩
      · simp
      · intro v hv
        simp only [List.nil_append, List.mem_singleton] at hv
        exact hv ▸ hS
      · exact Or.inr rfl
      · intro hc; cases hc
      · exact qdictGet_single_self S 0
      · intro k hk
        simp [pdictGet] at hk
      · intro k hk
        simp only [List.nil_append, List.mem_singleton]
        exact hsingle k hk
      · intro v hv
        simp only [List.nil_append, List.mem_singleton] at hv
        rw [hv, qdictGet_single_self]
        rfl
      · intro v hv; cases hv
      · intro v hv q hq
        rw [List.mem_singleton] at hv
        subst hv
        rw [qdictGet_single_self] at hq
        rw [((Option.some.injEq _ _).mp hq).symm]
        exact .nil
      · intro u hu; cases hu
      · intro u hu; cases hu
      · intro v hv
        simp only [List.nil_append, List.mem_singleton] at hv
        subst hv
        exact ⟨0, by simp, .nil⟩
    have hinvA : AstInv g c hf S G ⟨[S], [], [], [(S, 0)], [(S, 0)]⟩ := by
      refine ⟨?_, ?_, ?_, ?_, ?_, ?_, ?_, ?_, ?_, ?_, ?_, ?_, ?_, ?_, ?_⟩
      · simp
      · intro v hv
        simp only [List.nil_append, List.mem_singleton] at hv
        exact hv ▸ hS
      · exact Or.inr rfl
      · intro hc; cases hc
      · exact qdictGet_single_self S 0
      · intro k hk
        simp [pdictGet] at hk
      · intro k hk
        simp only [List.nil_append, List.mem_singleton]
        exact hsingle k hk
      · intro v hv
        simp only [List.nil_append, List.mem_singleton] at hv
        rw [hv, qdictGet_single_self]
        rfl
      · intro v hv
        rw [List.mem_singleton] at hv
        rw [hv, qdictGet_single_self]
        rfl
      · intro v hv hvS qg hqg
        rw [List.mem_singleton] at hv
        exact absurd hv hvS
      · intro v hv; cases hv
      · intro v hv q hq
        rw [List.mem_singleton] at hv
        subst hv
        rw [qdictGet_single_self] at hq
        rw [((Option.some.injEq _ _).mp hq).symm]
        exact .nil
      · intro u hu; cases hu
      · intro u hu; cases hu
      · intro v hv
        simp only [List.nil_append, List.mem_singleton] at hv
        subst hv
        exact ⟨0, by simp, .nil⟩
    obtain ⟨stU, qU, nU, hrunU, hqGU, hwalkU, hminU, hnU, hS0U, hchU⟩ :=
      ucsLoop_reaches wf hassoc hnn hreach (bfsFuel g)
        ⟨[S], [], [], [(S, 0)]⟩ hinvU (by unfold bfsFuel; simp; omega)
    obtain ⟨stA, qA, nA, hrunA, hqGA, hwalkA, hminA, hnA, hS0A, hchA⟩ :=
      astLoop_reaches wf hassoc hnn hcons hheur hreach (bfsFuel g)
        ⟨[S], [], [], [(S, 0)], [(S, 0)]⟩ hinvA
        (by unfold bfsFuel; simp; omega)
    have hqEq : qA = qU := le_antisymm (hminA qU hwalkU) (hminU qA hwalkA)
    obtain ⟨outU, hrecU, hlenU, hheadU, hlastU⟩ :=
      reconUCS_chain wf.total hassoc hS0U nU G hchU qU hqGU
        (g.vertices.size + 1) [] 0 (by omega)
    obtain ⟨outA, hrecA, hlenA, hheadA, hlastA⟩ :=
      reconUCS_chain wf.total hassoc hS0A nA G hchA qA hqGA
        (g.vertices.size + 1) [] 0 (by omega)
    rw [hqEq] at hrecA
    refine ⟨outU, 0 + qU, parentNames g stU.parent, outA,
      parentNames g stA.parent, ?_, ?_, ?_, ?_, hheadU,
      by rw [hlastU]; rfl, hheadA, by rw [hlastA]; rfl⟩
    · rw [path_UCS_of_loop, hrunU]
      dsimp only
      rw [hrecU]
    · rw [path_Astar_of_loop, hrunA]
      dsimp only
      rw [hrecA]
    · simpa using hwalkU
    · intro w hw
      have := hminU w hw
      linarith

end GS

namespace GS

/-- The concrete adjacency of `tieGraph`. -/
theorem tieGraph_nbrs :
    tieGraph.neighboursM 0 = .ok [1, 2] ∧ nbrs tieGraph 0 = [1, 2] ∧
    tieGraph.neighboursM 1 = .ok [0, 4] ∧ nbrs tieGraph 1 = [0, 4] ∧
    tieGraph.neighboursM 2 = .ok [0, 3] ∧ nbrs tieGraph 2 = [0, 3] ∧
    tieGraph.neighboursM 3 = .ok [2] ∧ nbrs tieGraph 3 = [2] ∧
    tieGraph.neighboursM 4 = .ok [1] ∧ nbrs tieGraph 4 = [1] ∧
    tieGraph.vertices.size = 5 := by
  have t0 : tieGraph.neighboursM 0 = .ok [1, 2] := by with_unfolding_all rfl
  have t1 : tieGraph.neighboursM 1 = .ok [0, 4] := by with_unfolding_all rfl
  have t2 : tieGraph.neighboursM 2 = .ok [0, 3] := by with_unfolding_all rfl
  have t3 : tieGraph.neighboursM 3 = .ok [2] := by with_unfolding_all rfl
  have t4 : tieGraph.neighboursM 4 = .ok [1] := by with_unfolding_all rfl
  exact ⟨t0, by unfold nbrs; rw [t0], t1, by unfold nbrs; rw [t1],
    t2, by unfold nbrs; rw [t2], t3, by unfold nbrs; rw [t3],
    t4, by unfold nbrs; rw [t4], by with_unfolding_all rfl⟩

/-- `tieGraph` satisfies the adjacency well-formedness. -/
theorem tieGraph_wf : BfsWF tieGraph := by
  obtain ⟨t0, n0, t1, n1, t2, n2, t3, n3, t4, n4, hsize⟩ := tieGraph_nbrs
  have hbig : ∀ m : Nat, tieGraph.neighboursM (m + 5) = .ok [] ∧
      nbrs tieGraph (m + 5) = [] := by
    intro m
    have h1 := neighboursM_out_of_range tieGraph (m + 5)
      (by rw [hsize]; omega)
    exact ⟨h1, by unfold nbrs; rw [h1]⟩
  refine ⟨?_, ?_, ?_, ?_⟩
  · intro u
    match u with
    | 0 => rw [t0, n0]
    | 1 => rw [t1, n1]
    | 2 => rw [t2, n2]
    | 3 => rw [t3, n3]
    | 4 => rw [t4, n4]
    | m + 5 => rw [(hbig m).1, (hbig m).2]
  · intro u v hv
    match u with
    | 0 =>
      rw [n0] at hv
      rcases List.mem_cons.mp hv with h | h
      · subst h; rw [n1]; decide
      · rw [List.mem_singleton] at h; subst h; rw [n2]; decide
    | 1 =>
      rw [n1] at hv
      rcases List.mem_cons.mp hv with h | h
      · subst h; rw [n0]; decide
      · rw [List.mem_singleton] at h; subst h; rw [n4]; decide
    | 2 =>
      rw [n2] at hv
      rcases List.mem_cons.mp hv with h | h
      · subst h; rw [n0]; decide
      · rw [List.mem_singleton] at h; subst h; rw [n3]; decide
    | 3 =>
      rw [n3, List.mem_singleton] at hv
      subst hv; rw [n2]; decide
    | 4 =>
      rw [n4, List.mem_singleton] at hv
      subst hv; rw [n1]; decide
    | m + 5 =>
      rw [(hbig m).2] at hv
      cases hv
  · intro u
    match u with
    | 0 => rw [n0]; decide
    | 1 => rw [n1]; decide
    | 2 => rw [n2]; decide
    | 3 => rw [n3]; decide
    | 4 => rw [n4]; decide
    | m + 5 => rw [(hbig m).2]; simp
  · intro u v hv
    rw [hsize]
    match u with
    | 0 => rw [n0] at hv; rcases List.mem_cons.mp hv with h | h
           · subst h; decide
           · rw [List.mem_singleton] at h; subst h; decide
    | 1 => rw [n1] at hv; rcases List.mem_cons.mp hv with h | h
           · subst h; decide
           · rw [List.mem_singleton] at h; subst h; decide
    | 2 => rw [n2] at hv; rcases List.mem_cons.mp hv with h | h
           · subst h; decide
           · rw [List.mem_singleton] at h; subst h; decide
    | 3 => rw [n3, List.mem_singleton] at hv; subst hv; decide
    | 4 => rw [n4, List.mem_singleton] at hv; subst hv; decide
    | m + 5 => rw [(hbig m).2] at hv; cases hv

/-- The incidence pairs of `tieGraph` carry the costs of `tieCost`. -/
theorem tieGraph_assoc : ∀ u v e,
    (v, e) ∈ (nbrs tieGraph u).zip (tieGraph.vtx u).edgelist →
    (tieGraph.edg e).cost = some (tieCost u v) := by
  intro u
  match u with
  | 0 =>
    intro v e hve
    rw [show (nbrs tieGraph 0).zip (tieGraph.vtx 0).edgelist =
        [(1, 0), (2, 1)] from by with_unfolding_all rfl] at hve
    rcases List.mem_cons.mp hve with h | h
    · cases h; with_unfolding_all rfl
    · rw [List.mem_singleton] at h; cases h; with_unfolding_all rfl
  | 1 =>
    intro v e hve
    rw [show (nbrs tieGraph 1).zip (tieGraph.vtx 1).edgelist =
        [(0, 0), (4, 2)] from by with_unfolding_all rfl] at hve
    rcases List.mem_cons.mp hve with h | h
    · cases h; with_unfolding_all rfl
    · rw [List.mem_singleton] at h; cases h; with_unfolding_all rfl
  | 2 =>
    intro v e hve
    rw [show (nbrs tieGraph 2).zip (tieGraph.vtx 2).edgelist =
        [(0, 1), (3, 3)] from by with_unfolding_all rfl] at hve
    rcases List.mem_cons.mp hve with h | h
    · cases h; with_unfolding_all rfl
    · rw [List.mem_singleton] at h; cases h; with_unfolding_all rfl
  | 3 =>
    intro v e hve
    rw [show (nbrs tieGraph 3).zip (tieGraph.vtx 3).edgelist =
        [(2, 3)] from by with_unfolding_all rfl] at hve
    rw [List.mem_singleton] at hve; cases hve; with_unfolding_all rfl
  | 4 =>
    intro v e hve
    rw [show (nbrs tieGraph 4).zip (tieGraph.vtx 4).edgelist =
        [(1, 2)] from by with_unfolding_all rfl] at hve
    rw [List.mem_singleton] at hve; cases hve; with_unfolding_all rfl
  | m + 5 =>
    intro v e hve
    rw [show nbrs tieGraph (m + 5) = [] from by
      unfold nbrs
      rw [neighboursM_out_of_range tieGraph (m + 5) (by
        rw [show tieGraph.vertices.size = 5 from by
          with_unfolding_all rfl]
        omega)]] at hve
    cases hve

/-- The cost function of `tieGraph` is non-negative. -/
theorem tieCost_nonneg : ∀ u v, 0 ≤ tieCost u v := by
  intro u v
  unfold tieCost
  split <;> norm_num

/-- The heuristic evaluations of `tieGraph` toward vertex 4 follow
`tieHeur`. -/
theorem tieGraph_heur : ∀ v, v < tieGraph.vertices.size →
    tieGraph.heuristic_distance v 4 = .ok (tieHeur v) := by
  intro v hv
  rw [show tieGraph.vertices.size = 5 from by with_unfolding_all rfl] at hv
  match v with
  | 0 => with_unfolding_all rfl
  | 1 => with_unfolding_all rfl
  | 2 => with_unfolding_all rfl
  | 3 => with_unfolding_all rfl
  | 4 => with_unfolding_all rfl
  | m + 5 => omega

/-- `tieHeur` is consistent on `tieGraph`. -/
theorem tieGraph_cons : ∀ u v, v ∈ nbrs tieGraph u →
    tieHeur u ≤ tieCost u v + tieHeur v := by
  obtain ⟨_, n0, _, n1, _, n2, _, n3, _, n4, hsize⟩ := tieGraph_nbrs
  intro u v hv
  match u with
  | 0 =>
    rw [n0] at hv
    rcases List.mem_cons.mp hv with h | h
    · subst h; norm_num [tieHeur, tieCost]
    · rw [List.mem_singleton] at h; subst h; norm_num [tieHeur, tieCost]
  | 1 =>
    rw [n1] at hv
    rcases List.mem_cons.mp hv with h | h
    · subst h; norm_num [tieHeur, tieCost]
    · rw [List.mem_singleton] at h; subst h; norm_num [tieHeur, tieCost]
  | 2 =>
    rw [n2] at hv
    rcases List.mem_cons.mp hv with h | h
    · subst h; norm_num [tieHeur, tieCost]
    · rw [List.mem_singleton] at h; subst h; norm_num [tieHeur, tieCost]
  | 3 =>
    rw [n3, List.mem_singleton] at hv
    subst hv; norm_num [tieHeur, tieCost]
  | 4 =>
    rw [n4, List.mem_singleton] at hv
    subst hv; norm_num [tieHeur, tieCost]
  | m + 5 =>
    rw [show nbrs tieGraph (m + 5) = [] from by
      unfold nbrs
      rw [neighboursM_out_of_range tieGraph (m + 5)
        (by rw [hsize]; omega)]] at hv
    cases hv

/-- The walk `S - W - G` of cost 7 in `tieGraph`. -/
theorem tieGraph_reach : CostWalk tieGraph tieCost 0 4 7 := by
  obtain ⟨_, n0, _, n1, _, _, _, _, _, _, _⟩ := tieGraph_nbrs
  have h1 : CostWalk tieGraph tieCost 0 1 (0 + tieCost 0 1) :=
    .cons .nil (by rw [n0]; decide)
  have h2 : CostWalk tieGraph tieCost 0 4
      ((0 + tieCost 0 1) + tieCost 1 4) :=
    h1.cons (by rw [n1]; decide)
  have heq : ((0 : ℚ) + tieCost 0 1) + tieCost 1 4 = 7 := by
    norm_num [tieCost]
  rw [heq] at h2
  exact h2

/-- C4 counterexample: on `tieGraph` all premises of the claim hold -
the edge costs are non-negative, the heuristic follows the vertex
coordinates, vanishes at the goal and is consistent (hence admissible),
and the goal is reachable - and both searches return the same minimal
cost 7, yet A* explores 4 vertices where uniform-cost search explores
only 3: the explored sequence of A* is strictly longer. -/
theorem C4_counterexample_astar_explores_more :
    (∀ u v, 0 ≤ tieCost u v) ∧
    (∀ u v e, (v, e) ∈ (nbrs tieGraph u).zip (tieGraph.vtx u).edgelist →
      (tieGraph.edg e).cost = some (tieCost u v)) ∧
    (∀ v, v < tieGraph.vertices.size →
      tieGraph.heuristic_distance v 4 = .ok (tieHeur v)) ∧
    (∀ u v, v ∈ nbrs tieGraph u → tieHeur u ≤ tieCost u v + tieHeur v) ∧
    tieHeur 4 = 0 ∧
    CostWalk tieGraph tieCost 0 4 7 ∧
    ucsExploredLen tieGraph (.inr 0) (.inr 4) = .ok (some 3) ∧
    astExploredLen tieGraph (.inr 0) (.inr 4) = .ok (some 4) :=
  ⟨tieCost_nonneg, tieGraph_assoc, tieGraph_heur, tieGraph_cons, rfl,
    tieGraph_reach, by with_unfolding_all rfl, by with_unfolding_all rfl⟩

/-- C4 witness: the amended optimality theorem instantiated on
`tieGraph` from vertex `S` to vertex `G`. -/
theorem C4_witness :
    ∃ p q pn p2 pn2,
      tieGraph.path_UCS (.inr 0) (.inr 4) = .ok (some (p, q, pn)) ∧
      tieGraph.path_Astar (.inr 0) (.inr 4) = .ok (some (p2, q, pn2)) ∧
      CostWalk tieGraph tieCost 0 4 q ∧
      (∀ w, CostWalk tieGraph tieCost 0 4 w → q ≤ w) ∧
      p.head? = some 0 ∧ p.getLast? = some 4 ∧
      p2.head? = some 0 ∧ p2.getLast? = some 4 :=
  C4_amended_ucs_astar_optimal tieGraph 0 4 tieCost tieHeur
    tieGraph_wf tieGraph_assoc tieCost_nonneg
    (by rw [show tieGraph.vertices.size = 5 from by
      with_unfolding_all rfl]; decide)
    tieGraph_heur tieGraph_cons tieGraph_reach

end GS
